import Mathlib

/-!
Verification of the ClipMine canonical-unit miner (`db_ops.py`) against its
natural-language specification.

The SQLite-backed program is shallowly embedded: the database is a record of
table rows, SQL queries become list functions, and the miner's while-loops
become fuel-indexed recursions (each loop of the source strictly advances a
seed anchor bounded by the seed token stream, so the chosen fuel always
suffices; all invariant theorems are proved for every fuel).

Python dict/set iteration order is modelled by keeping key lists sorted; the
program's observable results (row sets, phrases, spans) do not depend on that
order.  Strings are treated with ASCII case folding, matching `str.lower`
composed with the ASCII word regex `[A-Za-z0-9']+` of the source.
-/

namespace Clipmine

/-! ## Tokenization (`_WORD = re.compile(r"[A-Za-z0-9']+")`, `_word_tokens`) -/

/-- A character of the word regex `[A-Za-z0-9']`. -/
def isTokChar (c : Char) : Bool :=
  ('a' ≤ c && c ≤ 'z') || ('A' ≤ c && c ≤ 'Z') || ('0' ≤ c && c ≤ '9') || c = '\''

/-- Maximal runs of characters satisfying `p`; `acc` is the current run,
reversed.  This is `re.findall` for a character-class regex. -/
def runsBy (p : Char → Bool) : List Char → List Char → List (List Char)
  | [], acc => if acc.isEmpty then [] else [acc.reverse]
  | c :: cs, acc =>
    if p c then runsBy p cs (c :: acc)
    else if acc.isEmpty then runsBy p cs []
    else acc.reverse :: runsBy p cs []

/-- `_WORD.findall(s.lower())` — lowercase word tokens of a string. -/
def word_tokens (s : String) : List String :=
  (runsBy isTokChar (s.data.map Char.toLower) []).map List.asString

/-- Python `str.split()` — maximal runs of non-whitespace characters
(used by the source for `token_len = len(phrase.split())`). -/
def wsSplit (s : String) : List String :=
  (runsBy (fun c => !c.isWhitespace) s.data []).map List.asString

/-- `" ".join(ts)`. -/
def joinSpace : List String → String
  | [] => ""
  | [t] => t
  | t :: ts => t ++ " " ++ joinSpace ts

/-- Python `str.strip()`: drop whitespace from both ends. -/
def pyStrip (s : String) : String :=
  ⟨((s.data.dropWhile Char.isWhitespace).reverse.dropWhile Char.isWhitespace).reverse⟩

/-- SQLite `TRIM`: drop space characters from both ends. -/
def trimSp (s : String) : String :=
  ⟨((s.data.dropWhile (· = ' ')).reverse.dropWhile (· = ' ')).reverse⟩

/-- `" ".join(t.strip() for t in rows).strip()` as in `seed_phrase_for`. -/
def joinStrip (ts : List String) : String :=
  pyStrip (joinSpace (ts.map pyStrip))

/-! ## Small list utilities (Python `min`, `max`, sorting, runs) -/

/-- Python `min` over a nonempty list (0 on the empty list, never used there). -/
def minList : List Nat → Nat
  | [] => 0
  | x :: xs => xs.foldl Nat.min x

/-- Python `max` over a nonempty list. -/
def maxList : List Nat → Nat
  | [] => 0
  | x :: xs => xs.foldl Nat.max x

/-- Stable insertion into a list sorted by `le`. -/
def insertLe (le : α → α → Bool) (x : α) : List α → List α
  | [] => [x]
  | y :: ys => if le x y then x :: y :: ys else y :: insertLe le x ys

/-- Stable insertion sort by `le` (models SQL `ORDER BY`). -/
def sortLe (le : α → α → Bool) : List α → List α
  | [] => []
  | x :: xs => insertLe le x (sortLe le xs)

/-- `pat` occurs at the head of `l`. -/
def headRun [DecidableEq α] : List α → List α → Bool
  | _, [] => true
  | [], _ :: _ => false
  | x :: xs, y :: ys => x = y && headRun xs ys

/-- `pat` occurs as a contiguous run somewhere in `l`
("contains as a contiguous subsequence"). -/
def hasRun [DecidableEq α] (l pat : List α) : Bool :=
  match l with
  | [] => headRun [] pat
  | _ :: xs => headRun l pat || hasRun xs pat

/-- The inclusive slice `l[lo : hi+1]` of Python (token anchors `[lo, hi]`). -/
def sliceII (l : List α) (lo hi : Nat) : List α :=
  (l.drop lo).take (hi + 1 - lo)

/-- Strictly increasing list of naturals, as a boolean. -/
def chainLtB : List Nat → Bool
  | [] => true
  | [_] => true
  | x :: y :: zs => x < y && chainLtB (y :: zs)

/-! ## The database -/

structure SegRow where
  id : Nat
  transcriptId : Nat
  startMs : Nat
  text : String
deriving DecidableEq, Repr

structure WinRow where
  transcriptId : Nat
  segStartId : Nat
  segEndId : Nat
  text : String
deriving DecidableEq, Repr

structure CURow where
  id : Nat
  repText : String
  tokenLen : Nat
deriving DecidableEq, Repr

structure OccRow where
  cuId : Nat
  transcriptId : Nat
  segStartId : Nat
  segEndId : Nat
deriving DecidableEq, Repr

/-- The tables the core reads and writes. -/
structure DB where
  segments : List SegRow
  ftsWindows : List WinRow
  canonicalUnits : List CURow
  cuOccurrences : List OccRow
deriving DecidableEq, Repr

/-- `ORDER BY start_ms, id` on two segment rows. -/
def segLe (a b : SegRow) : Bool :=
  a.startMs < b.startMs || (a.startMs = b.startMs && a.id ≤ b.id)

/-- `SELECT ... FROM segments WHERE transcript_id=? ORDER BY start_ms, id`. -/
def orderedSegs (db : DB) (tid : Nat) : List SegRow :=
  sortLe segLe (db.segments.filter (fun s => s.transcriptId = tid))

/-- Distinct transcript ids appearing in `segments`, in ascending order. -/
def segTids (db : DB) : List Nat :=
  sortLe (· ≤ ·) (db.segments.map (·.transcriptId)).dedup

/-! ## Window rebuild (`refresh_windows_all`) -/

/-- Contiguous runs of exactly `k` elements, in order (the SQL window join
with `HAVING COUNT(*) = k`; for `k = 0` the join produces no rows). -/
def kRuns (k : Nat) (l : List α) : List (List α) :=
  if k = 0 then []
  else (List.range (l.length + 1 - k)).map (fun i => (l.drop i).take k)

/-- One staged window row: ids are `MIN`/`MAX` over the run, the text is
`TRIM(GROUP_CONCAT(text, ' '))` in segment order. -/
def mkWindow (tid : Nat) (run : List SegRow) : WinRow :=
  { transcriptId := tid
    segStartId := minList (run.map (·.id))
    segEndId := maxList (run.map (·.id))
    text := trimSp (joinSpace (run.map (·.text))) }

/-- The staging table `windows_stage` built by `refresh_windows_all`. -/
def stageWindows (db : DB) (k : Nat) : List WinRow :=
  (segTids db).flatMap (fun tid => (kRuns k (orderedSegs db tid)).map (mkWindow tid))

/-- `refresh_windows_all`: build the stage inside one transaction; if it is
empty, roll back and raise; otherwise delete all of `fts_windows` and insert
the staged rows, then commit.  The returned state is the post-transaction
database. -/
def refresh_windows_all (db : DB) (k : Nat) : Except String Unit × DB :=
  let stage := stageWindows db k
  if stage.isEmpty then
    (.error "Refusing to swap in empty windows_stage (no spans built).", db)
  else
    (.ok (), { db with ftsWindows := stage })

/-! ## Phrase lookup (`fts_hits`) -/

/-- Modelled from the spec: the `fts_windows` virtual-table declaration is not
part of the sources (only `db_ops.py` uses the existing contentless FTS5
table), so phrase matching follows spec §4.3: a window row matches phrase `p`
exactly when its concatenated text contains `p` as an exact phrase under the
index's (case-insensitive) tokenizer, taken here to be the word rule of the
spec glossary.  An FTS5 query for a phrase without tokens yields no rows. -/
def ftsWindowMatch (phrase : String) (w : WinRow) : Bool :=
  !(word_tokens phrase).isEmpty && hasRun (word_tokens w.text) (word_tokens phrase)

/-- A hit row `(transcript_id, seg_start_id, seg_end_id)`. -/
def fts_hits (db : DB) (phrase : String) : List (Nat × Nat × Nat) :=
  (db.ftsWindows.filter (ftsWindowMatch phrase)).map
    (fun w => (w.transcriptId, w.segStartId, w.segEndId))

/-- `tids_from_hits`: the set of transcript ids among the hits. -/
def hitTids (hits : List (Nat × Nat × Nat)) : List Nat :=
  (hits.map (·.1)).dedup

/-! ## Seed filtering (`_good_seed`) -/

/-- `_good_seed`: at least `min_tokens` lowercase word tokens. -/
def good_seed (phrase : String) (minTokens : Nat) : Bool :=
  minTokens ≤ (word_tokens phrase).length

/-! ## Token streams and anchoring (refinement, `db_ops.py` lines 161-190) -/

/-- A transcript's token stream: lowercase word tokens of the full ordered
segment list, with the segment id of each token (`tokens` / `tok2seg`). -/
structure TokStream where
  tokens : List String
  t2s : List Nat
deriving Repr

/-- Build the stream of one full transcript, as in the anchoring loop of
`refine_with_branching`. -/
def buildStream (db : DB) (tid : Nat) : TokStream :=
  let rows := orderedSegs db tid
  { tokens := rows.flatMap (fun s => word_tokens s.text)
    t2s := rows.flatMap (fun s => List.replicate (word_tokens s.text).length s.id) }

/-- Overlap score of the occurrence at token index `i` (length `m`) with the
original segment span `[sSeg, eSeg]` — can be negative, hence `Int`. -/
def occOverlap (st : TokStream) (sSeg eSeg i m : Nat) : Int :=
  let covered := (st.t2s.drop i).take m
  (Int.ofNat (Nat.min (maxList covered) eSeg) - Int.ofNat (Nat.max (minList covered) sSeg)) + 1

/-- One step of the anchor search: keep the best (first, strictly-greater
overlap replaces) matching occurrence seen so far. -/
def anchorStep (st : TokStream) (pattern : List String) (sSeg eSeg : Nat)
    (best : Option (Nat × Nat × Int)) (i : Nat) : Option (Nat × Nat × Int) :=
  if (st.tokens.drop i).take pattern.length = pattern then
    match best with
    | none => some (i, i + pattern.length - 1, occOverlap st sSeg eSeg i pattern.length)
    | some b =>
      if occOverlap st sSeg eSeg i pattern.length > b.2.2 then
        some (i, i + pattern.length - 1, occOverlap st sSeg eSeg i pattern.length)
      else best
  else best

/-- Find the occurrence of `pattern` in the stream with the greatest overlap
score (first one on ties, as the source only replaces on strictly greater). -/
def findAnchor (st : TokStream) (pattern : List String) (sSeg eSeg : Nat) :
    Option (Nat × Nat) :=
  ((List.range (st.tokens.length + 1 - pattern.length)).foldl
    (anchorStep st pattern sSeg eSeg) none).map (fun b => (b.1, b.2.1))

/-- Anchor one span entry `(tid, sSeg, eSeg)`. -/
def anchorOf (db : DB) (pattern : List String) (sp : Nat × Nat × Nat) :
    Option (Nat × Nat) :=
  findAnchor (buildStream db sp.1) pattern sp.2.1 sp.2.2

/-- Anchor every transcript of `per_tid_spans` in order; `none` models the
early `return per_tid_spans, seed_phrase, []` at the first missing anchor. -/
def anchorAll (db : DB) (pattern : List String) :
    List (Nat × Nat × Nat) → Option (List (Nat × (Nat × Nat)))
  | [] => some []
  | sp :: rest =>
    match anchorOf db pattern sp with
    | none => none
    | some a => (anchorAll db pattern rest).map (fun l => (sp.1, a) :: l)

/-- Association lookup with a junk default (the source's dicts are only ever
read at present keys). -/
def alookup (l : List (Nat × (Nat × Nat))) (tid : Nat) : Nat × Nat :=
  match l.find? (fun p => p.1 = tid) with
  | some p => p.2
  | none => (0, 0)

/-! ## The branching expansion loop (`db_ops.py` lines 192-297) -/

/-- A child candidate: spans per transcript plus the snapshot phrase. -/
structure ChildCand where
  spans : List (Nat × Nat × Nat)
  phrase : String
deriving DecidableEq, Repr

/-- Loop state: `active`, `anchors`, `frozen_outliers`, `last_multi_active`,
`last_multi_snapshot`, `child_candidates`. -/
structure BrSt where
  active : List Nat
  anchors : Nat → Nat × Nat
  frozen : List (Nat × (Nat × Nat))
  lastAct : List Nat
  lastSnap : Nat → Nat × Nat
  children : List ChildCand

/-- Python `dict.setdefault`: record only the first freeze of a transcript. -/
def setdefault (fr : List (Nat × (Nat × Nat))) (tid : Nat) (v : Nat × Nat) :
    List (Nat × (Nat × Nat)) :=
  if fr.any (fun p => p.1 = tid) then fr else fr ++ [(tid, v)]

/-- The proposed next token in direction `dir` (`true` = RIGHT): `tokens[hi+1]`
or `tokens[lo-1]`; `none` when the stream is exhausted on that side. -/
def proposal (st : TokStream) (dir : Bool) (a : Nat × Nat) : Option String :=
  if dir then
    if a.2 + 1 < st.tokens.length then some (st.tokens.getD (a.2 + 1) "") else none
  else
    if a.1 = 0 then none else some (st.tokens.getD (a.1 - 1) "")

/-- Advance an anchor by one token in direction `dir`. -/
def advance1 (dir : Bool) (a : Nat × Nat) : Nat × Nat :=
  if dir then (a.1, a.2 + 1) else (a.1 - 1, a.2)

/-- Add `tid` to the group of `tok`, creating the group at the end on first
proposal — Python dict insertion order. -/
def addToGroups (g : List (String × List Nat)) (tok : String) (tid : Nat) :
    List (String × List Nat) :=
  match g with
  | [] => [(tok, [tid])]
  | (t, ts) :: rest =>
    if t = tok then (t, ts ++ [tid]) :: rest else (t, ts) :: addToGroups rest tok tid

/-- Walk the active list, grouping members by proposed token and collecting
exhausted members (`seed_exhausted` separately). -/
def buildGroupsAux (streams : Nat → TokStream) (dir : Bool) (seedTid : Nat)
    (anchors : Nat → Nat × Nat) :
    List Nat → List (String × List Nat) → Bool → List Nat →
    List (String × List Nat) × Bool × List Nat
  | [], g, se, ex => (g, se, ex)
  | tid :: rest, g, se, ex =>
    match proposal (streams tid) dir (anchors tid) with
    | some tok => buildGroupsAux streams dir seedTid anchors rest (addToGroups g tok tid) se ex
    | none =>
      if tid = seedTid then buildGroupsAux streams dir seedTid anchors rest g true ex
      else buildGroupsAux streams dir seedTid anchors rest g se (ex ++ [tid])

/-- First max-size group (Python `max(..., key=len)` keeps the earliest). -/
def maxGroup : List (String × List Nat) → String × List Nat
  | [] => ("", [])
  | g :: gs => gs.foldl (fun b x => if b.2.length < x.2.length then x else b) g

/-- The parent group: the group containing the seed if any, else the largest. -/
def chooseParent (seedTid : Nat) (groups : List (String × List Nat)) :
    String × List Nat :=
  match groups.find? (fun g => g.2.contains seedTid) with
  | some g => g
  | none => maxGroup groups

/-- `make_child_snapshot`: spans of the group members under the current
anchors, phrase from a representative member (the seed if present, otherwise
the group's first member — all members carry the same token slice, so the
choice does not affect the phrase). -/
def make_child_snapshot (streams : Nat → TokStream) (anchors : Nat → Nat × Nat)
    (seedTid : Nat) (tids : List Nat) : ChildCand :=
  let repTid := if tids.contains seedTid then seedTid else tids.headD 0
  let a := anchors repTid
  { spans := tids.map (fun tid =>
      let b := anchors tid
      let segs := sliceII (streams tid).t2s b.1 b.2
      (tid, minList segs, maxList segs))
    phrase := joinSpace (sliceII (streams repTid).tokens a.1 a.2) }

/-- Spawn children from non-parent groups (size ≥ `min_child_size`, at most
`max_children_per_side` per step), freezing and deactivating their members. -/
def spawnFreeze (streams : Nat → TokStream) (seedTid minChild maxChild : Nat)
    (ptok : String) (psupp : List Nat) :
    List (String × List Nat) → BrSt → Nat → BrSt
  | [], st, _ => st
  | (tok, tids) :: rest, st, spawned =>
    if tok = ptok then spawnFreeze streams seedTid minChild maxChild ptok psupp rest st spawned
    else
      let doSpawn := minChild ≤ tids.length && spawned < maxChild
      let st1 := if doSpawn then
          { st with children := st.children ++ [make_child_snapshot streams st.anchors seedTid tids] }
        else st
      let outs := tids.filter (fun t => !psupp.contains t)
      let st2 := { st1 with
        frozen := outs.foldl (fun fr t => setdefault fr t (st1.anchors t)) st1.frozen
        active := st1.active.filter (fun t => !outs.contains t) }
      spawnFreeze streams seedTid minChild maxChild ptok psupp rest st2
        (if doSpawn then spawned + 1 else spawned)

/-- Result of one iteration of the `while True` loop in `branch`. -/
inductive StepRes where
  | done (st : BrSt)
  | next (st : BrSt)

/-- Advance the anchors of the parent supporters by one token. -/
def advanceAnchors (dir : Bool) (psupp : List Nat) (anchors : Nat → Nat × Nat) :
    Nat → Nat × Nat :=
  fun t => if psupp.contains t then advance1 dir (anchors t) else anchors t

/-- The state reached by either loop outcome. -/
def stepState : StepRes → BrSt
  | .done st => st
  | .next st => st

/-- Start of the loop body: record `last_multi_active` / `last_multi_snapshot`
when at least two transcripts are active. -/
def branchSnap (st0 : BrSt) : BrSt :=
  if 2 ≤ st0.active.length
  then { st0 with lastAct := st0.active, lastSnap := st0.anchors }
  else st0

/-- Rest of the loop body after the snapshot: propose tokens, stop on seed
exhaustion, freeze exhausted members, split into groups, spawn children, stop
when fewer than 2 remain, otherwise advance the parent. -/
def branchAfter (streams : Nat → TokStream) (dir : Bool)
    (seedTid minChild maxChild : Nat) (st : BrSt) : StepRes :=
  let ge := buildGroupsAux streams dir seedTid st.anchors st.active [] false []
  let groups := ge.1
  let seedExh := ge.2.1
  let exhausted := ge.2.2
  if seedExh then .done st
  else
    let st2 := if exhausted.isEmpty then st else
      { st with
        frozen := exhausted.foldl (fun fr t => setdefault fr t (st.anchors t)) st.frozen
        active := st.active.filter (fun t => !exhausted.contains t) }
    if !exhausted.isEmpty && st2.active.length < 2 then .done st2
    else if groups.isEmpty then .done st2
    else
      let p := chooseParent seedTid groups
      let st3 := spawnFreeze streams seedTid minChild maxChild p.1 p.2 groups st2 0
      if st3.active.length < 2 then .done st3
      else .next { st3 with anchors := advanceAnchors dir p.2 st3.anchors }

/-- The body of `branch`: the snapshot followed by the grouping phase. -/
def branchStep (streams : Nat → TokStream) (dir : Bool)
    (seedTid minChild maxChild : Nat) (st0 : BrSt) : StepRes :=
  branchAfter streams dir seedTid minChild maxChild (branchSnap st0)

/-- The `while True` loop of `branch`, fuel-indexed.  Each continuing step
advances the seed anchor strictly, so fuel `|seed tokens| + 1` suffices. -/
def branchLoop (streams : Nat → TokStream) (dir : Bool)
    (seedTid minChild maxChild : Nat) : Nat → BrSt → BrSt
  | 0, st => st
  | fuel + 1, st =>
    match branchStep streams dir seedTid minChild maxChild st with
    | .done st' => st'
    | .next st' => branchLoop streams dir seedTid minChild maxChild fuel st'

/-- Fallback when fewer than 2 survivors remain: restore the last ≥2-member
snapshot; transcripts outside it keep their frozen bounds (or are frozen at
their current anchors if somehow not yet frozen). -/
def applyFallback (keys : List Nat) (st : BrSt) : BrSt :=
  if st.active.length < 2 then
    { st with
      active := st.lastAct
      anchors := fun t => if st.lastAct.contains t then st.lastSnap t else st.anchors t
      frozen := (keys.filter (fun t => !st.lastAct.contains t)).foldl
                  (fun fr t => setdefault fr t (st.anchors t)) st.frozen }
  else st

/-- The proposed tokens of all subset members, `none` if any is exhausted. -/
def growProposals (streams : Nat → TokStream) (dir : Bool)
    (anchors : Nat → Nat × Nat) : List Nat → Option (List String)
  | [] => some []
  | tid :: rest =>
    match proposal (streams tid) dir (anchors tid) with
    | none => none
    | some tok => (growProposals streams dir anchors rest).map (tok :: ·)

/-- Nonempty and all equal (`len(set(nxt)) == 1`). -/
def allEqualNE : List String → Bool
  | [] => false
  | x :: xs => xs.all (· = x)

/-- One direction of the final tighten: grow while every member's next token
exists and all agree. -/
def growDir (streams : Nat → TokStream) (dir : Bool) (act : List Nat) :
    Nat → (Nat → Nat × Nat) → Nat → Nat × Nat
  | 0, anchors => anchors
  | fuel + 1, anchors =>
    match growProposals streams dir anchors act with
    | none => anchors
    | some toks =>
      if allEqualNE toks then
        growDir streams dir act fuel
          (fun t => if act.contains t then advance1 dir (anchors t) else anchors t)
      else anchors

/-- `grow_subset`: symmetric tighten among survivors, skipped entirely on a
single-member set. -/
def grow_subset (streams : Nat → TokStream) (act : List Nat) (fuel : Nat)
    (anchors : Nat → Nat × Nat) : Nat → Nat × Nat :=
  if act.length < 2 then anchors
  else growDir streams false act fuel (growDir streams true act fuel anchors)

/-- `token_span_to_seg_span`: min/max segment id covered by a token span. -/
def token_span_to_seg_span (streams : Nat → TokStream) (tid lo hi : Nat) :
    Nat × Nat :=
  let segs := sliceII (streams tid).t2s lo hi
  (minList segs, maxList segs)

/-- Parent spans: survivors first, then frozen outliers not already present. -/
def finalizeSpans (streams : Nat → TokStream) (survivors : List Nat)
    (anchors : Nat → Nat × Nat) (frozen : List (Nat × (Nat × Nat))) :
    List (Nat × Nat × Nat) :=
  survivors.map (fun tid =>
      (tid, token_span_to_seg_span streams tid (anchors tid).1 (anchors tid).2))
    ++ (frozen.filter (fun p => !survivors.contains p.1)).map
      (fun p => (p.1, token_span_to_seg_span streams p.1 p.2.1 p.2.2))

/-- Fingerprint used for de-duplication (spans sorted by transcript id). -/
def childFp (spans : List (Nat × Nat × Nat)) (phrase : String) :
    List (Nat × Nat × Nat) × String :=
  (sortLe (fun a b => a.1 ≤ b.1) spans, phrase)

/-- Drop children equal to the parent or to an earlier child. -/
def dedupChildren (parentFp : List (Nat × Nat × Nat) × String) :
    List ChildCand → List (List (Nat × Nat × Nat) × String) → List ChildCand
  | [], _ => []
  | ch :: rest, seen =>
    let fp := childFp ch.spans ch.phrase
    if !ch.spans.isEmpty && !(fp = parentFp || seen.contains fp) then
      ch :: dedupChildren parentFp rest (fp :: seen)
    else dedupChildren parentFp rest seen

/-- Everything `refine_with_branching` computes after successful anchoring,
with the intermediate states exposed for the theorems. -/
structure RefResult where
  branchEnd : BrSt
  survivors : List Nat
  anchorsFinal : Nat → Nat × Nat
  frozen : List (Nat × (Nat × Nat))
  parentSpans : List (Nat × Nat × Nat)
  parentPhrase : String
  children : List ChildCand

/-- The branch phase of `refine_with_branching`: RIGHT branch, LEFT branch,
then the fallback. -/
def refineEnd (streams : Nat → TokStream) (keys : List Nat)
    (seedTid : Nat) (init : Nat → Nat × Nat) (minChild maxChild : Nat) : BrSt :=
  let fuel := (streams seedTid).tokens.length + 1
  let st0 : BrSt := { active := keys, anchors := init, frozen := [],
                      lastAct := keys, lastSnap := init, children := [] }
  branchLoop streams false seedTid minChild maxChild fuel
    (branchLoop streams true seedTid minChild maxChild fuel st0)

/-- The final anchors of `refine_with_branching`: the fallback state's anchors
tightened by `grow_subset` among the survivors. -/
def refineAnch (streams : Nat → TokStream) (keys : List Nat)
    (seedTid : Nat) (init : Nat → Nat × Nat) (minChild maxChild : Nat) :
    Nat → Nat × Nat :=
  grow_subset streams
    (applyFallback keys (refineEnd streams keys seedTid init minChild maxChild)).active
    ((streams seedTid).tokens.length + 1)
    (applyFallback keys (refineEnd streams keys seedTid init minChild maxChild)).anchors

/-- The anchored part of `refine_with_branching`: RIGHT branch, LEFT branch,
fallback, final tighten, span mapping, parent phrase, child de-duplication. -/
def refineCore (streams : Nat → TokStream) (keys : List Nat)
    (seedTid : Nat) (init : Nat → Nat × Nat) (minChild maxChild : Nat) :
    RefResult :=
  let stL := refineEnd streams keys seedTid init minChild maxChild
  let stF := applyFallback keys stL
  let anchorsG := refineAnch streams keys seedTid init minChild maxChild
  let spans := finalizeSpans streams stF.active anchorsG stF.frozen
  let phrase := joinSpace
    (sliceII (streams seedTid).tokens (anchorsG seedTid).1 (anchorsG seedTid).2)
  { branchEnd := stL
    survivors := stF.active
    anchorsFinal := anchorsG
    frozen := stF.frozen
    parentSpans := spans
    parentPhrase := phrase
    children := dedupChildren (childFp spans phrase) stF.children [] }

/-- `refine_with_branching`.  Returns the untouched segment-level result when
the pattern is empty or some transcript has no anchor occurrence; `none`
models the `KeyError` on `streams[seed_tid]` when the seed transcript is not
among the spans (the caller's write transaction has not begun, so no rows are
written in that case). -/
def refine_with_branching (db : DB) (spans : List (Nat × Nat × Nat))
    (seedTid : Nat) (seedPhrase : String) (minChild maxChild : Nat) :
    Option (List (Nat × Nat × Nat) × String × List ChildCand) :=
  let pattern := word_tokens seedPhrase
  if pattern.isEmpty then some (spans, seedPhrase, [])
  else
    match anchorAll db pattern spans with
    | none => some (spans, seedPhrase, [])
    | some alist =>
      if spans.any (fun sp => sp.1 = seedTid) then
        let r := refineCore (buildStream db) (spans.map (·.1)) seedTid
                   (alookup alist) minChild maxChild
        some (r.parentSpans, r.parentPhrase, r.children)
      else none

/-! ## `build_first_cu` -/

/-- Ordered segment ids of the seed transcript. -/
def seedSegIds (db : DB) (tid : Nat) : List Nat := (orderedSegs db tid).map (·.id)

/-- `seed_phrase_for` generalized to id endpoints: fetch by
`id BETWEEN lo AND hi`, strip each text, join with spaces, strip. -/
def phraseBetween (db : DB) (tid loId hiId : Nat) : String :=
  joinStrip (((orderedSegs db tid).filter
    (fun s => loId ≤ s.id && s.id ≤ hiId)).map (·.text))

/-- The running segment-level expansion state `(cur_s, cur_e, cur_hits)`. -/
structure ExpSt where
  curS : Nat
  curE : Nat
  curHits : List (Nat × Nat × Nat)
deriving Repr

/-- Greedy RIGHT expansion, fuel-indexed (the loop index `j` only grows while
`j < ids.length`, so fuel `ids.length - j` is exact): accept while the
candidate phrase still matches at least two distinct transcripts, stop at the
first rejection. -/
def expandRightAux (db : DB) (seedTid : Nat) (ids : List Nat) (i : Nat) :
    Nat → Nat → ExpSt → ExpSt
  | 0, _, cur => cur
  | fuel + 1, j, cur =>
    if j < ids.length then
      if 2 ≤ (hitTids (fts_hits db (phraseBetween db seedTid (ids.getD i 0)
          (ids.getD j 0)))).length then
        expandRightAux db seedTid ids i fuel (j + 1)
          { cur with curE := ids.getD j 0
                     curHits := fts_hits db (phraseBetween db seedTid (ids.getD i 0)
                       (ids.getD j 0)) }
      else cur
    else cur

/-- The RIGHT expansion loop of `build_first_cu` starting at index `j`. -/
def expandRight (db : DB) (seedTid : Nat) (ids : List Nat) (i j : Nat)
    (cur : ExpSt) : ExpSt :=
  expandRightAux db seedTid ids i (ids.length - j) j cur

/-- Greedy LEFT expansion; the argument is `j + 1` for candidate index `j`,
so `0` means the scan has passed the beginning. -/
def expandLeft (db : DB) (seedTid : Nat) (ids : List Nat) :
    Nat → ExpSt → ExpSt
  | 0, cur => cur
  | jp + 1, cur =>
    if 2 ≤ (hitTids (fts_hits db (phraseBetween db seedTid (ids.getD jp 0)
        cur.curE))).length then
      expandLeft db seedTid ids jp
        { cur with curS := ids.getD jp 0
                   curHits := fts_hits db (phraseBetween db seedTid (ids.getD jp 0)
                     cur.curE) }
    else cur

/-- Collapse windows to the min/max span per transcript (`per_tid`), keyed in
ascending transcript order. -/
def collapseHits (hits : List (Nat × Nat × Nat)) : List (Nat × Nat × Nat) :=
  (sortLe (· ≤ ·) (hitTids hits)).map (fun tid =>
    let mine := hits.filter (fun h => h.1 = tid)
    (tid, minList (mine.map (fun h => h.2.1)), maxList (mine.map (fun h => h.2.2))))

/-- `last_insert_rowid` of the next `canonical_units` insert. -/
def nextCuId (db : DB) : Nat := maxList (db.canonicalUnits.map (·.id)) + 1

/-- Insert one CU row (`token_len = len(phrase.split())`) plus its
occurrence rows. -/
def insertCU (db : DB) (phrase : String) (spans : List (Nat × Nat × Nat)) :
    Nat × DB :=
  let cid := nextCuId db
  (cid, { db with
    canonicalUnits := db.canonicalUnits ++
      [{ id := cid, repText := phrase, tokenLen := (wsSplit phrase).length }]
    cuOccurrences := db.cuOccurrences ++ spans.map (fun sp =>
      { cuId := cid, transcriptId := sp.1, segStartId := sp.2.1, segEndId := sp.2.2 }) })

/-- Insert each child as its own CU. -/
def insertChildren (db : DB) : List ChildCand → DB
  | [] => db
  | ch :: rest => insertChildren (insertCU db ch.phrase ch.spans).2 rest

/-- The summary dict returned by `build_first_cu`. -/
structure Summary where
  cuId : Nat
  phrase : String
  members : List (Nat × Nat × Nat)
  childrenCreated : Nat
deriving DecidableEq, Repr

/-- The single write transaction: parent CU + occurrences, then children. -/
def persistFamily (db : DB) (phrase : String) (spans : List (Nat × Nat × Nat))
    (children : List ChildCand) : Summary × DB :=
  let r := insertCU db phrase spans
  (⟨r.1, phrase, spans, children.length⟩, insertChildren r.2 children)

/-- The accepted-window branch of the scan: expand right then left, collapse
to `per_tid`, refine, persist.  A `none` from refinement models the
propagated exception — nothing is written. -/
def acceptBranch (db : DB) (seedTid : Nat) (ids : List Nat) (k i : Nat)
    (phrase : String) (hits : List (Nat × Nat × Nat)) : Option Summary × DB :=
  let r := expandRight db seedTid ids i (i + k)
             { curS := ids.getD i 0, curE := ids.getD (i + k - 1) 0, curHits := hits }
  let l := expandLeft db seedTid ids i r
  match refine_with_branching db (collapseHits l.curHits) seedTid phrase 1 4 with
  | none => (none, db)
  | some pr => let s := persistFamily db pr.2.1 pr.1 pr.2.2
               (some s.1, s.2)

/-- The seed scan, fuel-indexed (fuel `ids.length + 1 - i` is exact: the scan
leaves the window range precisely when it runs out): walk windows left to
right, skip those below the token threshold, accept the first whose hits
contain the seed and one other. -/
def scanFromAux (db : DB) (seedTid k minTokens : Nat) (ids : List Nat) :
    Nat → Nat → Option Summary × DB
  | 0, _ => (none, db)
  | fuel + 1, i =>
    if i + k ≤ ids.length then
      if !good_seed (phraseBetween db seedTid (ids.getD i 0) (ids.getD (i + k - 1) 0))
          minTokens then
        scanFromAux db seedTid k minTokens ids fuel (i + 1)
      else if 2 ≤ (hitTids (fts_hits db (phraseBetween db seedTid (ids.getD i 0)
            (ids.getD (i + k - 1) 0)))).length &&
          (hitTids (fts_hits db (phraseBetween db seedTid (ids.getD i 0)
            (ids.getD (i + k - 1) 0)))).contains seedTid then
        acceptBranch db seedTid ids k i
          (phraseBetween db seedTid (ids.getD i 0) (ids.getD (i + k - 1) 0))
          (fts_hits db (phraseBetween db seedTid (ids.getD i 0) (ids.getD (i + k - 1) 0)))
      else scanFromAux db seedTid k minTokens ids fuel (i + 1)
    else (none, db)

/-- The seed scan starting at window index `i`. -/
def scanFrom (db : DB) (seedTid k minTokens : Nat) (ids : List Nat) (i : Nat) :
    Option Summary × DB :=
  scanFromAux db seedTid k minTokens ids (ids.length + 1 - i) i

/-- `build_first_cu`.  A window size of `0` is rejected up front: the source
would eventually raise `IndexError` in that degenerate case. -/
def build_first_cu (db : DB) (seedTid k minTokens : Nat) : Option Summary × DB :=
  let ids := seedSegIds db seedTid
  if ids.length < k || k = 0 then (none, db)
  else scanFrom db seedTid k minTokens ids 0

/-- The token list the invariant claims speak about: the space-joined text of
the segments in an occurrence's range, lowercased and word-tokenized. -/
def occTokens (db : DB) (tid a b : Nat) : List String :=
  word_tokens (joinSpace (((orderedSegs db tid).filter
    (fun s => a ≤ s.id && s.id ≤ b)).map (·.text)))

/-! ## Predicates used by the invariant theorems -/

/-- A character the tokenizer can emit: lowercase letter, digit, apostrophe. -/
def isLowTokChar (c : Char) : Bool :=
  ('a' ≤ c && c ≤ 'z') || ('0' ≤ c && c ≤ '9') || c = '\''

/-- A well-formed emitted token: nonempty, all characters lowercase word
characters. -/
def goodTokB (s : String) : Bool :=
  !s.data.isEmpty && s.data.all isLowTokChar

/-- The token list of a segment row list (`tokens` of the built stream). -/
def flatTok (rows : List SegRow) : List String :=
  rows.flatMap (fun s => word_tokens s.text)

/-- The token-to-segment map of a segment row list (`tok2seg`). -/
def flatSeg (rows : List SegRow) : List Nat :=
  rows.flatMap (fun s => List.replicate (word_tokens s.text).length s.id)

/-- Junk default row for total indexing. -/
def seg0 : SegRow := ⟨0, 0, 0, ""⟩

/-- A valid anchor: `lo ≤ hi < |tokens|`. -/
def AnchOk (st : TokStream) (a : Nat × Nat) : Prop :=
  a.1 ≤ a.2 ∧ a.2 < st.tokens.length

instance (st : TokStream) (a : Nat × Nat) : Decidable (AnchOk st a) :=
  inferInstanceAs (Decidable (a.1 ≤ a.2 ∧ a.2 < st.tokens.length))

/-- `cur` contains `init`: anchors only ever grow outward. -/
def Grows (init cur : Nat × Nat) : Prop :=
  cur.1 ≤ init.1 ∧ init.2 ≤ cur.2

/-- The token slice an anchor selects. -/
def anchSlice (st : TokStream) (a : Nat × Nat) : List String :=
  sliceII st.tokens a.1 a.2

/-- The source's segment-range of an anchor. -/
def anchSpan (st : TokStream) (a : Nat × Nat) : Nat × Nat :=
  (minList (sliceII st.t2s a.1 a.2), maxList (sliceII st.t2s a.1 a.2))

/-- A child candidate is coherent: its phrase is the space-join of one token
slice, and every member's span is the segment range of an anchor carrying
exactly that slice. -/
def GoodChildP (streams : Nat → TokStream) (keys : List Nat) (ch : ChildCand) : Prop :=
  ∃ toks : List String, toks ≠ [] ∧ ch.phrase = joinSpace toks ∧
    (∃ rtid ∈ keys, ∃ b : Nat × Nat, AnchOk (streams rtid) b ∧
      anchSlice (streams rtid) b = toks) ∧
    ∀ sp ∈ ch.spans, sp.1 ∈ keys ∧
      ∃ a : Nat × Nat, AnchOk (streams sp.1) a ∧
        anchSlice (streams sp.1) a = toks ∧ sp.2 = anchSpan (streams sp.1) a

/-- The loop invariant of `refine_with_branching`'s branch phase. -/
def Inv (streams : Nat → TokStream) (seedTid : Nat) (keys : List Nat)
    (init : Nat → Nat × Nat) (st : BrSt) : Prop :=
  st.active ⊆ keys ∧ st.active.Nodup ∧ seedTid ∈ st.active ∧
  st.lastAct ⊆ keys ∧ st.lastAct.Nodup ∧ seedTid ∈ st.lastAct ∧
  2 ≤ st.lastAct.length ∧ st.active ⊆ st.lastAct ∧
  (∀ tid ∈ keys, AnchOk (streams tid) (st.anchors tid) ∧
    Grows (init tid) (st.anchors tid)) ∧
  (∀ tid ∈ st.active,
    anchSlice (streams tid) (st.anchors tid) =
      anchSlice (streams seedTid) (st.anchors seedTid)) ∧
  (∀ tid ∈ st.lastAct, AnchOk (streams tid) (st.lastSnap tid) ∧
    Grows (init tid) (st.lastSnap tid) ∧
    anchSlice (streams tid) (st.lastSnap tid) =
      anchSlice (streams seedTid) (st.lastSnap seedTid)) ∧
  (∀ p ∈ st.frozen, p.1 ∈ keys ∧ AnchOk (streams p.1) p.2 ∧ Grows (init p.1) p.2) ∧
  (st.frozen.map (·.1)).Nodup ∧
  (∀ tid ∈ keys, tid ∈ st.active ∨ tid ∈ st.frozen.map (·.1)) ∧
  (∀ ch ∈ st.children, GoodChildP streams keys ch)

/-- Every transcript's ordered segment list has strictly increasing ids (the
usual shape: autoincrement ids follow time order). -/
def alignedB (db : DB) : Bool :=
  (segTids db).all (fun tid => chainLtB ((orderedSegs db tid).map (·.id)))

/-- One window row is an honest k-window of its transcript. -/
def winOkB (db : DB) (w : WinRow) : Bool :=
  (List.range (orderedSegs db w.transcriptId).length).any (fun i =>
    (List.range ((orderedSegs db w.transcriptId).length + 1)).any (fun k =>
      decide (1 ≤ k) && decide (i + k ≤ (orderedSegs db w.transcriptId).length) &&
        w == mkWindow w.transcriptId (((orderedSegs db w.transcriptId).drop i).take k)))

/-- The window index only holds honest windows. -/
def winsOkB (db : DB) : Bool :=
  db.ftsWindows.all (winOkB db)

/-! ## Concrete corpora used by counterexamples and witnesses -/

/-- Three transcripts: the seed (1) says "a b" then "c d"; transcript 2 says
"a b c"; transcript 3 says "a b x".  With window size 1 and threshold 2 the
miner accepts "a b", refinement grows the parent to "a b c", transcript 3
diverges at "x" and is frozen at "a b". -/
def cx1segs : List SegRow :=
  [⟨1, 1, 0, "a b"⟩, ⟨2, 1, 1000, "c d"⟩, ⟨3, 2, 0, "a b c"⟩, ⟨4, 3, 0, "a b x"⟩]

/-- The corpus above with its window index built at k = 1. -/
def cx1 : DB := ⟨cx1segs, stageWindows ⟨cx1segs, [], [], []⟩ 1, [], []⟩

/-- Seed (1) says "a b" then "c"; transcript 2 says "a b c"; transcript 3
says "x a b c y".  The extended phrase "a b c" matches windows of
transcripts 2 and 3 but no window of the seed. -/
def cx4segs : List SegRow :=
  [⟨1, 1, 0, "a b"⟩, ⟨2, 1, 1000, "c"⟩, ⟨3, 2, 0, "a b c"⟩, ⟨4, 3, 0, "x a b c y"⟩]

/-- The corpus above with its window index built at k = 1. -/
def cx4 : DB := ⟨cx4segs, stageWindows ⟨cx4segs, [], [], []⟩ 1, [], []⟩

/-- A seed transcript with only two segments (scenario: k = 3 yields
nothing), plus a second transcript so the index is nonempty. -/
def db7 : DB :=
  ⟨[⟨1, 1, 0, "just two"⟩, ⟨2, 1, 1000, "segments here"⟩, ⟨3, 2, 0, "other text"⟩],
   stageWindows ⟨[⟨1, 1, 0, "just two"⟩, ⟨2, 1, 1000, "segments here"⟩,
                  ⟨3, 2, 0, "other text"⟩], [], [], []⟩ 1, [], []⟩

/-! # C3 -/

/-- C3: `refresh_windows_all` is all-or-nothing.  If the staged window set is
empty it raises and leaves the database (in particular the prior
`fts_windows` rows) unchanged; otherwise, within the single transaction, it
replaces the whole `fts_windows` table by exactly the staged set and touches
nothing else, so no intermediate row set is ever the observable outcome. -/
theorem C3_refresh_windows_all_atomic (db : DB) (k : Nat) :
    (stageWindows db k = [] ∧
      refresh_windows_all db k =
        (.error "Refusing to swap in empty windows_stage (no spans built).", db)) ∨
    (stageWindows db k ≠ [] ∧
      refresh_windows_all db k = (.ok (), { db with ftsWindows := stageWindows db k })) := by
  by_cases h : stageWindows db k = []
  · left
    refine ⟨h, ?_⟩
    simp [refresh_windows_all, h]
  · right
    refine ⟨h, ?_⟩
    simp [refresh_windows_all, List.isEmpty_iff, h]

/-! ## Generic list lemmas: `min`/`max`, sorting, runs, slices -/

theorem foldl_min_le_init : ∀ (xs : List Nat) (acc : Nat), xs.foldl Nat.min acc ≤ acc := by
  intro xs
  induction xs with
  | nil => intro acc; exact le_refl acc
  | cons x xs ih =>
    intro acc
    calc (x :: xs).foldl Nat.min acc = xs.foldl Nat.min (Nat.min acc x) := rfl
    _ ≤ Nat.min acc x := ih _
    _ ≤ acc := Nat.min_le_left _ _

theorem foldl_min_le_mem : ∀ (xs : List Nat) (acc y : Nat), y ∈ xs → xs.foldl Nat.min acc ≤ y := by
  intro xs
  induction xs with
  | nil => intro acc y hy; cases hy
  | cons x xs ih =>
    intro acc y hy
    rcases List.mem_cons.mp hy with rfl | hmem
    · calc (y :: xs).foldl Nat.min acc = xs.foldl Nat.min (Nat.min acc y) := rfl
      _ ≤ Nat.min acc y := foldl_min_le_init _ _
      _ ≤ y := Nat.min_le_right _ _
    · exact ih _ y hmem

theorem foldl_min_mem : ∀ (xs : List Nat) (acc : Nat),
    xs.foldl Nat.min acc = acc ∨ xs.foldl Nat.min acc ∈ xs := by
  intro xs
  induction xs with
  | nil => intro acc; exact Or.inl rfl
  | cons x xs ih =>
    intro acc
    rcases ih (Nat.min acc x) with h | h
    · rcases Nat.le_total acc x with hax | hxa
      · left
        rw [List.foldl_cons, h]
        exact Nat.min_eq_left hax
      · right
        rw [List.foldl_cons, h]
        have hx : Nat.min acc x = x := Nat.min_eq_right hxa
        rw [hx]
        exact List.mem_cons_self x xs
    · right
      exact List.mem_cons_of_mem x h

theorem minList_le (l : List Nat) : ∀ y ∈ l, minList l ≤ y := by
  cases l with
  | nil => intro y hy; cases hy
  | cons x xs =>
    intro y hy
    rcases List.mem_cons.mp hy with rfl | hmem
    · exact foldl_min_le_init xs y
    · exact foldl_min_le_mem xs x y hmem

theorem minList_mem (l : List Nat) (h : l ≠ []) : minList l ∈ l := by
  cases l with
  | nil => exact absurd rfl h
  | cons x xs =>
    rcases foldl_min_mem xs x with heq | hmem
    · rw [minList, heq]
      exact List.mem_cons_self x xs
    · exact List.mem_cons_of_mem x hmem

theorem foldl_max_init_le : ∀ (xs : List Nat) (acc : Nat), acc ≤ xs.foldl Nat.max acc := by
  intro xs
  induction xs with
  | nil => intro acc; exact le_refl acc
  | cons x xs ih =>
    intro acc
    calc acc ≤ Nat.max acc x := Nat.le_max_left _ _
    _ ≤ xs.foldl Nat.max (Nat.max acc x) := ih _
    _ = (x :: xs).foldl Nat.max acc := rfl

theorem foldl_max_mem_le : ∀ (xs : List Nat) (acc y : Nat), y ∈ xs → y ≤ xs.foldl Nat.max acc := by
  intro xs
  induction xs with
  | nil => intro acc y hy; cases hy
  | cons x xs ih =>
    intro acc y hy
    rcases List.mem_cons.mp hy with rfl | hmem
    · calc y ≤ Nat.max acc y := Nat.le_max_right _ _
      _ ≤ xs.foldl Nat.max (Nat.max acc y) := foldl_max_init_le _ _
      _ = (y :: xs).foldl Nat.max acc := rfl
    · exact ih _ y hmem

theorem foldl_max_mem : ∀ (xs : List Nat) (acc : Nat),
    xs.foldl Nat.max acc = acc ∨ xs.foldl Nat.max acc ∈ xs := by
  intro xs
  induction xs with
  | nil => intro acc; exact Or.inl rfl
  | cons x xs ih =>
    intro acc
    rcases ih (Nat.max acc x) with h | h
    · rcases Nat.le_total acc x with hax | hxa
      · right
        rw [List.foldl_cons, h]
        have hx : Nat.max acc x = x := Nat.max_eq_right hax
        rw [hx]
        exact List.mem_cons_self x xs
      · left
        rw [List.foldl_cons, h]
        exact Nat.max_eq_left hxa
    · right
      exact List.mem_cons_of_mem x h

theorem le_maxList (l : List Nat) : ∀ y ∈ l, y ≤ maxList l := by
  cases l with
  | nil => intro y hy; cases hy
  | cons x xs =>
    intro y hy
    rcases List.mem_cons.mp hy with rfl | hmem
    · exact foldl_max_init_le xs y
    · exact foldl_max_mem_le xs x y hmem

theorem maxList_mem (l : List Nat) (h : l ≠ []) : maxList l ∈ l := by
  cases l with
  | nil => exact absurd rfl h
  | cons x xs =>
    rcases foldl_max_mem xs x with heq | hmem
    · rw [maxList, heq]
      exact List.mem_cons_self x xs
    · exact List.mem_cons_of_mem x hmem

theorem perm_insertLe (le : α → α → Bool) (x : α) (l : List α) :
    List.Perm (insertLe le x l) (x :: l) := by
  induction l with
  | nil => exact List.Perm.refl _
  | cons y ys ih =>
    rw [insertLe]
    by_cases h : le x y = true
    · rw [if_pos h]
    · rw [if_neg h]
      exact (List.Perm.cons y ih).trans (List.Perm.swap x y ys)

theorem perm_sortLe (le : α → α → Bool) (l : List α) :
    List.Perm (sortLe le l) l := by
  induction l with
  | nil => exact List.Perm.refl _
  | cons x xs ih =>
    exact (perm_insertLe le x (sortLe le xs)).trans (List.Perm.cons x ih)

theorem mem_sortLe (le : α → α → Bool) (l : List α) (y : α) :
    y ∈ sortLe le l ↔ y ∈ l :=
  (perm_sortLe le l).mem_iff

theorem length_sortLe (le : α → α → Bool) (l : List α) :
    (sortLe le l).length = l.length :=
  (perm_sortLe le l).length_eq

theorem nodup_sortLe (le : α → α → Bool) (l : List α) (h : l.Nodup) :
    (sortLe le l).Nodup :=
  ((perm_sortLe le l).nodup_iff).mpr h

theorem headRun_iff [DecidableEq α] (l pat : List α) :
    headRun l pat = true ↔ ∃ t, l = pat ++ t := by
  induction pat generalizing l with
  | nil =>
    simp [headRun]
  | cons p ps ih =>
    cases l with
    | nil =>
      simp [headRun]
    | cons x xs =>
      rw [headRun]
      simp only [Bool.and_eq_true, decide_eq_true_eq]
      constructor
      · rintro ⟨rfl, h⟩
        obtain ⟨t, rfl⟩ := (ih xs).mp h
        exact ⟨t, rfl⟩
      · rintro ⟨t, ht⟩
        rw [List.cons_append] at ht
        injection ht with h1 h2
        subst h1
        exact ⟨rfl, (ih xs).mpr ⟨t, h2⟩⟩

theorem hasRun_iff [DecidableEq α] (l pat : List α) :
    hasRun l pat = true ↔ ∃ s t, l = s ++ pat ++ t := by
  induction l with
  | nil =>
    rw [hasRun, headRun_iff]
    constructor
    · rintro ⟨t, ht⟩
      exact ⟨[], t, by simpa using ht⟩
    · rintro ⟨s, t, hst⟩
      rcases List.append_eq_nil.mp (List.append_eq_nil.mp hst.symm).1 with ⟨h1, h2⟩
      exact ⟨t, by simp [h2, (List.append_eq_nil.mp hst.symm).2]⟩
  | cons x xs ih =>
    rw [hasRun]
    simp only [Bool.or_eq_true]
    rw [headRun_iff, ih]
    constructor
    · rintro (⟨t, ht⟩ | ⟨s, t, hst⟩)
      · exact ⟨[], t, by simpa using ht⟩
      · exact ⟨x :: s, t, by simp [hst]⟩
    · rintro ⟨s, t, hst⟩
      cases s with
      | nil =>
        left
        exact ⟨t, by simpa using hst⟩
      | cons y ys =>
        right
        rw [List.cons_append, List.cons_append] at hst
        injection hst with h1 h2
        exact ⟨ys, t, h2⟩

theorem hasRun_of_parts [DecidableEq α] (pre pat suf : List α) :
    hasRun (pre ++ pat ++ suf) pat = true :=
  (hasRun_iff _ _).mpr ⟨pre, suf, rfl⟩

theorem hasRun_trans [DecidableEq α] {big mid pat : List α}
    (h1 : hasRun big mid = true) (h2 : hasRun mid pat = true) :
    hasRun big pat = true := by
  obtain ⟨s1, t1, rfl⟩ := (hasRun_iff _ _).mp h1
  obtain ⟨s2, t2, rfl⟩ := (hasRun_iff _ _).mp h2
  refine (hasRun_iff _ _).mpr ⟨s1 ++ s2, t2 ++ t1, ?_⟩
  simp

/-! ## Slice lemmas -/

theorem sliceII_length (l : List α) (lo hi : Nat) (h1 : lo ≤ hi)
    (h2 : hi < l.length) : (sliceII l lo hi).length = hi + 1 - lo := by
  rw [sliceII, List.length_take, List.length_drop]
  omega

theorem sliceII_ne_nil (l : List α) (lo hi : Nat) (h1 : lo ≤ hi)
    (h2 : hi < l.length) : sliceII l lo hi ≠ [] := by
  intro h
  have := sliceII_length l lo hi h1 h2
  rw [h] at this
  simp at this
  omega

theorem sliceII_nested (l : List α) (lo lo' hi' hi : Nat)
    (h1 : lo ≤ lo') (h2 : lo' ≤ hi') (h3 : hi' ≤ hi) :
    ∃ pre suf, sliceII l lo hi = pre ++ sliceII l lo' hi' ++ suf := by
  refine ⟨(l.drop lo).take (lo' - lo), (l.drop (hi' + 1)).take (hi - hi'), ?_⟩
  have e1 : hi + 1 - lo = (lo' - lo) + ((hi' + 1 - lo') + (hi - hi')) := by omega
  have e2 : (l.drop lo).drop (lo' - lo) = l.drop lo' := by
    rw [List.drop_drop]
    congr 1
    omega
  have e3 : (l.drop lo').drop (hi' + 1 - lo') = l.drop (hi' + 1) := by
    rw [List.drop_drop]
    congr 1
    omega
  rw [sliceII, sliceII, e1, List.take_add, e2, List.take_add, e3, List.append_assoc]

/-! ## Tokenization lemmas -/

theorem runsBy_append_run (p : Char → Bool) (w cs acc : List Char)
    (hw : ∀ c ∈ w, p c = true) :
    runsBy p (w ++ cs) acc = runsBy p cs (w.reverse ++ acc) := by
  induction w generalizing acc with
  | nil => simp
  | cons c w' ih =>
    rw [List.cons_append, runsBy, if_pos (hw c (List.mem_cons_self c w'))]
    rw [ih _ (fun d hd => hw d (List.mem_cons_of_mem c hd))]
    simp

theorem runsBy_sep (p : Char → Bool) (sep : Char) (hsep : ¬ p sep = true)
    (l2 : List Char) :
    ∀ (l1 acc : List Char),
      runsBy p (l1 ++ sep :: l2) acc = runsBy p l1 acc ++ runsBy p l2 [] := by
  intro l1
  induction l1 with
  | nil =>
    intro acc
    rw [List.nil_append]
    simp only [runsBy]
    rw [if_neg hsep]
    by_cases ha : acc.isEmpty = true
    · rw [if_pos ha, if_pos ha, List.nil_append]
    · rw [if_neg ha, if_neg ha, List.cons_append, List.nil_append]
  | cons c l1' ih =>
    intro acc
    rw [List.cons_append]
    simp only [runsBy]
    by_cases hc : p c = true
    · rw [if_pos hc, if_pos hc]
      have := ih (c :: acc)
      simp only [runsBy] at this
      exact this
    · rw [if_neg hc, if_neg hc]
      by_cases ha : acc.isEmpty = true
      · rw [if_pos ha, if_pos ha]
        have := ih ([] : List Char)
        simp only [runsBy] at this
        exact this
      · rw [if_neg ha, if_neg ha, List.cons_append]
        have := ih ([] : List Char)
        simp only [runsBy] at this
        rw [this]

theorem runsBy_all_sep (p : Char → Bool) (l : List Char)
    (h : ∀ c ∈ l, ¬ p c = true) :
    ∀ acc, runsBy p l acc = if acc.isEmpty then [] else [acc.reverse] := by
  induction l with
  | nil => intro acc; rfl
  | cons c l' ih =>
    intro acc
    rw [runsBy, if_neg (h c (List.mem_cons_self c l'))]
    have ih' := ih (fun d hd => h d (List.mem_cons_of_mem c hd))
    by_cases ha : acc.isEmpty = true
    · rw [if_pos ha, ih' [], if_pos ha]
      rfl
    · rw [if_neg ha, ih' [], if_neg ha]
      rfl

theorem runsBy_trailing_sep (p : Char → Bool) (l2 : List Char)
    (h : ∀ c ∈ l2, ¬ p c = true) :
    ∀ (l1 acc : List Char), runsBy p (l1 ++ l2) acc = runsBy p l1 acc := by
  intro l1
  induction l1 with
  | nil =>
    intro acc
    rw [List.nil_append, runsBy_all_sep p l2 h acc, runsBy]
  | cons c l1' ih =>
    intro acc
    rw [List.cons_append]
    simp only [runsBy]
    by_cases hc : p c = true
    · rw [if_pos hc, if_pos hc, ih]
    · rw [if_neg hc, if_neg hc]
      by_cases ha : acc.isEmpty = true
      · rw [if_pos ha, if_pos ha, ih]
      · rw [if_neg ha, if_neg ha, ih]

theorem runsBy_leading_sep (p : Char → Bool) (l1 : List Char)
    (h : ∀ c ∈ l1, ¬ p c = true) (l2 : List Char) :
    runsBy p (l1 ++ l2) [] = runsBy p l2 [] := by
  induction l1 with
  | nil => rfl
  | cons c l1' ih =>
    rw [List.cons_append, runsBy, if_neg (h c (List.mem_cons_self c l1'))]
    simp only [List.isEmpty_nil, if_true]
    exact ih (fun d hd => h d (List.mem_cons_of_mem c hd))

theorem runsBy_token_props (p : Char → Bool) :
    ∀ (l acc : List Char) (t : List Char), t ∈ runsBy p l acc →
      t ≠ [] ∧ ∀ c ∈ t, c ∈ acc ∨ (c ∈ l ∧ p c = true) := by
  intro l
  induction l with
  | nil =>
    intro acc t ht
    rw [runsBy] at ht
    by_cases ha : acc.isEmpty = true
    · rw [if_pos ha] at ht
      cases ht
    · rw [if_neg ha] at ht
      rcases List.mem_singleton.mp ht with rfl
      refine ⟨?_, ?_⟩
      · simp only [ne_eq, List.reverse_eq_nil_iff]
        intro h0
        rw [h0] at ha
        exact ha rfl
      · intro c hc
        exact Or.inl (List.mem_reverse.mp hc)
  | cons x l' ih =>
    intro acc t ht
    rw [runsBy] at ht
    by_cases hx : p x = true
    · rw [if_pos hx] at ht
      obtain ⟨hne, hmem⟩ := ih _ t ht
      refine ⟨hne, ?_⟩
      intro c hc
      rcases hmem c hc with hacc | ⟨hl, hp⟩
      · rcases List.mem_cons.mp hacc with rfl | hacc'
        · exact Or.inr ⟨List.mem_cons_self c l', hx⟩
        · exact Or.inl hacc'
      · exact Or.inr ⟨List.mem_cons_of_mem x hl, hp⟩
    · rw [if_neg hx] at ht
      by_cases ha : acc.isEmpty = true
      · rw [if_pos ha] at ht
        obtain ⟨hne, hmem⟩ := ih [] t ht
        refine ⟨hne, ?_⟩
        intro c hc
        rcases hmem c hc with h0 | ⟨hl, hp⟩
        · cases h0
        · exact Or.inr ⟨List.mem_cons_of_mem x hl, hp⟩
      · rw [if_neg ha] at ht
        rcases List.mem_cons.mp ht with rfl | ht'
        · refine ⟨?_, ?_⟩
          · simp only [ne_eq, List.reverse_eq_nil_iff]
            intro h0
            rw [h0] at ha
            exact ha rfl
          · intro c hc
            exact Or.inl (List.mem_reverse.mp hc)
        · obtain ⟨hne, hmem⟩ := ih [] t ht'
          refine ⟨hne, ?_⟩
          intro c hc
          rcases hmem c hc with h0 | ⟨hl, hp⟩
          · cases h0
          · exact Or.inr ⟨List.mem_cons_of_mem x hl, hp⟩

theorem char_le_iff_toNat (a b : Char) : a ≤ b ↔ a.toNat ≤ b.toNat := by
  rw [Char.le_def]
  exact ⟨fun h => h, fun h => h⟩

theorem toLower_toNat (c : Char) :
    (Char.toLower c).toNat =
      if 65 ≤ c.toNat ∧ c.toNat ≤ 90 then c.toNat + 32 else c.toNat := by
  unfold Char.toLower
  by_cases h : c.toNat ≥ 65 ∧ c.toNat ≤ 90
  · rw [if_pos h, if_pos ⟨h.1, h.2⟩]
    have hv : (c.toNat + 32).isValidChar := Or.inl (by omega)
    simp [Char.ofNat, hv]
    rfl
  · rw [if_neg h, if_neg (by omega)]

theorem toLower_not_upper (c : Char) :
    ¬ (65 ≤ (Char.toLower c).toNat ∧ (Char.toLower c).toNat ≤ 90) := by
  rw [toLower_toNat]
  by_cases h : 65 ≤ c.toNat ∧ c.toNat ≤ 90
  · rw [if_pos h]
    omega
  · rw [if_neg h]
    omega

theorem isTok_toLower_isLow (c : Char) :
    isTokChar (Char.toLower c) = true → isLowTokChar (Char.toLower c) = true := by
  intro h
  have hd := toLower_not_upper c
  rw [isTokChar] at h
  rw [isLowTokChar]
  simp only [Bool.or_eq_true, Bool.and_eq_true, decide_eq_true_eq] at h ⊢
  have e1 : ('a' : Char).toNat = 97 := rfl
  have e2 : ('z' : Char).toNat = 122 := rfl
  have e3 : ('A' : Char).toNat = 65 := rfl
  have e4 : ('Z' : Char).toNat = 90 := rfl
  rcases h with ((haz | hAZ) | h09) | hap
  · exact Or.inl (Or.inl haz)
  · rw [char_le_iff_toNat, e3] at hAZ
    rw [char_le_iff_toNat, e4] at hAZ
    exact absurd ⟨hAZ.1, hAZ.2⟩ hd
  · exact Or.inl (Or.inr h09)
  · exact Or.inr hap

theorem isLow_isTok (c : Char) :
    isLowTokChar c = true → isTokChar c = true := by
  intro h
  rw [isLowTokChar] at h
  rw [isTokChar]
  simp only [Bool.or_eq_true, Bool.and_eq_true, decide_eq_true_eq] at h ⊢
  rcases h with (haz | h09) | hap
  · exact Or.inl (Or.inl (Or.inl haz))
  · exact Or.inl (Or.inr h09)
  · exact Or.inr hap

theorem isLow_toLower_fix (c : Char) (h : isLowTokChar c = true) :
    Char.toLower c = c := by
  rw [isLowTokChar] at h
  simp only [Bool.or_eq_true, Bool.and_eq_true, decide_eq_true_eq] at h
  apply Char.ext
  have : (Char.toLower c).toNat = c.toNat := by
    rw [toLower_toNat]
    have e1 : ('a' : Char).toNat = 97 := rfl
    have e3 : ('0' : Char).toNat = 48 := rfl
    have e5 : ('\'' : Char).toNat = 39 := rfl
    rcases h with (haz | h09) | hap
    · rw [char_le_iff_toNat, e1] at haz
      rw [if_neg (by omega)]
    · rw [char_le_iff_toNat, e3] at h09
      have h9 : c.toNat ≤ ('9' : Char).toNat := (char_le_iff_toNat c '9').mp h09.2
      have e9 : ('9' : Char).toNat = 57 := rfl
      rw [e9] at h9
      rw [if_neg (by omega)]
    · rw [hap]
      rw [if_neg (by decide)]
  exact UInt32.ext this

theorem word_tokens_good (s : String) : ∀ t ∈ word_tokens s, goodTokB t = true := by
  intro t ht
  rw [word_tokens] at ht
  obtain ⟨cs, hcs, rfl⟩ := List.mem_map.mp ht
  obtain ⟨hne, hmem⟩ := runsBy_token_props isTokChar _ [] cs hcs
  rw [goodTokB]
  simp only [Bool.and_eq_true, Bool.not_eq_true']
  constructor
  · rw [List.asString]
    exact List.isEmpty_eq_false.mpr hne
  · rw [List.all_eq_true]
    intro c hc
    rw [List.asString] at hc
    rcases hmem c hc with h0 | ⟨hl, hp⟩
    · cases h0
    · obtain ⟨c0, _, rfl⟩ := List.mem_map.mp hl
      exact isTok_toLower_isLow c0 hp

theorem ws_toLower_fix (c : Char) (h : c.isWhitespace = true) :
    Char.toLower c = c := by
  rw [Char.isWhitespace] at h
  simp only [Bool.or_eq_true, decide_eq_true_eq] at h
  rcases h with ((h1 | h2) | h3) | h4
  · rw [h1]; decide
  · rw [h2]; decide
  · rw [h3]; decide
  · rw [h4]; decide

theorem ws_not_tok (c : Char) (h : c.isWhitespace = true) :
    ¬ isTokChar c = true := by
  rw [Char.isWhitespace] at h
  simp only [Bool.or_eq_true, decide_eq_true_eq] at h
  rcases h with ((h1 | h2) | h3) | h4
  · rw [h1]; decide
  · rw [h2]; decide
  · rw [h3]; decide
  · rw [h4]; decide

theorem tokens_pad (pre mid suf : List Char)
    (hpre : ∀ c ∈ pre, c.isWhitespace = true)
    (hsuf : ∀ c ∈ suf, c.isWhitespace = true) :
    runsBy isTokChar ((pre ++ mid ++ suf).map Char.toLower) [] =
      runsBy isTokChar (mid.map Char.toLower) [] := by
  rw [List.map_append, List.map_append, List.append_assoc]
  rw [runsBy_leading_sep isTokChar (pre.map Char.toLower) ?hp]
  case hp =>
    intro d hd
    obtain ⟨c, hc, rfl⟩ := List.mem_map.mp hd
    rw [ws_toLower_fix c (hpre c hc)]
    exact ws_not_tok c (hpre c hc)
  rw [runsBy_trailing_sep isTokChar (suf.map Char.toLower) ?hs]
  case hs =>
    intro d hd
    obtain ⟨c, hc, rfl⟩ := List.mem_map.mp hd
    rw [ws_toLower_fix c (hsuf c hc)]
    exact ws_not_tok c (hsuf c hc)

theorem strip2_decomp (q : Char → Bool) (l : List Char) :
    ∃ pre suf, l = pre ++ ((l.dropWhile q).reverse.dropWhile q).reverse ++ suf ∧
      (∀ c ∈ pre, q c = true) ∧ (∀ c ∈ suf, q c = true) := by
  refine ⟨l.takeWhile q, ((l.dropWhile q).reverse.takeWhile q).reverse, ?_, ?_, ?_⟩
  · have h1 : l = l.takeWhile q ++ l.dropWhile q :=
      (List.takeWhile_append_dropWhile (p := q) (l := l)).symm
    have h2 : (l.dropWhile q).reverse =
        (l.dropWhile q).reverse.takeWhile q ++ (l.dropWhile q).reverse.dropWhile q :=
      (List.takeWhile_append_dropWhile (p := q) (l := (l.dropWhile q).reverse)).symm
    have h3 : l.dropWhile q =
        ((l.dropWhile q).reverse.dropWhile q).reverse ++
          ((l.dropWhile q).reverse.takeWhile q).reverse := by
      conv_lhs => rw [← List.reverse_reverse (l.dropWhile q)]
      rw [← List.reverse_append]
      rw [← h2]
    rw [List.append_assoc, ← h3, ← h1]
  · intro c hc
    exact List.mem_takeWhile_imp hc
  · intro c hc
    exact List.mem_takeWhile_imp (List.mem_reverse.mp hc)

theorem word_tokens_pyStrip (s : String) :
    word_tokens (pyStrip s) = word_tokens s := by
  obtain ⟨pre, suf, hdec, hpre, hsuf⟩ := strip2_decomp Char.isWhitespace s.data
  rw [word_tokens, word_tokens, pyStrip]
  congr 1
  conv_rhs => rw [hdec]
  exact (tokens_pad pre _ suf hpre hsuf).symm

theorem word_tokens_trimSp (s : String) :
    word_tokens (trimSp s) = word_tokens s := by
  obtain ⟨pre, suf, hdec, hpre, hsuf⟩ := strip2_decomp (fun c => c = ' ') s.data
  rw [word_tokens, word_tokens, trimSp]
  congr 1
  conv_rhs => rw [hdec]
  refine (tokens_pad pre _ suf ?_ ?_).symm
  · intro c hc
    have := hpre c hc
    simp only [decide_eq_true_eq] at this
    rw [this]
    decide
  · intro c hc
    have := hsuf c hc
    simp only [decide_eq_true_eq] at this
    rw [this]
    decide

theorem word_tokens_joinSpace (ts : List String) :
    word_tokens (joinSpace ts) = (ts.map word_tokens).flatten := by
  induction ts with
  | nil => rfl
  | cons t ts ih =>
    cases ts with
    | nil => simp [joinSpace]
    | cons t2 ts' =>
      rw [show joinSpace (t :: t2 :: ts') = t ++ " " ++ joinSpace (t2 :: ts') from rfl]
      have hd : (t ++ " " ++ joinSpace (t2 :: ts')).data =
          t.data ++ (' ' :: (joinSpace (t2 :: ts')).data) := by
        rw [String.data_append, String.data_append]
        rw [List.append_assoc]
        rfl
      rw [word_tokens, hd, List.map_append]
      have hsp : Char.toLower ' ' = ' ' := by decide
      have : (' ' :: (joinSpace (t2 :: ts')).data).map Char.toLower =
          ' ' :: ((joinSpace (t2 :: ts')).data.map Char.toLower) := by
        rw [List.map_cons, hsp]
      rw [this]
      rw [runsBy_sep isTokChar ' ' (by decide) _ _ []]
      rw [List.map_append, List.map_cons, List.flatten_cons]
      have e0 : (runsBy isTokChar (t.data.map Char.toLower) []).map List.asString =
          word_tokens t := rfl
      have e1 : (runsBy isTokChar ((joinSpace (t2 :: ts')).data.map Char.toLower)
          []).map List.asString = word_tokens (joinSpace (t2 :: ts')) := rfl
      rw [e0, e1, ih]

theorem word_tokens_joinStrip (ts : List String) :
    word_tokens (joinStrip ts) = (ts.map word_tokens).flatten := by
  rw [joinStrip, word_tokens_pyStrip, word_tokens_joinSpace]
  congr 1
  rw [List.map_map]
  apply List.map_congr_left
  intro t _
  exact word_tokens_pyStrip t

theorem word_tokens_single (t : String) (h : goodTokB t = true) :
    word_tokens t = [t] := by
  rw [goodTokB] at h
  simp only [Bool.and_eq_true, Bool.not_eq_true', List.all_eq_true] at h
  obtain ⟨hne, hlow⟩ := h
  have hlowfix : t.data.map Char.toLower = t.data := by
    rw [List.map_congr_left (fun c hc => isLow_toLower_fix c (hlow c hc))]
    exact List.map_id t.data
  have hdata : t.data ≠ [] := List.isEmpty_eq_false.mp hne
  rw [word_tokens, hlowfix]
  have hrun : runsBy isTokChar t.data [] = [t.data] := by
    have h2 := runsBy_append_run isTokChar t.data [] []
      (fun c hc => isLow_isTok c (hlow c hc))
    rw [List.append_nil] at h2
    rw [h2, runsBy, List.append_nil]
    rw [if_neg ?c1, List.reverse_reverse]
    case c1 =>
      rw [List.isEmpty_iff, List.reverse_eq_nil_iff]
      exact hdata
  rw [hrun]
  rfl

theorem word_tokens_join_of_good (toks : List String)
    (h : ∀ t ∈ toks, goodTokB t = true) :
    word_tokens (joinSpace toks) = toks := by
  rw [word_tokens_joinSpace]
  induction toks with
  | nil => rfl
  | cons t ts ih =>
    rw [List.map_cons, List.flatten_cons]
    rw [word_tokens_single t (h t (List.mem_cons_self t ts))]
    rw [ih (fun u hu => h u (List.mem_cons_of_mem t hu))]
    rfl

/-! ## Token-stream structure lemmas -/

theorem flatTok_cons (r : SegRow) (rows : List SegRow) :
    flatTok (r :: rows) = word_tokens r.text ++ flatTok rows := by
  rw [flatTok, List.flatMap_cons, ← flatTok]

theorem flatSeg_cons (r : SegRow) (rows : List SegRow) :
    flatSeg (r :: rows) =
      List.replicate (word_tokens r.text).length r.id ++ flatSeg rows := by
  rw [flatSeg, List.flatMap_cons, ← flatSeg]

theorem flatSeg_length (rows : List SegRow) :
    (flatSeg rows).length = (flatTok rows).length := by
  induction rows with
  | nil => rfl
  | cons r rest ih =>
    rw [flatTok_cons, flatSeg_cons, List.length_append, List.length_append,
      List.length_replicate, ih]

theorem flatTok_append (a b : List SegRow) :
    flatTok (a ++ b) = flatTok a ++ flatTok b := by
  rw [flatTok, List.flatMap_append, ← flatTok, ← flatTok]

theorem mem_flatSeg (rows : List SegRow) (x : Nat) (h : x ∈ flatSeg rows) :
    ∃ s ∈ rows, x = s.id := by
  induction rows with
  | nil => cases h
  | cons r rest ih =>
    rw [flatSeg_cons] at h
    rcases List.mem_append.mp h with h1 | h2
    · exact ⟨r, List.mem_cons_self r rest, List.eq_of_mem_replicate h1⟩
    · obtain ⟨s, hs, rfl⟩ := ih h2
      exact ⟨s, List.mem_cons_of_mem r hs, rfl⟩

theorem flatPos (rows : List SegRow) :
    ∀ h : Nat, h < (flatTok rows).length →
      ∃ q, q < rows.length ∧
        (flatSeg rows).getD h 0 = (rows.getD q seg0).id ∧
        (flatTok (rows.take q)).length ≤ h ∧
        h < (flatTok (rows.take (q + 1))).length := by
  induction rows with
  | nil =>
    intro h hh
    simp [flatTok] at hh
  | cons r rest ih =>
    intro h hh
    rw [flatTok_cons, List.length_append] at hh
    by_cases hn : h < (word_tokens r.text).length
    · refine ⟨0, by simp, ?_, by simp [flatTok], ?_⟩
      · rw [flatSeg_cons,
          List.getD_append _ _ _ _ (by rw [List.length_replicate]; exact hn)]
        rw [List.getD_eq_getElem?_getD]
        simp [List.getElem?_replicate, hn]
      · rw [List.take_succ_cons, List.take_zero, flatTok_cons]
        simpa [flatTok] using hn
    · have hrest : h - (word_tokens r.text).length < (flatTok rest).length := by omega
      obtain ⟨q, hq1, hq2, hq3, hq4⟩ := ih _ hrest
      refine ⟨q + 1, by simpa using hq1, ?_, ?_, ?_⟩
      · rw [flatSeg_cons,
          List.getD_append_right _ _ _ _ (by rw [List.length_replicate]; omega)]
        rw [List.length_replicate, List.getD_cons_succ]
        exact hq2
      · rw [List.take_succ_cons, flatTok_cons, List.length_append]
        omega
      · rw [List.take_succ_cons, flatTok_cons, List.length_append]
        omega

theorem flatSeg_sorted (rows : List SegRow)
    (hid : List.Pairwise (· < ·) (rows.map (·.id))) :
    List.Pairwise (· ≤ ·) (flatSeg rows) := by
  induction rows with
  | nil => exact List.Pairwise.nil
  | cons r rest ih =>
    rw [List.map_cons, List.pairwise_cons] at hid
    rw [flatSeg_cons]
    apply List.pairwise_append.mpr
    refine ⟨?_, ih hid.2, ?_⟩
    · apply List.pairwise_replicate.mpr
      right
      exact le_refl _
    · intro x hx y hy
      have hx' := List.eq_of_mem_replicate hx
      obtain ⟨s, hs, rfl⟩ := mem_flatSeg rest y hy
      subst hx'
      exact le_of_lt (hid.1 s.id (List.mem_map.mpr ⟨s, hs, rfl⟩))

theorem mem_sliceII (l : List Nat) (lo hi : Nat) (h2 : hi < l.length) (y : Nat)
    (hy : y ∈ sliceII l lo hi) :
    ∃ j, lo ≤ j ∧ j ≤ hi ∧ j < l.length ∧ y = l.getD j 0 := by
  rw [sliceII] at hy
  obtain ⟨i, hilt, hieq⟩ := List.mem_iff_getElem.mp hy
  have hi1 : i < hi + 1 - lo := by
    have := List.length_take (hi + 1 - lo) (l.drop lo)
    omega
  have hi2 : lo + i < l.length := by
    have h3 := hilt
    rw [List.length_take, List.length_drop] at h3
    omega
  refine ⟨lo + i, by omega, by omega, hi2, ?_⟩
  rw [List.getElem_take, List.getElem_drop] at hieq
  rw [List.getD_eq_getElem l 0 hi2, hieq]

theorem getD_mem_sliceII (l : List Nat) (lo hi j : Nat) (hj1 : lo ≤ j)
    (hj2 : j ≤ hi) (hj3 : hi < l.length) : l.getD j 0 ∈ sliceII l lo hi := by
  rw [sliceII]
  have hjl : j < l.length := by omega
  rw [List.getD_eq_getElem l 0 hjl]
  apply List.mem_iff_getElem.mpr
  refine ⟨j - lo, ?_, ?_⟩
  · rw [List.length_take, List.length_drop]
    omega
  · rw [List.getElem_take, List.getElem_drop]
    congr 1
    omega

theorem pairwise_le_getD (l : List Nat) (hs : List.Pairwise (· ≤ ·) l)
    (i j : Nat) (hij : i ≤ j) (hj : j < l.length) :
    l.getD i 0 ≤ l.getD j 0 := by
  have hi : i < l.length := by omega
  rw [List.getD_eq_getElem l 0 hi, List.getD_eq_getElem l 0 hj]
  rcases Nat.eq_or_lt_of_le hij with rfl | hlt
  · exact le_refl _
  · exact List.pairwise_iff_getElem.mp hs i j hi hj hlt

theorem slice_min_max (l : List Nat) (hs : List.Pairwise (· ≤ ·) l)
    (lo hi : Nat) (h1 : lo ≤ hi) (h2 : hi < l.length) :
    minList (sliceII l lo hi) = l.getD lo 0 ∧
    maxList (sliceII l lo hi) = l.getD hi 0 := by
  have hne : sliceII l lo hi ≠ [] := sliceII_ne_nil l lo hi h1 h2
  have hlomem : l.getD lo 0 ∈ sliceII l lo hi :=
    getD_mem_sliceII l lo hi lo (le_refl lo) h1 h2
  have hhimem : l.getD hi 0 ∈ sliceII l lo hi :=
    getD_mem_sliceII l lo hi hi h1 (le_refl hi) h2
  constructor
  · apply Nat.le_antisymm
    · exact minList_le _ _ hlomem
    · obtain ⟨j, hj1, hj2, hj3, hjeq⟩ :=
        mem_sliceII l lo hi h2 _ (minList_mem _ hne)
      rw [hjeq]
      exact pairwise_le_getD l hs lo j hj1 (by omega)
  · apply Nat.le_antisymm
    · obtain ⟨j, hj1, hj2, hj3, hjeq⟩ :=
        mem_sliceII l lo hi h2 _ (maxList_mem _ hne)
      rw [hjeq]
      exact pairwise_le_getD l hs j hi hj2 h2
    · exact le_maxList _ _ hhimem

theorem flatTok_take_split (rows : List SegRow) (a b : Nat) (hab : a ≤ b) :
    flatTok (rows.take b) =
      flatTok (rows.take a) ++ flatTok ((rows.drop a).take (b - a)) := by
  rw [← flatTok_append]
  congr 1
  rw [← List.take_add]
  congr 1
  omega

theorem flatTok_take_mono (rows : List SegRow) (a b : Nat) (hab : a ≤ b) :
    (flatTok (rows.take a)).length ≤ (flatTok (rows.take b)).length := by
  rw [flatTok_take_split rows a b hab, List.length_append]
  omega

/-- The token slice `[lo, hi]` lies contiguously inside the token flattening
of the row window `[p, q]`, where `p`, `q` are the rows owning tokens `lo`
and `hi` — the heart of the occurrence-containment invariant. -/
theorem token_slice_in_rows (rows : List SegRow) (lo hi : Nat)
    (h1 : lo ≤ hi) (h2 : hi < (flatTok rows).length) :
    ∃ p q, p ≤ q ∧ q < rows.length ∧
      (flatSeg rows).getD lo 0 = (rows.getD p seg0).id ∧
      (flatSeg rows).getD hi 0 = (rows.getD q seg0).id ∧
      ∃ pre suf, flatTok ((rows.drop p).take (q + 1 - p)) =
        pre ++ sliceII (flatTok rows) lo hi ++ suf := by
  obtain ⟨p, hp1, hp2, hp3, hp4⟩ := flatPos rows lo (by omega)
  obtain ⟨q, hq1, hq2, hq3, hq4⟩ := flatPos rows hi h2
  have hpq : p ≤ q := by
    by_contra hgt
    have : q + 1 ≤ p := by omega
    have := flatTok_take_mono rows (q + 1) p this
    omega
  refine ⟨p, q, hpq, hq1, hp2, hq2, ?_⟩
  have hsplit := flatTok_take_split rows p (q + 1) (by omega)
  set A := flatTok (rows.take p) with hA
  set B := flatTok (rows.take (q + 1)) with hB
  set X := flatTok ((rows.drop p).take (q + 1 - p)) with hX
  have hBl : hi < B.length := hq4
  have hAl : A.length ≤ lo := hp3
  have hflat : flatTok rows = B ++ flatTok (rows.drop (q + 1)) := by
    rw [← flatTok_append, List.take_append_drop]
  have hslice : sliceII (flatTok rows) lo hi = sliceII B lo hi := by
    rw [sliceII, sliceII, hflat]
    rw [List.drop_append_eq_append_drop]
    rw [List.take_append_eq_append_take]
    have e1 : hi + 1 - lo - (B.drop lo).length = 0 := by
      rw [List.length_drop]
      omega
    rw [e1, List.take_zero, List.append_nil]
  have hBX : B.drop lo = X.drop (lo - A.length) := by
    rw [hsplit]
    rw [List.drop_append_eq_append_drop]
    have e2 : A.drop lo = [] := by
      apply List.drop_eq_nil_of_le
      omega
    rw [e2, List.nil_append]
  refine ⟨X.take (lo - A.length), X.drop (hi + 1 - A.length), ?_⟩
  rw [hslice, sliceII, hBX]
  have hXdec : X = X.take (lo - A.length) ++ X.drop (lo - A.length) :=
    (List.take_append_drop _ _).symm
  conv_lhs => rw [hXdec]
  rw [List.append_assoc]
  congr 1
  have hXdec2 : X.drop (lo - A.length) =
      (X.drop (lo - A.length)).take (hi + 1 - lo) ++
        (X.drop (lo - A.length)).drop (hi + 1 - lo) :=
    (List.take_append_drop _ _).symm
  conv_lhs => rw [hXdec2]
  congr 1
  rw [List.drop_drop]
  congr 1
  omega

theorem filter_eq_slice (l : List SegRow) (P : SegRow → Bool) :
    ∀ (p q : Nat), q < l.length → p ≤ q →
      (∀ j (h : j < l.length), (P l[j] = true ↔ (p ≤ j ∧ j ≤ q))) →
      l.filter P = (l.drop p).take (q + 1 - p) := by
  induction l with
  | nil =>
    intro p q hq _ _
    simp at hq
  | cons x l' ih =>
    intro p q hq hpq hP
    cases p with
    | zero =>
      have hx : P x = true := (hP 0 (by simp)).mpr ⟨le_refl 0, Nat.zero_le q⟩
      rw [List.filter_cons_of_pos hx]
      rw [List.drop_zero, Nat.sub_zero, List.take_succ_cons]
      cases q with
      | zero =>
        rw [List.take_zero]
        congr 1
        rw [List.filter_eq_nil_iff]
        intro a ha
        obtain ⟨j, hj, hjeq⟩ := List.mem_iff_getElem.mp ha
        have := hP (j + 1) (by simpa using hj)
        rw [List.getElem_cons_succ, hjeq] at this
        intro hPa
        have := this.mp hPa
        omega
      | succ q' =>
        congr 1
        have := ih 0 q' (by simpa using hq) (Nat.zero_le q') ?_
        · rw [this, List.drop_zero, Nat.sub_zero]
        · intro j hj
          have := hP (j + 1) (by simpa using hj)
          rw [List.getElem_cons_succ] at this
          rw [this]
          omega
    | succ p' =>
      have hx : ¬ P x = true := by
        intro hPx
        have := (hP 0 (by simp)).mp hPx
        omega
      rw [List.filter_cons_of_neg hx]
      rw [List.drop_succ_cons]
      have hq' : q - 1 < l'.length := by
        simp at hq
        omega
      have := ih p' (q - 1) hq' (by omega) ?_
      · rw [this]
        congr 1
        omega
      · intro j hj
        have := hP (j + 1) (by simpa using hj)
        rw [List.getElem_cons_succ] at this
        rw [this]
        omega

theorem pairwise_id_lt_getD (rows : List SegRow)
    (hid : List.Pairwise (· < ·) (rows.map (·.id)))
    (i j : Nat) (hij : i < j) (hj : j < rows.length) :
    (rows.getD i seg0).id < (rows.getD j seg0).id := by
  have hi : i < rows.length := by omega
  rw [List.getD_eq_getElem rows seg0 hi, List.getD_eq_getElem rows seg0 hj]
  have hmap := List.pairwise_iff_getElem.mp hid i j
    (by simpa using hi) (by simpa using hj) hij
  simpa using hmap

theorem id_interval_filter (rows : List SegRow)
    (hid : List.Pairwise (· < ·) (rows.map (·.id)))
    (p q : Nat) (hpq : p ≤ q) (hq : q < rows.length) :
    rows.filter (fun s => (rows.getD p seg0).id ≤ s.id &&
        s.id ≤ (rows.getD q seg0).id) = (rows.drop p).take (q + 1 - p) := by
  apply filter_eq_slice rows _ p q hq hpq
  intro j hj
  simp only [Bool.and_eq_true, decide_eq_true_eq]
  have hjD : rows[j] = rows.getD j seg0 := (List.getD_eq_getElem rows seg0 hj).symm
  rw [hjD]
  constructor
  · rintro ⟨hle1, hle2⟩
    constructor
    · by_contra hc
      have : j < p := by omega
      have := pairwise_id_lt_getD rows hid j p this (by omega)
      omega
    · by_contra hc
      have : q < j := by omega
      have := pairwise_id_lt_getD rows hid q j this hj
      omega
  · rintro ⟨h1, h2⟩
    constructor
    · rcases Nat.eq_or_lt_of_le h1 with rfl | hlt
      · exact le_refl _
      · exact le_of_lt (pairwise_id_lt_getD rows hid p j hlt hj)
    · rcases Nat.eq_or_lt_of_le h2 with rfl | hlt
      · exact le_refl _
      · exact le_of_lt (pairwise_id_lt_getD rows hid j q hlt hq)

/-! ## Stream glue: occurrence text contains anchored token slices -/

theorem buildStream_eq (db : DB) (tid : Nat) :
    buildStream db tid =
      ⟨flatTok (orderedSegs db tid), flatSeg (orderedSegs db tid)⟩ := rfl

theorem occTokens_eq_flatMap (db : DB) (tid a b : Nat) :
    occTokens db tid a b =
      flatTok ((orderedSegs db tid).filter (fun s => a ≤ s.id && s.id ≤ b)) := by
  rw [occTokens, word_tokens_joinSpace, flatTok, List.flatMap_def, List.map_map]
  rfl

/-- An anchored token slice is contained, as a contiguous run, in the
word-token list of the segments in its own segment range. -/
theorem anchor_occ_contains (db : DB) (tid : Nat)
    (hal : List.Pairwise (· < ·) ((orderedSegs db tid).map (·.id)))
    (lo hi : Nat) (h1 : lo ≤ hi) (h2 : hi < (buildStream db tid).tokens.length) :
    hasRun (occTokens db tid (anchSpan (buildStream db tid) (lo, hi)).1
        (anchSpan (buildStream db tid) (lo, hi)).2)
      (anchSlice (buildStream db tid) (lo, hi)) = true := by
  set rows := orderedSegs db tid with hrows
  have h2' : hi < (flatTok rows).length := h2
  have hseglen : hi < (flatSeg rows).length := by
    rw [flatSeg_length]
    exact h2'
  have hsorted := flatSeg_sorted rows hal
  have hmm := slice_min_max (flatSeg rows) hsorted lo hi h1 hseglen
  obtain ⟨p, q, hpq, hql, hploid, hqhiid, pre, suf, hdec⟩ :=
    token_slice_in_rows rows lo hi h1 h2'
  have hspan : anchSpan (buildStream db tid) (lo, hi) =
      ((rows.getD p seg0).id, (rows.getD q seg0).id) := by
    rw [anchSpan, buildStream_eq]
    simp only
    rw [hmm.1, hmm.2, hploid, hqhiid]
  rw [hspan]
  simp only
  rw [occTokens_eq_flatMap]
  rw [← hrows]
  rw [id_interval_filter rows hal p q hpq hql]
  have hslice : anchSlice (buildStream db tid) (lo, hi) =
      sliceII (flatTok rows) lo hi := rfl
  rw [hslice]
  rw [show ((rows.drop p).take (q + 1 - p)) = (List.take (q + 1 - p) (List.drop p rows))
    from rfl] at hdec
  rw [hdec]
  exact hasRun_of_parts pre _ suf

/-! ## `findAnchor` success specification -/

theorem foldl_anchorStep_shape (st : TokStream) (pattern : List String)
    (sSeg eSeg : Nat) (l : List Nat)
    (hl : ∀ i ∈ l, i + pattern.length ≤ st.tokens.length) :
    ∀ acc : Option (Nat × Nat × Int),
      (acc = none ∨ ∃ i ov, acc = some (i, i + pattern.length - 1, ov) ∧
        (st.tokens.drop i).take pattern.length = pattern ∧
        i + pattern.length ≤ st.tokens.length) →
      (l.foldl (anchorStep st pattern sSeg eSeg) acc = none ∨
        ∃ i ov, l.foldl (anchorStep st pattern sSeg eSeg) acc =
            some (i, i + pattern.length - 1, ov) ∧
          (st.tokens.drop i).take pattern.length = pattern ∧
          i + pattern.length ≤ st.tokens.length) := by
  induction l with
  | nil => intro acc hacc; exact hacc
  | cons x xs ih =>
    intro acc hacc
    rw [List.foldl_cons]
    apply ih (fun i hi => hl i (List.mem_cons_of_mem x hi))
    unfold anchorStep
    by_cases ht : (st.tokens.drop x).take pattern.length = pattern
    · rw [if_pos ht]
      rcases hacc with rfl | ⟨i, ov, rfl, hm, hle⟩
      · exact Or.inr ⟨x, _, rfl, ht, hl x (List.mem_cons_self x xs)⟩
      · by_cases hov : occOverlap st sSeg eSeg x pattern.length > ov
        · simp only [hov, if_true]
          exact Or.inr ⟨x, _, rfl, ht, hl x (List.mem_cons_self x xs)⟩
        · simp only [hov, if_false]
          exact Or.inr ⟨i, ov, rfl, hm, hle⟩
    · rw [if_neg ht]
      exact hacc

theorem findAnchor_some_spec (st : TokStream) (pattern : List String)
    (sSeg eSeg lo hi : Nat)
    (h : findAnchor st pattern sSeg eSeg = some (lo, hi)) :
    (st.tokens.drop lo).take pattern.length = pattern ∧
    hi = lo + pattern.length - 1 ∧ lo + pattern.length ≤ st.tokens.length := by
  unfold findAnchor at h
  have hshape := foldl_anchorStep_shape st pattern sSeg eSeg
    (List.range (st.tokens.length + 1 - pattern.length)) ?hb none (Or.inl rfl)
  case hb =>
    intro i hi2
    rw [List.mem_range] at hi2
    omega
  rcases hshape with hnone | ⟨i, ov, heq, hm, hle⟩
  · rw [hnone] at h
    cases h
  · rw [heq] at h
    simp only [Option.map_some'] at h
    injection h with h1
    injection h1 with h2 h3
    subst h2
    subst h3
    exact ⟨hm, rfl, hle⟩

theorem findAnchor_some_anchOk (st : TokStream) (pattern : List String)
    (sSeg eSeg lo hi : Nat) (hp : pattern ≠ [])
    (h : findAnchor st pattern sSeg eSeg = some (lo, hi)) :
    AnchOk st (lo, hi) ∧ anchSlice st (lo, hi) = pattern := by
  obtain ⟨hm, rfl, hle⟩ := findAnchor_some_spec st pattern sSeg eSeg lo _ h
  have hm1 : 1 ≤ pattern.length := List.length_pos.mpr hp
  refine ⟨⟨by omega, by omega⟩, ?_⟩
  rw [anchSlice, sliceII]
  rw [show lo + pattern.length - 1 + 1 - lo = pattern.length from by omega]
  exact hm

theorem anchorAll_some_lookup (db : DB) (pattern : List String) :
    ∀ (spans : List (Nat × Nat × Nat)) (alist : List (Nat × (Nat × Nat))),
      (spans.map (·.1)).Nodup →
      anchorAll db pattern spans = some alist →
      ∀ sp ∈ spans, anchorOf db pattern sp = some (alookup alist sp.1) := by
  intro spans
  induction spans with
  | nil =>
    intro alist _ _ sp hsp
    cases hsp
  | cons x xs ih =>
    intro alist hnd hsome sp hsp
    rw [anchorAll] at hsome
    cases hx : anchorOf db pattern x with
    | none =>
      rw [hx] at hsome
      cases hsome
    | some a =>
      rw [hx] at hsome
      cases hrest : anchorAll db pattern xs with
      | none =>
        rw [hrest] at hsome
        cases hsome
      | some rest =>
        rw [hrest] at hsome
        simp only [Option.map_some] at hsome
        injection hsome with hsome
        subst hsome
        rw [List.map_cons, List.nodup_cons] at hnd
        rcases List.mem_cons.mp hsp with rfl | hxs
        · rw [hx]
          rw [alookup]
          simp
        · have hne : sp.1 ≠ x.1 := by
            intro hcontra
            exact hnd.1 (hcontra ▸ List.mem_map.mpr ⟨sp, hxs, rfl⟩)
          have := ih rest hnd.2 hrest sp hxs
          rw [this]
          congr 1
          rw [alookup, alookup]
          rw [List.find?_cons_of_neg]
          simp only [decide_eq_true_eq]
          exact fun hc => hne hc.symm

/-! ## Anchor advance and freeze bookkeeping lemmas -/

theorem sliceII_extend_right (l : List String) (lo hi : Nat) (h1 : lo ≤ hi)
    (h2 : hi + 1 < l.length) :
    sliceII l lo (hi + 1) = sliceII l lo hi ++ [l.getD (hi + 1) ""] := by
  rw [sliceII, sliceII]
  have e1 : hi + 1 + 1 - lo = (hi + 1 - lo) + 1 := by omega
  rw [e1, List.take_succ]
  congr 1
  have hidx : hi + 1 - lo < (l.drop lo).length := by
    rw [List.length_drop]
    omega
  rw [List.getElem?_eq_getElem hidx]
  rw [List.getElem_drop]
  rw [Option.toList_some]
  congr 1
  rw [List.getD_eq_getElem l "" (by omega)]
  congr 1
  omega

theorem sliceII_extend_left (l : List String) (lo hi : Nat) (h0 : 1 ≤ lo)
    (h1 : lo ≤ hi) (h2 : hi < l.length) :
    sliceII l (lo - 1) hi = l.getD (lo - 1) "" :: sliceII l lo hi := by
  rw [sliceII, sliceII]
  have hlt : lo - 1 < l.length := by omega
  rw [List.drop_eq_getElem_cons hlt]
  have e1 : hi + 1 - (lo - 1) = (hi + 1 - lo) + 1 := by omega
  rw [e1]
  rw [show lo - 1 + 1 = lo from by omega]
  rw [List.take_succ_cons]
  congr 1
  rw [List.getD_eq_getElem l "" hlt]

theorem proposal_right_some (st : TokStream) (a : Nat × Nat) (tok : String)
    (h : proposal st true a = some tok) :
    a.2 + 1 < st.tokens.length ∧ tok = st.tokens.getD (a.2 + 1) "" := by
  rw [proposal] at h
  simp only [if_true] at h
  by_cases hb : a.2 + 1 < st.tokens.length
  · rw [if_pos hb] at h
    injection h with h
    exact ⟨hb, h.symm⟩
  · rw [if_neg hb] at h
    cases h

theorem proposal_left_some (st : TokStream) (a : Nat × Nat) (tok : String)
    (h : proposal st false a = some tok) :
    1 ≤ a.1 ∧ tok = st.tokens.getD (a.1 - 1) "" := by
  rw [proposal] at h
  simp only [Bool.false_eq_true, if_false] at h
  by_cases hb : a.1 = 0
  · rw [if_pos hb] at h
    cases h
  · rw [if_neg hb] at h
    injection h with h
    exact ⟨by omega, h.symm⟩

theorem advance1_anchOk (st : TokStream) (dir : Bool) (a : Nat × Nat) (tok : String)
    (hok : AnchOk st a) (hp : proposal st dir a = some tok) :
    AnchOk st (advance1 dir a) := by
  obtain ⟨hk1, hk2⟩ := hok
  cases dir with
  | true =>
    obtain ⟨hb, _⟩ := proposal_right_some st a tok hp
    refine ⟨?_, ?_⟩
    · rw [advance1]
      simp only [if_true]
      omega
    · rw [advance1]
      simp only [if_true]
      exact hb
  | false =>
    obtain ⟨hb, _⟩ := proposal_left_some st a tok hp
    refine ⟨?_, ?_⟩
    · rw [advance1]
      simp only [Bool.false_eq_true, if_false]
      omega
    · rw [advance1]
      simp only [Bool.false_eq_true, if_false]
      exact hk2

theorem advance1_grows (dir : Bool) (init a : Nat × Nat) (h : Grows init a) :
    Grows init (advance1 dir a) := by
  obtain ⟨h1, h2⟩ := h
  cases dir with
  | true =>
    refine ⟨?_, ?_⟩
    · rw [advance1]
      simp only [if_true]
      omega
    · rw [advance1]
      simp only [if_true]
      omega
  | false =>
    refine ⟨?_, ?_⟩
    · rw [advance1]
      simp only [Bool.false_eq_true, if_false]
      omega
    · rw [advance1]
      simp only [Bool.false_eq_true, if_false]
      omega

theorem slice_advance (st : TokStream) (dir : Bool) (a : Nat × Nat) (tok : String)
    (hok : AnchOk st a) (hp : proposal st dir a = some tok) :
    anchSlice st (advance1 dir a) =
      (if dir then anchSlice st a ++ [tok] else tok :: anchSlice st a) := by
  cases dir with
  | true =>
    obtain ⟨hb, htok⟩ := proposal_right_some st a tok hp
    rw [if_pos rfl]
    rw [anchSlice, anchSlice, advance1]
    simp only [if_true]
    rw [htok]
    exact sliceII_extend_right st.tokens a.1 a.2 hok.1 hb
  | false =>
    obtain ⟨hb, htok⟩ := proposal_left_some st a tok hp
    rw [if_neg (by simp)]
    rw [anchSlice, anchSlice, advance1]
    simp only [Bool.false_eq_true, if_false]
    rw [htok]
    exact sliceII_extend_left st.tokens a.1 a.2 hb hok.1 hok.2

theorem setdefault_mem (fr : List (Nat × (Nat × Nat))) (tid : Nat) (v : Nat × Nat) :
    ∀ p ∈ setdefault fr tid v, p ∈ fr ∨ p = (tid, v) := by
  intro p hp
  rw [setdefault] at hp
  by_cases h : fr.any (fun q => q.1 = tid) = true
  · rw [if_pos h] at hp
    exact Or.inl hp
  · rw [if_neg h] at hp
    rcases List.mem_append.mp hp with h1 | h2
    · exact Or.inl h1
    · exact Or.inr (List.mem_singleton.mp h2)

theorem setdefault_sub (fr : List (Nat × (Nat × Nat))) (tid : Nat) (v : Nat × Nat) :
    ∀ p ∈ fr, p ∈ setdefault fr tid v := by
  intro p hp
  rw [setdefault]
  by_cases h : fr.any (fun q => q.1 = tid) = true
  · rw [if_pos h]
    exact hp
  · rw [if_neg h]
    exact List.mem_append.mpr (Or.inl hp)

theorem setdefault_key_mem (fr : List (Nat × (Nat × Nat))) (tid : Nat) (v : Nat × Nat) :
    tid ∈ (setdefault fr tid v).map (·.1) := by
  rw [setdefault]
  by_cases h : fr.any (fun q => q.1 = tid) = true
  · rw [if_pos h]
    obtain ⟨q, hq, hqe⟩ := List.any_eq_true.mp h
    simp only [decide_eq_true_eq] at hqe
    exact List.mem_map.mpr ⟨q, hq, hqe⟩
  · rw [if_neg h]
    rw [List.map_append]
    exact List.mem_append.mpr (Or.inr (by simp))

theorem setdefault_keys_nodup (fr : List (Nat × (Nat × Nat))) (tid : Nat)
    (v : Nat × Nat) (h : (fr.map (·.1)).Nodup) :
    ((setdefault fr tid v).map (·.1)).Nodup := by
  rw [setdefault]
  by_cases ha : fr.any (fun q => q.1 = tid) = true
  · rw [if_pos ha]
    exact h
  · rw [if_neg ha]
    rw [List.map_append]
    simp only [List.map_cons, List.map_nil]
    apply List.Nodup.append h (List.nodup_singleton tid)
    intro x hx hx2
    rcases List.mem_singleton.mp hx2 with rfl
    obtain ⟨q, hq, hqe⟩ := List.mem_map.mp hx
    rw [List.any_eq_true] at ha
    exact ha ⟨q, hq, by simp [hqe]⟩

theorem freezeFold_mem (f : Nat → Nat × Nat) :
    ∀ (l : List Nat) (fr0 : List (Nat × (Nat × Nat))),
      ∀ p ∈ l.foldl (fun fr t => setdefault fr t (f t)) fr0,
        p ∈ fr0 ∨ (p.1 ∈ l ∧ p.2 = f p.1) := by
  intro l
  induction l with
  | nil => intro fr0 p hp; exact Or.inl hp
  | cons x xs ih =>
    intro fr0 p hp
    rw [List.foldl_cons] at hp
    rcases ih _ p hp with h1 | h2
    · rcases setdefault_mem fr0 x (f x) p h1 with h3 | h4
      · exact Or.inl h3
      · subst h4
        exact Or.inr ⟨List.mem_cons_self x xs, rfl⟩
    · exact Or.inr ⟨List.mem_cons_of_mem x h2.1, h2.2⟩

theorem freezeFold_sub (f : Nat → Nat × Nat) :
    ∀ (l : List Nat) (fr0 : List (Nat × (Nat × Nat))),
      ∀ p ∈ fr0, p ∈ l.foldl (fun fr t => setdefault fr t (f t)) fr0 := by
  intro l
  induction l with
  | nil => intro fr0 p hp; exact hp
  | cons x xs ih =>
    intro fr0 p hp
    rw [List.foldl_cons]
    exact ih _ p (setdefault_sub fr0 x (f x) p hp)

theorem freezeFold_covers (f : Nat → Nat × Nat) :
    ∀ (l : List Nat) (fr0 : List (Nat × (Nat × Nat))),
      ∀ t ∈ l, t ∈ (l.foldl (fun fr u => setdefault fr u (f u)) fr0).map (·.1) := by
  intro l
  induction l with
  | nil => intro fr0 t ht; cases ht
  | cons x xs ih =>
    intro fr0 t ht
    rw [List.foldl_cons]
    rcases List.mem_cons.mp ht with rfl | hxs
    · obtain ⟨p, hp, hpe⟩ := List.mem_map.mp (setdefault_key_mem fr0 t (f t))
      exact List.mem_map.mpr ⟨p, freezeFold_sub f xs _ p hp, hpe⟩
    · exact ih _ t hxs

theorem freezeFold_keys_nodup (f : Nat → Nat × Nat) :
    ∀ (l : List Nat) (fr0 : List (Nat × (Nat × Nat))),
      (fr0.map (·.1)).Nodup →
      ((l.foldl (fun fr t => setdefault fr t (f t)) fr0).map (·.1)).Nodup := by
  intro l
  induction l with
  | nil => intro fr0 h; exact h
  | cons x xs ih =>
    intro fr0 h
    rw [List.foldl_cons]
    exact ih _ (setdefault_keys_nodup fr0 x (f x) h)

/-! ## Group-building lemmas -/

theorem addToGroups_mem (tok : String) (tid : Nat) :
    ∀ (g : List (String × List Nat)), ∀ p ∈ addToGroups g tok tid, ∀ u ∈ p.2,
      (∃ p0 ∈ g, p0.1 = p.1 ∧ u ∈ p0.2) ∨ (u = tid ∧ p.1 = tok) := by
  intro g
  induction g with
  | nil =>
    intro p hp u hu
    rcases List.mem_singleton.mp hp with rfl
    rcases List.mem_singleton.mp hu with rfl
    exact Or.inr ⟨rfl, rfl⟩
  | cons q rest ih =>
    intro p hp u hu
    rw [addToGroups] at hp
    by_cases hq : q.1 = tok
    · rw [if_pos hq] at hp
      rcases List.mem_cons.mp hp with rfl | hrest
      · rcases List.mem_append.mp hu with h1 | h2
        · exact Or.inl ⟨q, List.mem_cons_self q rest, rfl, h1⟩
        · rcases List.mem_singleton.mp h2 with rfl
          exact Or.inr ⟨rfl, hq⟩
      · exact Or.inl ⟨p, List.mem_cons_of_mem q hrest, rfl, hu⟩
    · rw [if_neg hq] at hp
      rcases List.mem_cons.mp hp with rfl | hrest
      · exact Or.inl ⟨q, List.mem_cons_self q rest, rfl, hu⟩
      · rcases ih p hrest u hu with ⟨p0, hp0, he, hu0⟩ | h2
        · exact Or.inl ⟨p0, List.mem_cons_of_mem q hp0, he, hu0⟩
        · exact Or.inr h2

theorem addToGroups_self (tok : String) (tid : Nat) :
    ∀ (g : List (String × List Nat)),
      ∃ p ∈ addToGroups g tok tid, p.1 = tok ∧ tid ∈ p.2 := by
  intro g
  induction g with
  | nil => exact ⟨(tok, [tid]), List.mem_singleton.mpr rfl, rfl, List.mem_singleton.mpr rfl⟩
  | cons q rest ih =>
    rw [addToGroups]
    by_cases hq : q.1 = tok
    · rw [if_pos hq]
      refine ⟨(q.1, q.2 ++ [tid]), List.mem_cons_self _ _, hq, ?_⟩
      exact List.mem_append.mpr (Or.inr (List.mem_singleton.mpr rfl))
    · rw [if_neg hq]
      obtain ⟨p, hp, he, hm⟩ := ih
      exact ⟨p, List.mem_cons_of_mem _ hp, he, hm⟩

theorem addToGroups_preserve (tok : String) (tid : Nat) :
    ∀ (g : List (String × List Nat)), ∀ p0 ∈ g,
      ∃ p ∈ addToGroups g tok tid, p.1 = p0.1 ∧ ∀ u ∈ p0.2, u ∈ p.2 := by
  intro g
  induction g with
  | nil => intro p0 hp0; cases hp0
  | cons q rest ih =>
    intro p0 hp0
    rw [addToGroups]
    by_cases hq : q.1 = tok
    · rw [if_pos hq]
      rcases List.mem_cons.mp hp0 with rfl | hrest
      · refine ⟨(p0.1, p0.2 ++ [tid]), List.mem_cons_self _ _, rfl, ?_⟩
        intro u hu
        exact List.mem_append.mpr (Or.inl hu)
      · exact ⟨p0, List.mem_cons_of_mem _ hrest, rfl, fun u hu => hu⟩
    · rw [if_neg hq]
      rcases List.mem_cons.mp hp0 with rfl | hrest
      · exact ⟨p0, List.mem_cons_self _ _, rfl, fun u hu => hu⟩
      · obtain ⟨p, hp, he, hsub⟩ := ih p0 hrest
        exact ⟨p, List.mem_cons_of_mem _ hp, he, hsub⟩

theorem addToGroups_keys_mem (tok : String) (tid : Nat) (t : String) :
    ∀ (g : List (String × List Nat)),
      t ∈ (addToGroups g tok tid).map (·.1) ↔ t ∈ g.map (·.1) ∨ t = tok := by
  intro g
  induction g with
  | nil => simp [addToGroups]
  | cons q rest ih =>
    rw [addToGroups]
    by_cases hq : q.1 = tok
    · rw [if_pos hq]
      simp only [List.map_cons, List.mem_cons]
      constructor
      · rintro (rfl | h)
        · exact Or.inl (Or.inl rfl)
        · exact Or.inl (Or.inr h)
      · rintro ((rfl | h) | rfl)
        · exact Or.inl rfl
        · exact Or.inr h
        · exact Or.inl hq.symm
    · rw [if_neg hq]
      simp only [List.map_cons, List.mem_cons]
      rw [ih]
      constructor
      · rintro (rfl | (h | rfl))
        · exact Or.inl (Or.inl rfl)
        · exact Or.inl (Or.inr h)
        · exact Or.inr rfl
      · rintro ((rfl | h) | rfl)
        · exact Or.inl rfl
        · exact Or.inr (Or.inl h)
        · exact Or.inr (Or.inr rfl)

theorem addToGroups_keys_nodup (tok : String) (tid : Nat) :
    ∀ (g : List (String × List Nat)), (g.map (·.1)).Nodup →
      ((addToGroups g tok tid).map (·.1)).Nodup := by
  intro g
  induction g with
  | nil =>
    intro _
    simp [addToGroups]
  | cons q rest ih =>
    intro hn
    rw [List.map_cons, List.nodup_cons] at hn
    rw [addToGroups]
    by_cases hq : q.1 = tok
    · rw [if_pos hq]
      rw [List.map_cons, List.nodup_cons]
      exact ⟨hn.1, hn.2⟩
    · rw [if_neg hq]
      rw [List.map_cons, List.nodup_cons]
      refine ⟨?_, ih hn.2⟩
      intro hmem
      rcases (addToGroups_keys_mem tok tid q.1 rest).mp hmem with h1 | h2
      · exact hn.1 h1
      · exact hq h2

theorem bg_members (streams : Nat → TokStream) (dir : Bool) (seedTid : Nat)
    (anchors : Nat → Nat × Nat) :
    ∀ (acts : List Nat) (g0 : List (String × List Nat)) (se : Bool) (ex : List Nat),
      ∀ p ∈ (buildGroupsAux streams dir seedTid anchors acts g0 se ex).1,
        ∀ tid ∈ p.2,
          (∃ p0 ∈ g0, p0.1 = p.1 ∧ tid ∈ p0.2) ∨
          (tid ∈ acts ∧ proposal (streams tid) dir (anchors tid) = some p.1) := by
  intro acts
  induction acts with
  | nil => intro g0 se ex p hp tid htid; exact Or.inl ⟨p, hp, rfl, htid⟩
  | cons x xs ih =>
    intro g0 se ex p hp tid htid
    rw [buildGroupsAux] at hp
    cases hx : proposal (streams x) dir (anchors x) with
    | some tok =>
      rw [hx] at hp
      rcases ih _ se ex p hp tid htid with ⟨p0, hp0, he, hm⟩ | ⟨hin, hprop⟩
      · rcases addToGroups_mem tok x g0 p0 hp0 tid hm with ⟨p1, hp1, he1, hm1⟩ | ⟨rfl, he2⟩
        · exact Or.inl ⟨p1, hp1, he1.trans he, hm1⟩
        · refine Or.inr ⟨List.mem_cons_self tid xs, ?_⟩
          rw [hx, ← he2, he]
      · exact Or.inr ⟨List.mem_cons_of_mem x hin, hprop⟩
    | none =>
      rw [hx] at hp
      by_cases hxs : x = seedTid
      · rw [if_pos hxs] at hp
        rcases ih _ true ex p hp tid htid with h1 | ⟨hin, hprop⟩
        · exact Or.inl h1
        · exact Or.inr ⟨List.mem_cons_of_mem x hin, hprop⟩
      · rw [if_neg hxs] at hp
        rcases ih _ se (ex ++ [x]) p hp tid htid with h1 | ⟨hin, hprop⟩
        · exact Or.inl h1
        · exact Or.inr ⟨List.mem_cons_of_mem x hin, hprop⟩

theorem bg_exhausted (streams : Nat → TokStream) (dir : Bool) (seedTid : Nat)
    (anchors : Nat → Nat × Nat) :
    ∀ (acts : List Nat) (g0 : List (String × List Nat)) (se : Bool) (ex : List Nat)
      (tid : Nat),
      tid ∈ (buildGroupsAux streams dir seedTid anchors acts g0 se ex).2.2 ↔
        tid ∈ ex ∨ (tid ∈ acts ∧ tid ≠ seedTid ∧
          proposal (streams tid) dir (anchors tid) = none) := by
  intro acts
  induction acts with
  | nil =>
    intro g0 se ex tid
    simp [buildGroupsAux]
  | cons x xs ih =>
    intro g0 se ex tid
    rw [buildGroupsAux]
    cases hx : proposal (streams x) dir (anchors x) with
    | some tok =>
      rw [ih]
      constructor
      · rintro (h1 | ⟨h2, h3, h4⟩)
        · exact Or.inl h1
        · exact Or.inr ⟨List.mem_cons_of_mem x h2, h3, h4⟩
      · rintro (h1 | ⟨h2, h3, h4⟩)
        · exact Or.inl h1
        · rcases List.mem_cons.mp h2 with rfl | hxs2
          · rw [hx] at h4
            cases h4
          · exact Or.inr ⟨hxs2, h3, h4⟩
    | none =>
      by_cases hxs : x = seedTid
      · rw [if_pos hxs]
        rw [ih]
        constructor
        · rintro (h1 | ⟨h2, h3, h4⟩)
          · exact Or.inl h1
          · exact Or.inr ⟨List.mem_cons_of_mem x h2, h3, h4⟩
        · rintro (h1 | ⟨h2, h3, h4⟩)
          · exact Or.inl h1
          · rcases List.mem_cons.mp h2 with rfl | hxs2
            · exact absurd hxs h3
            · exact Or.inr ⟨hxs2, h3, h4⟩
      · rw [if_neg hxs]
        rw [ih]
        constructor
        · rintro (h1 | ⟨h2, h3, h4⟩)
          · rcases List.mem_append.mp h1 with h5 | h6
            · exact Or.inl h5
            · rcases List.mem_singleton.mp h6 with rfl
              exact Or.inr ⟨List.mem_cons_self tid xs, hxs, hx⟩
          · exact Or.inr ⟨List.mem_cons_of_mem x h2, h3, h4⟩
        · rintro (h1 | ⟨h2, h3, h4⟩)
          · exact Or.inl (List.mem_append.mpr (Or.inl h1))
          · rcases List.mem_cons.mp h2 with rfl | hxs2
            · exact Or.inl (List.mem_append.mpr (Or.inr (List.mem_singleton.mpr rfl)))
            · exact Or.inr ⟨hxs2, h3, h4⟩

theorem bg_seed (streams : Nat → TokStream) (dir : Bool) (seedTid : Nat)
    (anchors : Nat → Nat × Nat) :
    ∀ (acts : List Nat) (g0 : List (String × List Nat)) (se : Bool) (ex : List Nat),
      (buildGroupsAux streams dir seedTid anchors acts g0 se ex).2.1 = true ↔
        se = true ∨ (seedTid ∈ acts ∧
          proposal (streams seedTid) dir (anchors seedTid) = none) := by
  intro acts
  induction acts with
  | nil =>
    intro g0 se ex
    simp [buildGroupsAux]
  | cons x xs ih =>
    intro g0 se ex
    rw [buildGroupsAux]
    cases hx : proposal (streams x) dir (anchors x) with
    | some tok =>
      rw [ih]
      constructor
      · rintro (h1 | ⟨h2, h3⟩)
        · exact Or.inl h1
        · exact Or.inr ⟨List.mem_cons_of_mem x h2, h3⟩
      · rintro (h1 | ⟨h2, h3⟩)
        · exact Or.inl h1
        · rcases List.mem_cons.mp h2 with rfl | hxs2
          · rw [hx] at h3
            cases h3
          · exact Or.inr ⟨hxs2, h3⟩
    | none =>
      by_cases hxs : x = seedTid
      · rw [if_pos hxs]
        rw [ih]
        subst hxs
        constructor
        · rintro _
          exact Or.inr ⟨List.mem_cons_self x xs, hx⟩
        · rintro _
          exact Or.inl rfl
      · rw [if_neg hxs]
        rw [ih]
        constructor
        · rintro (h1 | ⟨h2, h3⟩)
          · exact Or.inl h1
          · exact Or.inr ⟨List.mem_cons_of_mem x h2, h3⟩
        · rintro (h1 | ⟨h2, h3⟩)
          · exact Or.inl h1
          · rcases List.mem_cons.mp h2 with rfl | hxs2
            · exact absurd rfl hxs
            · exact Or.inr ⟨hxs2, h3⟩

theorem bg_cover (streams : Nat → TokStream) (dir : Bool) (seedTid : Nat)
    (anchors : Nat → Nat × Nat) :
    ∀ (acts : List Nat) (g0 : List (String × List Nat)) (se : Bool) (ex : List Nat),
      (∀ p0 ∈ g0, ∃ p ∈ (buildGroupsAux streams dir seedTid anchors acts g0 se ex).1,
        p.1 = p0.1 ∧ ∀ u ∈ p0.2, u ∈ p.2) ∧
      (∀ tid ∈ acts, ∀ tok, proposal (streams tid) dir (anchors tid) = some tok →
        ∃ p ∈ (buildGroupsAux streams dir seedTid anchors acts g0 se ex).1,
          p.1 = tok ∧ tid ∈ p.2) := by
  intro acts
  induction acts with
  | nil =>
    intro g0 se ex
    refine ⟨fun p0 hp0 => ⟨p0, hp0, rfl, fun u hu => hu⟩, ?_⟩
    intro tid htid
    cases htid
  | cons x xs ih =>
    intro g0 se ex
    rw [buildGroupsAux]
    cases hx : proposal (streams x) dir (anchors x) with
    | some tok =>
      constructor
      · intro p0 hp0
        obtain ⟨p1, hp1, he1, hsub1⟩ := addToGroups_preserve tok x g0 p0 hp0
        obtain ⟨p, hp, he, hsub⟩ := (ih (addToGroups g0 tok x) se ex).1 p1 hp1
        exact ⟨p, hp, he.trans he1, fun u hu => hsub u (hsub1 u hu)⟩
      · intro tid htid tok2 hprop
        rcases List.mem_cons.mp htid with rfl | hxs2
        · rw [hx] at hprop
          injection hprop with hprop
          subst hprop
          obtain ⟨p1, hp1, he1, hm1⟩ := addToGroups_self tok tid g0
          obtain ⟨p, hp, he, hsub⟩ := (ih (addToGroups g0 tok tid) se ex).1 p1 hp1
          exact ⟨p, hp, he.trans he1, hsub tid hm1⟩
        · exact (ih _ se ex).2 tid hxs2 tok2 hprop
    | none =>
      by_cases hxs : x = seedTid
      · rw [if_pos hxs]
        constructor
        · exact (ih g0 true ex).1
        · intro tid htid tok2 hprop
          rcases List.mem_cons.mp htid with rfl | hxs2
          · rw [hx] at hprop
            cases hprop
          · exact (ih g0 true ex).2 tid hxs2 tok2 hprop
      · rw [if_neg hxs]
        constructor
        · exact (ih g0 se (ex ++ [x])).1
        · intro tid htid tok2 hprop
          rcases List.mem_cons.mp htid with rfl | hxs2
          · rw [hx] at hprop
            cases hprop
          · exact (ih g0 se (ex ++ [x])).2 tid hxs2 tok2 hprop

theorem bg_keys_nodup (streams : Nat → TokStream) (dir : Bool) (seedTid : Nat)
    (anchors : Nat → Nat × Nat) :
    ∀ (acts : List Nat) (g0 : List (String × List Nat)) (se : Bool) (ex : List Nat),
      (g0.map (·.1)).Nodup →
      ((buildGroupsAux streams dir seedTid anchors acts g0 se ex).1.map (·.1)).Nodup := by
  intro acts
  induction acts with
  | nil => intro g0 se ex h; exact h
  | cons x xs ih =>
    intro g0 se ex h
    rw [buildGroupsAux]
    cases hx : proposal (streams x) dir (anchors x) with
    | some tok => exact ih _ se ex (addToGroups_keys_nodup tok x g0 h)
    | none =>
      by_cases hxs : x = seedTid
      · rw [if_pos hxs]
        exact ih g0 true ex h
      · rw [if_neg hxs]
        exact ih g0 se (ex ++ [x]) h

/-! ## Parent choice, child snapshots and the freeze step -/

theorem containsN_iff (l : List Nat) (a : Nat) : l.contains a = true ↔ a ∈ l :=
  List.elem_iff

theorem headD_mem (l : List Nat) (d : Nat) (h : l ≠ []) : l.headD d ∈ l := by
  cases l with
  | nil => exact absurd rfl h
  | cons x xs => exact List.mem_cons_self x xs

theorem anchSlice_ne_nil (st : TokStream) (a : Nat × Nat) (h : AnchOk st a) :
    anchSlice st a ≠ [] := by
  obtain ⟨h1, h2⟩ := h
  rw [anchSlice, sliceII]
  intro hc
  have hlen := congrArg List.length hc
  rw [List.length_take, List.length_drop, List.length_nil] at hlen
  rcases Nat.min_eq_zero_iff.mp hlen with h3 | h4
  · omega
  · omega

theorem addToGroups_nonempty (tok : String) (tid : Nat) :
    ∀ (g : List (String × List Nat)), (∀ p ∈ g, p.2 ≠ []) →
      ∀ p ∈ addToGroups g tok tid, p.2 ≠ [] := by
  intro g
  induction g with
  | nil =>
    intro _ p hp
    rcases List.mem_singleton.mp hp with rfl
    exact List.cons_ne_nil tid []
  | cons q rest ih =>
    intro hg p hp
    rw [addToGroups] at hp
    by_cases hq : q.1 = tok
    · rw [if_pos hq] at hp
      rcases List.mem_cons.mp hp with rfl | hrest
      · exact List.append_ne_nil_of_right_ne_nil q.2 (List.cons_ne_nil tid [])
      · exact hg p (List.mem_cons_of_mem q hrest)
    · rw [if_neg hq] at hp
      rcases List.mem_cons.mp hp with rfl | hrest
      · exact hg q (List.mem_cons_self q rest)
      · exact ih (fun r hr => hg r (List.mem_cons_of_mem q hr)) p hrest

theorem bg_nonempty (streams : Nat → TokStream) (dir : Bool) (seedTid : Nat)
    (anchors : Nat → Nat × Nat) :
    ∀ (acts : List Nat) (g0 : List (String × List Nat)) (se : Bool) (ex : List Nat),
      (∀ p ∈ g0, p.2 ≠ []) →
      ∀ p ∈ (buildGroupsAux streams dir seedTid anchors acts g0 se ex).1, p.2 ≠ [] := by
  intro acts
  induction acts with
  | nil => intro g0 se ex h; exact h
  | cons x xs ih =>
    intro g0 se ex h
    rw [buildGroupsAux]
    cases hx : proposal (streams x) dir (anchors x) with
    | some tok => exact ih _ se ex (addToGroups_nonempty tok x g0 h)
    | none =>
      by_cases hxs : x = seedTid
      · rw [if_pos hxs]
        exact ih g0 true ex h
      · rw [if_neg hxs]
        exact ih g0 se (ex ++ [x]) h

theorem chooseParent_seed (seedTid : Nat) (groups : List (String × List Nat))
    (hg : ∃ g ∈ groups, seedTid ∈ g.2) :
    chooseParent seedTid groups ∈ groups ∧ seedTid ∈ (chooseParent seedTid groups).2 := by
  rw [chooseParent]
  cases hf : groups.find? (fun g => g.2.contains seedTid) with
  | none =>
    obtain ⟨g, hgm, hgs⟩ := hg
    have hno := List.find?_eq_none.mp hf g hgm
    exact absurd (containsN_iff g.2 seedTid |>.mpr hgs) hno
  | some g =>
    refine ⟨List.mem_of_find?_eq_some hf, ?_⟩
    have hpt := List.find?_some hf
    exact (containsN_iff g.2 seedTid).mp hpt

theorem keys_inj (gs : List (String × List Nat)) (hn : (gs.map (·.1)).Nodup)
    (g1 g2 : String × List Nat) (h1 : g1 ∈ gs) (h2 : g2 ∈ gs) (he : g1.1 = g2.1) :
    g1 = g2 := by
  induction gs with
  | nil => cases h1
  | cons q rest ih =>
    rw [List.map_cons, List.nodup_cons] at hn
    rcases List.mem_cons.mp h1 with rfl | hr1
    · rcases List.mem_cons.mp h2 with rfl | hr2
      · rfl
      · exact absurd (List.mem_map.mpr ⟨g2, hr2, he.symm⟩) hn.1
    · rcases List.mem_cons.mp h2 with rfl | hr2
      · exact absurd (List.mem_map.mpr ⟨g1, hr1, he⟩) hn.1
      · exact ih hn.2 hr1 hr2

theorem make_child_good (streams : Nat → TokStream) (keys : List Nat)
    (seedTid : Nat) (anchors : Nat → Nat × Nat) (tids : List Nat)
    (hne : tids ≠ [])
    (hmem : ∀ tid ∈ tids, tid ∈ keys)
    (hok : ∀ tid ∈ tids, AnchOk (streams tid) (anchors tid))
    (hsl : ∀ tid ∈ tids, anchSlice (streams tid) (anchors tid) =
      anchSlice (streams seedTid) (anchors seedTid)) :
    GoodChildP streams keys (make_child_snapshot streams anchors seedTid tids) := by
  have hrep : (if tids.contains seedTid then seedTid else tids.headD 0) ∈ tids := by
    by_cases hc : tids.contains seedTid = true
    · rw [if_pos hc]
      exact (containsN_iff tids seedTid).mp hc
    · rw [if_neg hc]
      exact headD_mem tids 0 hne
  rw [GoodChildP]
  refine ⟨anchSlice (streams (if tids.contains seedTid then seedTid else tids.headD 0))
    (anchors (if tids.contains seedTid then seedTid else tids.headD 0)),
    anchSlice_ne_nil _ _ (hok _ hrep), rfl,
    ⟨(if tids.contains seedTid then seedTid else tids.headD 0), hmem _ hrep,
      anchors (if tids.contains seedTid then seedTid else tids.headD 0),
      hok _ hrep, rfl⟩, ?_⟩
  intro sp hsp
  obtain ⟨tid, htid, rfl⟩ := List.mem_map.mp hsp
  refine ⟨hmem tid htid, anchors tid, hok tid htid, ?_, rfl⟩
  exact (hsl tid htid).trans (hsl _ hrep).symm

theorem freezeStep_inv (streams : Nat → TokStream) (seedTid : Nat)
    (keys : List Nat) (init : Nat → Nat × Nat) (st : BrSt) (outs : List Nat)
    (hInv : Inv streams seedTid keys init st)
    (houts : ∀ t ∈ outs, t ∈ keys)
    (hseed : seedTid ∉ outs) :
    Inv streams seedTid keys init
      { st with
        frozen := outs.foldl (fun fr t => setdefault fr t (st.anchors t)) st.frozen
        active := st.active.filter (fun t => !outs.contains t) } := by
  obtain ⟨h1, h2, h3, h4, h5, h6, h7, h8, h9, h10, h11, h12, h13, h14, h15⟩ := hInv
  refine ⟨?_, ?_, ?_, h4, h5, h6, h7, ?_, h9, ?_, h11, ?_, ?_, ?_, h15⟩
  · exact fun t ht => h1 (List.mem_filter.mp ht).1
  · exact h2.filter _
  · exact List.mem_filter.mpr ⟨h3, by simp [hseed]⟩
  · exact fun t ht => h8 (List.mem_filter.mp ht).1
  · exact fun t ht => h10 t (List.mem_filter.mp ht).1
  · intro p hp
    rcases freezeFold_mem st.anchors outs st.frozen p hp with hold | ⟨hpin, hpe⟩
    · exact h12 p hold
    · refine ⟨houts p.1 hpin, ?_, ?_⟩
      · rw [hpe]
        exact (h9 p.1 (houts p.1 hpin)).1
      · rw [hpe]
        exact (h9 p.1 (houts p.1 hpin)).2
  · exact freezeFold_keys_nodup st.anchors outs st.frozen h13
  · intro t htk
    rcases h14 t htk with hact | hfro
    · by_cases ho : t ∈ outs
      · exact Or.inr (freezeFold_covers st.anchors outs st.frozen t ho)
      · exact Or.inl (List.mem_filter.mpr ⟨hact, by simp [ho]⟩)
    · obtain ⟨p, hpm, hpe⟩ := List.mem_map.mp hfro
      exact Or.inr (List.mem_map.mpr ⟨p, freezeFold_sub st.anchors outs st.frozen p hpm, hpe⟩)

theorem spawnFreeze_inv (streams : Nat → TokStream) (seedTid minChild maxChild : Nat)
    (ptok : String) (psupp : List Nat) (keys : List Nat) (init : Nat → Nat × Nat)
    (hseedp : seedTid ∈ psupp) :
    ∀ (gs : List (String × List Nat)) (st : BrSt) (spawned : Nat),
      Inv streams seedTid keys init st →
      (∀ g ∈ gs, g.2 ≠ [] ∧ ∀ tid ∈ g.2, tid ∈ keys ∧
        anchSlice (streams tid) (st.anchors tid) =
          anchSlice (streams seedTid) (st.anchors seedTid)) →
      Inv streams seedTid keys init
          (spawnFreeze streams seedTid minChild maxChild ptok psupp gs st spawned) ∧
        (spawnFreeze streams seedTid minChild maxChild ptok psupp gs st spawned).anchors
          = st.anchors ∧
        (spawnFreeze streams seedTid minChild maxChild ptok psupp gs st spawned).lastAct
          = st.lastAct ∧
        (spawnFreeze streams seedTid minChild maxChild ptok psupp gs st spawned).lastSnap
          = st.lastSnap ∧
        ∀ t ∈ (spawnFreeze streams seedTid minChild maxChild ptok psupp gs st spawned).active,
          t ∈ st.active ∧ (t ∈ psupp ∨ ∀ g ∈ gs, g.1 ≠ ptok → t ∉ g.2) := by
  intro gs
  induction gs with
  | nil =>
    intro st spawned hInv _
    refine ⟨hInv, rfl, rfl, rfl, ?_⟩
    intro t ht
    exact ⟨ht, Or.inr (fun g hg => absurd hg (List.not_mem_nil g))⟩
  | cons g rest ih =>
    obtain ⟨tok, tids⟩ := g
    intro st spawned hInv hgs
    have hhead := hgs (tok, tids) (List.mem_cons_self _ _)
    have hrest0 : ∀ g ∈ rest, g.2 ≠ [] ∧ ∀ tid ∈ g.2, tid ∈ keys ∧
        anchSlice (streams tid) (st.anchors tid) =
          anchSlice (streams seedTid) (st.anchors seedTid) :=
      fun g hg => hgs g (List.mem_cons_of_mem _ hg)
    by_cases htk : tok = ptok
    · rw [spawnFreeze, if_pos htk]
      obtain ⟨hI, hA, hLA, hLS, hAct⟩ := ih st spawned hInv hrest0
      refine ⟨hI, hA, hLA, hLS, ?_⟩
      intro t ht
      obtain ⟨ht1, ht2⟩ := hAct t ht
      refine ⟨ht1, ?_⟩
      rcases ht2 with hp | hall
      · exact Or.inl hp
      · refine Or.inr ?_
        intro g hg hgp
        rcases List.mem_cons.mp hg with rfl | hgr
        · exact absurd htk hgp
        · exact hall g hgr hgp
    · rw [spawnFreeze, if_neg htk]
      simp only []
      have hseedout : seedTid ∉ tids.filter (fun t => !psupp.contains t) := by
        intro hmem
        have h := (List.mem_filter.mp hmem).2
        simp at h
        exact h hseedp
      by_cases hds : (minChild ≤ tids.length && spawned < maxChild) = true
      · rw [if_pos hds, if_pos hds]
        have hne : tids ≠ [] := hhead.1
        have hInv1 : Inv streams seedTid keys init
            { st with children := st.children ++
                [make_child_snapshot streams st.anchors seedTid tids] } := by
          obtain ⟨h1, h2, h3, h4, h5, h6, h7, h8, h9, h10, h11, h12, h13, h14, h15⟩ := hInv
          refine ⟨h1, h2, h3, h4, h5, h6, h7, h8, h9, h10, h11, h12, h13, h14, ?_⟩
          intro ch hch
          rcases List.mem_append.mp hch with hold | hnew
          · exact h15 ch hold
          · rcases List.mem_singleton.mp hnew with rfl
            exact make_child_good streams keys seedTid st.anchors tids hne
              (fun tid ht => (hhead.2 tid ht).1)
              (fun tid ht => (h9 tid (hhead.2 tid ht).1).1)
              (fun tid ht => (hhead.2 tid ht).2)
        have houtsK : ∀ t ∈ tids.filter (fun t => !psupp.contains t), t ∈ keys :=
          fun t ht => (hhead.2 t (List.mem_filter.mp ht).1).1
        have hInv2 := freezeStep_inv streams seedTid keys init
          { st with children := st.children ++
              [make_child_snapshot streams st.anchors seedTid tids] }
          (tids.filter (fun t => !psupp.contains t)) hInv1 houtsK hseedout
        obtain ⟨hI, hA, hLA, hLS, hAct⟩ :=
          ih _ (spawned + 1) hInv2 (fun g hg => hrest0 g hg)
        refine ⟨hI, hA, hLA, hLS, ?_⟩
        intro t ht
        obtain ⟨ht1, ht2⟩ := hAct t ht
        have ht1' : t ∈ st.active.filter
            (fun u => !(tids.filter (fun v => !psupp.contains v)).contains u) := ht1
        obtain ⟨hta, htno⟩ := List.mem_filter.mp ht1'
        have himp : t ∈ tids → t ∈ psupp := by
          simp at htno
          rcases htno with h | h
          · exact fun hti => absurd hti h
          · exact fun _ => h
        refine ⟨hta, ?_⟩
        by_cases hp : t ∈ psupp
        · exact Or.inl hp
        · refine Or.inr ?_
          intro g hg hgp
          rcases List.mem_cons.mp hg with rfl | hgr
          · intro hti
            exact hp (himp hti)
          · rcases ht2 with hp2 | hall
            · exact absurd hp2 hp
            · exact hall g hgr hgp
      · rw [if_neg hds, if_neg hds]
        have houtsK : ∀ t ∈ tids.filter (fun t => !psupp.contains t), t ∈ keys :=
          fun t ht => (hhead.2 t (List.mem_filter.mp ht).1).1
        have hInv2 := freezeStep_inv streams seedTid keys init st
          (tids.filter (fun t => !psupp.contains t)) hInv houtsK hseedout
        obtain ⟨hI, hA, hLA, hLS, hAct⟩ :=
          ih _ spawned hInv2 (fun g hg => hrest0 g hg)
        refine ⟨hI, hA, hLA, hLS, ?_⟩
        intro t ht
        obtain ⟨ht1, ht2⟩ := hAct t ht
        have ht1' : t ∈ st.active.filter
            (fun u => !(tids.filter (fun v => !psupp.contains v)).contains u) := ht1
        obtain ⟨hta, htno⟩ := List.mem_filter.mp ht1'
        have himp : t ∈ tids → t ∈ psupp := by
          simp at htno
          rcases htno with h | h
          · exact fun hti => absurd hti h
          · exact fun _ => h
        refine ⟨hta, ?_⟩
        by_cases hp : t ∈ psupp
        · exact Or.inl hp
        · refine Or.inr ?_
          intro g hg hgp
          rcases List.mem_cons.mp hg with rfl | hgr
          · intro hti
            exact hp (himp hti)
          · rcases ht2 with hp2 | hall
            · exact absurd hp2 hp
            · exact hall g hgr hgp

theorem spawnPhase_inv (streams : Nat → TokStream) (dir : Bool)
    (seedTid minChild maxChild : Nat) (keys : List Nat) (init : Nat → Nat × Nat)
    (st s : BrSt)
    (hInv : Inv streams seedTid keys init st)
    (hInvS : Inv streams seedTid keys init s)
    (hanch : s.anchors = st.anchors)
    (hsub : ∀ t ∈ s.active, t ∈ st.active)
    (hsprop : ∀ t ∈ s.active, ∃ tok,
      proposal (streams t) dir (st.anchors t) = some tok) :
    Inv streams seedTid keys init (stepState (
      let G := buildGroupsAux streams dir seedTid st.anchors st.active [] false []
      let P := chooseParent seedTid G.1
      let st3 := spawnFreeze streams seedTid minChild maxChild P.1 P.2 G.1 s 0
      if st3.active.length < 2 then StepRes.done st3
      else StepRes.next { st3 with anchors := advanceAnchors dir P.2 st3.anchors })) := by
  simp only []
  set G := buildGroupsAux streams dir seedTid st.anchors st.active [] false [] with hGdef
  set P := chooseParent seedTid G.1 with hPdef
  set st3 := spawnFreeze streams seedTid minChild maxChild P.1 P.2 G.1 s 0 with hst3def
  have hseedactS : seedTid ∈ s.active := by
    obtain ⟨_, _, h3, _⟩ := hInvS
    exact h3
  have hseedact : seedTid ∈ st.active := by
    obtain ⟨_, _, h3, _⟩ := hInv
    exact h3
  obtain ⟨tokS, hpS⟩ := hsprop seedTid hseedactS
  have hgseed : ∃ g ∈ G.1, seedTid ∈ g.2 := by
    obtain ⟨g, hg, hge, hgm⟩ :=
      (bg_cover streams dir seedTid st.anchors st.active [] false []).2 seedTid hseedact tokS hpS
    rw [← hGdef] at hg
    exact ⟨g, hg, hgm⟩
  have hP := chooseParent_seed seedTid G.1 hgseed
  have hPmem : P ∈ G.1 := hP.1
  have hseedP : seedTid ∈ P.2 := hP.2
  have hGnodup : (G.1.map (·.1)).Nodup := by
    have h := bg_keys_nodup streams dir seedTid st.anchors st.active [] false [] List.nodup_nil
    rw [← hGdef] at h
    exact h
  have hgs : ∀ g ∈ G.1, g.2 ≠ [] ∧ ∀ tid ∈ g.2, tid ∈ keys ∧
      anchSlice (streams tid) (s.anchors tid) =
        anchSlice (streams seedTid) (s.anchors seedTid) := by
    intro g hg
    rw [hGdef] at hg
    constructor
    · exact bg_nonempty streams dir seedTid st.anchors st.active [] false []
        (fun p hp => absurd hp (List.not_mem_nil p)) g hg
    · intro tid htid
      rcases bg_members streams dir seedTid st.anchors st.active [] false [] g hg tid htid with
        ⟨p0, hp0, _⟩ | ⟨hact, _⟩
      · exact absurd hp0 (List.not_mem_nil p0)
      · obtain ⟨h1, _, _, _, _, _, _, _, _, h10, _⟩ := hInv
        refine ⟨h1 hact, ?_⟩
        rw [hanch]
        exact h10 tid hact
  obtain ⟨hI3, hA3, hLA3, hLS3, hAct3⟩ :=
    spawnFreeze_inv streams seedTid minChild maxChild P.1 P.2 keys init hseedP
      G.1 s 0 hInvS hgs
  have hA3' : st3.anchors = st.anchors := by
    rw [hst3def, hA3, hanch]
  by_cases hlt : st3.active.length < 2
  · rw [if_pos hlt]
    exact hI3
  · rw [if_neg hlt]
    have hsub3 : ∀ t ∈ st3.active, t ∈ P.2 := by
      intro t ht3
      obtain ⟨hts, hdisj⟩ := hAct3 t ht3
      rcases hdisj with hin | hall
      · exact hin
      · obtain ⟨tokt, hpt⟩ := hsprop t hts
        obtain ⟨g, hgG, hge, htg⟩ :=
          (bg_cover streams dir seedTid st.anchors st.active [] false []).2 t (hsub t hts) tokt hpt
        rw [← hGdef] at hgG
        by_cases hgp : g.1 = P.1
        · have heq : g = P := keys_inj G.1 hGnodup g P hgG hPmem hgp
          rw [← heq]
          exact htg
        · exact absurd htg (hall g hgG hgp)
    have hpropP : ∀ tid ∈ P.2, proposal (streams tid) dir (st3.anchors tid) = some P.1 := by
      intro tid htid
      have hPmem2 : P ∈ (buildGroupsAux streams dir seedTid st.anchors st.active [] false []).1 := by
        rw [← hGdef]
        exact hPmem
      rcases bg_members streams dir seedTid st.anchors st.active [] false [] P hPmem2 tid htid with
        ⟨p0, hp0, _⟩ | ⟨_, hprop⟩
      · exact absurd hp0 (List.not_mem_nil p0)
      · rw [hA3']
        exact hprop
    obtain ⟨g1, g2, g3, g4, g5, g6, g7, g8, g9, g10, g11, g12, g13, g14, g15⟩ := hI3
    have g10' : ∀ tid ∈ st3.active, anchSlice (streams tid) (st3.anchors tid) =
        anchSlice (streams seedTid) (st3.anchors seedTid) := g10
    refine ⟨g1, g2, g3, g4, g5, g6, g7, g8, ?_, ?_, g11, g12, g13, g14, g15⟩
    · intro tid htk
      show AnchOk (streams tid) (advanceAnchors dir P.2 st3.anchors tid) ∧
        Grows (init tid) (advanceAnchors dir P.2 st3.anchors tid)
      simp only [advanceAnchors]
      by_cases hm : P.2.contains tid = true
      · rw [if_pos hm]
        have htid2 : tid ∈ P.2 := (containsN_iff _ _).mp hm
        refine ⟨advance1_anchOk (streams tid) dir (st3.anchors tid) P.1
          (g9 tid htk).1 (hpropP tid htid2), advance1_grows dir (init tid)
          (st3.anchors tid) (g9 tid htk).2⟩
      · rw [if_neg hm]
        exact g9 tid htk
    · intro tid htid
      have htid3 : tid ∈ st3.active := htid
      rcases eq_or_ne tid seedTid with rfl | hnet
      · rfl
      · have htidP : tid ∈ P.2 := hsub3 tid htid3
        show anchSlice (streams tid) (advanceAnchors dir P.2 st3.anchors tid) =
          anchSlice (streams seedTid) (advanceAnchors dir P.2 st3.anchors seedTid)
        simp only [advanceAnchors]
        rw [if_pos ((containsN_iff P.2 tid).mpr htidP),
          if_pos ((containsN_iff P.2 seedTid).mpr hseedP)]
        rw [slice_advance (streams tid) dir (st3.anchors tid) P.1
          (g9 tid (g1 htid3)).1 (hpropP tid htidP)]
        rw [slice_advance (streams seedTid) dir (st3.anchors seedTid) P.1
          (g9 seedTid (g1 g3)).1 (hpropP seedTid hseedP)]
        rw [g10' tid htid3]

theorem branchAfter_inv (streams : Nat → TokStream) (dir : Bool)
    (seedTid minChild maxChild : Nat) (keys : List Nat) (init : Nat → Nat × Nat)
    (st : BrSt) (hInv : Inv streams seedTid keys init st) :
    Inv streams seedTid keys init
      (stepState (branchAfter streams dir seedTid minChild maxChild st)) := by
  rw [branchAfter]
  simp only []
  set G := buildGroupsAux streams dir seedTid st.anchors st.active [] false [] with hGdef
  by_cases hse : G.2.1 = true
  · rw [if_pos hse]
    exact hInv
  · rw [if_neg hse]
    have hseedprop : ∃ tok, proposal (streams seedTid) dir (st.anchors seedTid) = some tok := by
      have hiff := bg_seed streams dir seedTid st.anchors st.active [] false []
      rw [← hGdef] at hiff
      cases hpp : proposal (streams seedTid) dir (st.anchors seedTid) with
      | some tok => exact ⟨tok, rfl⟩
      | none =>
        exfalso
        apply hse
        rw [hiff]
        refine Or.inr ⟨?_, hpp⟩
        obtain ⟨_, _, h3, _⟩ := hInv
        exact h3
    by_cases hex : G.2.2.isEmpty = true
    · rw [if_pos hex]
      have hc1 : ¬((!G.2.2.isEmpty && decide (st.active.length < 2)) = true) := by
        rw [hex]
        simp
      rw [if_neg hc1]
      by_cases hgr : G.1.isEmpty = true
      · rw [if_pos hgr]
        exact hInv
      · rw [if_neg hgr]
        refine spawnPhase_inv streams dir seedTid minChild maxChild keys init st st
          hInv hInv rfl (fun t ht => ht) ?_
        intro t ht
        cases hpp : proposal (streams t) dir (st.anchors t) with
        | some tok => exact ⟨tok, rfl⟩
        | none =>
          exfalso
          by_cases hts : t = seedTid
          · obtain ⟨tokS, hS⟩ := hseedprop
            rw [hts] at hpp
            rw [hpp] at hS
            cases hS
          · have hiff := bg_exhausted streams dir seedTid st.anchors st.active [] false [] t
            rw [← hGdef] at hiff
            have hmemex : t ∈ G.2.2 := hiff.mpr (Or.inr ⟨ht, hts, hpp⟩)
            rw [List.isEmpty_iff] at hex
            rw [hex] at hmemex
            cases hmemex
    · rw [if_neg hex]
      have hexsub : ∀ t ∈ G.2.2, t ∈ keys := by
        intro t ht
        have hiff := bg_exhausted streams dir seedTid st.anchors st.active [] false [] t
        rw [← hGdef] at hiff
        rcases hiff.mp ht with h0 | ⟨hact, _, _⟩
        · exact absurd h0 (List.not_mem_nil t)
        · obtain ⟨h1, _⟩ := hInv
          exact h1 hact
      have hseedex : seedTid ∉ G.2.2 := by
        intro hmem
        have hiff := bg_exhausted streams dir seedTid st.anchors st.active [] false [] seedTid
        rw [← hGdef] at hiff
        rcases hiff.mp hmem with h0 | ⟨_, hne, _⟩
        · exact absurd h0 (List.not_mem_nil seedTid)
        · exact hne rfl
      have hInvF := freezeStep_inv streams seedTid keys init st G.2.2 hInv hexsub hseedex
      have hexF : G.2.2.isEmpty = false := by
        rw [Bool.not_eq_true] at hex
        exact hex
      by_cases hlt : (st.active.filter (fun t => !G.2.2.contains t)).length < 2
      · have hcond : (!G.2.2.isEmpty && decide ((({ st with
            frozen := G.2.2.foldl (fun fr t => setdefault fr t (st.anchors t)) st.frozen
            active := st.active.filter (fun t => !G.2.2.contains t) } : BrSt)).active.length < 2))
            = true := by
          rw [hexF]
          simp only [Bool.not_false, Bool.true_and]
          exact decide_eq_true hlt
        rw [if_pos hcond]
        exact hInvF
      · have hcond : ¬((!G.2.2.isEmpty && decide ((({ st with
            frozen := G.2.2.foldl (fun fr t => setdefault fr t (st.anchors t)) st.frozen
            active := st.active.filter (fun t => !G.2.2.contains t) } : BrSt)).active.length < 2))
            = true) := by
          rw [hexF]
          simp only [Bool.not_false, Bool.true_and]
          intro hc
          exact hlt (of_decide_eq_true hc)
        rw [if_neg hcond]
        by_cases hgr : G.1.isEmpty = true
        · rw [if_pos hgr]
          exact hInvF
        · rw [if_neg hgr]
          refine spawnPhase_inv streams dir seedTid minChild maxChild keys init st
            ({ st with
              frozen := G.2.2.foldl (fun fr t => setdefault fr t (st.anchors t)) st.frozen
              active := st.active.filter (fun t => !G.2.2.contains t) } : BrSt)
            hInv hInvF rfl (fun t ht => (List.mem_filter.mp ht).1) ?_
          intro t ht
          have ht' : t ∈ st.active.filter (fun u => !G.2.2.contains u) := ht
          obtain ⟨hta, htn⟩ := List.mem_filter.mp ht'
          cases hpp : proposal (streams t) dir (st.anchors t) with
          | some tok => exact ⟨tok, rfl⟩
          | none =>
            exfalso
            by_cases hts : t = seedTid
            · obtain ⟨tokS, hS⟩ := hseedprop
              rw [hts] at hpp
              rw [hpp] at hS
              cases hS
            · have hiff := bg_exhausted streams dir seedTid st.anchors st.active [] false [] t
              rw [← hGdef] at hiff
              have hmemex : t ∈ G.2.2 := hiff.mpr (Or.inr ⟨hta, hts, hpp⟩)
              simp at htn
              exact htn hmemex

theorem branchSnap_inv (streams : Nat → TokStream) (seedTid : Nat)
    (keys : List Nat) (init : Nat → Nat × Nat) (st0 : BrSt)
    (hInv : Inv streams seedTid keys init st0) :
    Inv streams seedTid keys init (branchSnap st0) := by
  rw [branchSnap]
  by_cases h2a : 2 ≤ st0.active.length
  · rw [if_pos h2a]
    obtain ⟨h1, h2, h3, h4, h5, h6, h7, h8, h9, h10, h11, h12, h13, h14, h15⟩ := hInv
    refine ⟨h1, h2, h3, h1, h2, h3, h2a, fun t ht => ht, h9, h10, ?_, h12, h13, h14, h15⟩
    intro tid htid
    exact ⟨(h9 tid (h1 htid)).1, (h9 tid (h1 htid)).2, h10 tid htid⟩
  · rw [if_neg h2a]
    exact hInv

theorem branchStep_inv (streams : Nat → TokStream) (dir : Bool)
    (seedTid minChild maxChild : Nat) (keys : List Nat) (init : Nat → Nat × Nat)
    (st0 : BrSt) (hInv : Inv streams seedTid keys init st0) :
    Inv streams seedTid keys init
      (stepState (branchStep streams dir seedTid minChild maxChild st0)) := by
  rw [branchStep]
  exact branchAfter_inv streams dir seedTid minChild maxChild keys init
    (branchSnap st0) (branchSnap_inv streams seedTid keys init st0 hInv)

theorem branchLoop_inv (streams : Nat → TokStream) (dir : Bool)
    (seedTid minChild maxChild : Nat) (keys : List Nat) (init : Nat → Nat × Nat) :
    ∀ (fuel : Nat) (st : BrSt), Inv streams seedTid keys init st →
      Inv streams seedTid keys init
        (branchLoop streams dir seedTid minChild maxChild fuel st) := by
  intro fuel
  induction fuel with
  | zero => intro st h; exact h
  | succ n ih =>
    intro st h
    rw [branchLoop]
    cases hstep : branchStep streams dir seedTid minChild maxChild st with
    | done st' =>
      have hs := branchStep_inv streams dir seedTid minChild maxChild keys init st h
      rw [hstep] at hs
      exact hs
    | next st' =>
      have hs := branchStep_inv streams dir seedTid minChild maxChild keys init st h
      rw [hstep] at hs
      exact ih st' hs

/-! ## Fallback, final tighten, and de-duplication lemmas -/

theorem Grows_trans (a b c : Nat × Nat) (h1 : Grows a b) (h2 : Grows b c) :
    Grows a c := by
  obtain ⟨x1, x2⟩ := h1
  obtain ⟨y1, y2⟩ := h2
  exact ⟨le_trans y1 x1, le_trans x2 y2⟩

theorem applyFallback_inv (streams : Nat → TokStream) (seedTid : Nat)
    (keys : List Nat) (init : Nat → Nat × Nat) (st : BrSt)
    (hInv : Inv streams seedTid keys init st) :
    Inv streams seedTid keys init (applyFallback keys st) ∧
      2 ≤ (applyFallback keys st).active.length := by
  rw [applyFallback]
  by_cases hlt : st.active.length < 2
  · rw [if_pos hlt]
    obtain ⟨h1, h2, h3, h4, h5, h6, h7, h8, h9, h10, h11, h12, h13, h14, h15⟩ := hInv
    refine ⟨⟨h4, h5, h6, h4, h5, h6, h7, fun t ht => ht, ?_, ?_, h11, ?_, ?_, ?_, h15⟩, h7⟩
    · intro tid htk
      show AnchOk (streams tid)
          (if st.lastAct.contains tid = true then st.lastSnap tid else st.anchors tid) ∧
        Grows (init tid)
          (if st.lastAct.contains tid = true then st.lastSnap tid else st.anchors tid)
      by_cases hm : st.lastAct.contains tid = true
      · rw [if_pos hm]
        have h := h11 tid ((containsN_iff _ _).mp hm)
        exact ⟨h.1, h.2.1⟩
      · rw [if_neg hm]
        exact h9 tid htk
    · intro tid htid
      rcases eq_or_ne tid seedTid with rfl | hne
      · rfl
      · show anchSlice (streams tid)
            (if st.lastAct.contains tid = true then st.lastSnap tid else st.anchors tid) =
          anchSlice (streams seedTid)
            (if st.lastAct.contains seedTid = true then st.lastSnap seedTid
              else st.anchors seedTid)
        rw [if_pos ((containsN_iff _ _).mpr htid), if_pos ((containsN_iff _ _).mpr h6)]
        exact (h11 tid htid).2.2
    · intro p hp
      rcases freezeFold_mem st.anchors (keys.filter (fun t => !st.lastAct.contains t))
          st.frozen p hp with hold | ⟨hpin, hpe⟩
      · exact h12 p hold
      · have hpk : p.1 ∈ keys := (List.mem_filter.mp hpin).1
        refine ⟨hpk, ?_, ?_⟩
        · rw [hpe]
          exact (h9 p.1 hpk).1
        · rw [hpe]
          exact (h9 p.1 hpk).2
    · exact freezeFold_keys_nodup st.anchors _ st.frozen h13
    · intro t htk
      by_cases hm : t ∈ st.lastAct
      · exact Or.inl hm
      · refine Or.inr (freezeFold_covers st.anchors _ st.frozen t ?_)
        exact List.mem_filter.mpr ⟨htk, by simp [hm]⟩
  · rw [if_neg hlt]
    exact ⟨hInv, by omega⟩

theorem growDir_succ (streams : Nat → TokStream) (dir : Bool) (act : List Nat)
    (n : Nat) (anchors : Nat → Nat × Nat) :
    growDir streams dir act (n + 1) anchors =
      match growProposals streams dir anchors act with
      | none => anchors
      | some toks =>
        if allEqualNE toks then
          growDir streams dir act n
            (fun t => if act.contains t then advance1 dir (anchors t) else anchors t)
        else anchors := rfl

theorem growProposals_some_mem (streams : Nat → TokStream) (dir : Bool)
    (anchors : Nat → Nat × Nat) :
    ∀ (l : List Nat) (toks : List String),
      growProposals streams dir anchors l = some toks →
      ∀ t ∈ l, ∃ tok ∈ toks, proposal (streams t) dir (anchors t) = some tok := by
  intro l
  induction l with
  | nil => intro toks _ t ht; cases ht
  | cons x xs ih =>
    intro toks hsome t ht
    rw [growProposals] at hsome
    cases hx : proposal (streams x) dir (anchors x) with
    | none =>
      rw [hx] at hsome
      cases hsome
    | some tok =>
      rw [hx] at hsome
      cases hrest : growProposals streams dir anchors xs with
      | none =>
        rw [hrest] at hsome
        simp only [Option.map_none'] at hsome
        cases hsome
      | some rest =>
        rw [hrest] at hsome
        simp only [Option.map_some'] at hsome
        injection hsome with hsome
        subst hsome
        rcases List.mem_cons.mp ht with rfl | hxs
        · exact ⟨tok, List.mem_cons_self _ _, hx⟩
        · obtain ⟨tk, htk, hp⟩ := ih rest hrest t hxs
          exact ⟨tk, List.mem_cons_of_mem _ htk, hp⟩

theorem allEqualNE_spec (l : List String) (h : allEqualNE l = true) :
    ∀ x ∈ l, ∀ y ∈ l, x = y := by
  cases l with
  | nil => cases h
  | cons a as =>
    rw [allEqualNE, List.all_eq_true] at h
    intro x hx y hy
    have hxa : x = a := by
      rcases List.mem_cons.mp hx with rfl | hxs
      · rfl
      · exact of_decide_eq_true (h x hxs)
    have hya : y = a := by
      rcases List.mem_cons.mp hy with rfl | hys
      · rfl
      · exact of_decide_eq_true (h y hys)
    rw [hxa, hya]

theorem growDir_inv (streams : Nat → TokStream) (dir : Bool) (act keys : List Nat)
    (init : Nat → Nat × Nat) (seedTid : Nat)
    (hseed : seedTid ∈ act) (hak : ∀ t ∈ act, t ∈ keys) :
    ∀ (fuel : Nat) (anchors : Nat → Nat × Nat),
      (∀ t ∈ keys, AnchOk (streams t) (anchors t) ∧ Grows (init t) (anchors t)) →
      (∀ t ∈ act, anchSlice (streams t) (anchors t) =
        anchSlice (streams seedTid) (anchors seedTid)) →
      (∀ t ∈ keys, AnchOk (streams t) (growDir streams dir act fuel anchors t) ∧
        Grows (init t) (growDir streams dir act fuel anchors t)) ∧
      (∀ t ∈ act, anchSlice (streams t) (growDir streams dir act fuel anchors t) =
        anchSlice (streams seedTid) (growDir streams dir act fuel anchors seedTid)) := by
  intro fuel
  induction fuel with
  | zero => intro anchors h9 h10; exact ⟨h9, h10⟩
  | succ n ih =>
    intro anchors h9 h10
    cases hgp : growProposals streams dir anchors act with
    | none =>
      have heq : growDir streams dir act (n + 1) anchors = anchors := by
        rw [growDir_succ, hgp]
      rw [heq]
      exact ⟨h9, h10⟩
    | some toks =>
      by_cases hae : allEqualNE toks = true
      · have heq : growDir streams dir act (n + 1) anchors = growDir streams dir act n
            (fun t => if act.contains t then advance1 dir (anchors t) else anchors t) := by
          simp only [growDir_succ, hgp, if_pos hae]
        rw [heq]
        apply ih
        · intro t htk
          show AnchOk (streams t)
              (if act.contains t = true then advance1 dir (anchors t) else anchors t) ∧
            Grows (init t)
              (if act.contains t = true then advance1 dir (anchors t) else anchors t)
          by_cases hta : act.contains t = true
          · rw [if_pos hta]
            obtain ⟨tok, _, hp⟩ := growProposals_some_mem streams dir anchors act toks hgp
              t ((containsN_iff _ _).mp hta)
            exact ⟨advance1_anchOk (streams t) dir (anchors t) tok (h9 t htk).1 hp,
              advance1_grows dir (init t) (anchors t) (h9 t htk).2⟩
          · rw [if_neg hta]
            exact h9 t htk
        · intro t hta
          rcases eq_or_ne t seedTid with rfl | hne
          · rfl
          · show anchSlice (streams t)
                (if act.contains t = true then advance1 dir (anchors t) else anchors t) =
              anchSlice (streams seedTid)
                (if act.contains seedTid = true then advance1 dir (anchors seedTid)
                  else anchors seedTid)
            rw [if_pos ((containsN_iff _ _).mpr hta),
              if_pos ((containsN_iff _ _).mpr hseed)]
            obtain ⟨tok, htok, hp⟩ := growProposals_some_mem streams dir anchors act toks hgp
              t hta
            obtain ⟨tokS, htokS, hpS⟩ := growProposals_some_mem streams dir anchors act toks
              hgp seedTid hseed
            have hte : tok = tokS := allEqualNE_spec toks hae tok htok tokS htokS
            rw [slice_advance (streams t) dir (anchors t) tok (h9 t (hak t hta)).1 hp]
            rw [slice_advance (streams seedTid) dir (anchors seedTid) tokS
              (h9 seedTid (hak seedTid hseed)).1 hpS]
            rw [h10 t hta, hte]
      · have heq : growDir streams dir act (n + 1) anchors = anchors := by
          simp only [growDir_succ, hgp, if_neg hae]
        rw [heq]
        exact ⟨h9, h10⟩

theorem grow_subset_inv (streams : Nat → TokStream) (act keys : List Nat)
    (init : Nat → Nat × Nat) (seedTid : Nat) (fuel : Nat) (anchors : Nat → Nat × Nat)
    (hseed : seedTid ∈ act) (hak : ∀ t ∈ act, t ∈ keys)
    (h9 : ∀ t ∈ keys, AnchOk (streams t) (anchors t) ∧ Grows (init t) (anchors t))
    (h10 : ∀ t ∈ act, anchSlice (streams t) (anchors t) =
      anchSlice (streams seedTid) (anchors seedTid)) :
    (∀ t ∈ keys, AnchOk (streams t) (grow_subset streams act fuel anchors t) ∧
      Grows (init t) (grow_subset streams act fuel anchors t)) ∧
    (∀ t ∈ act, anchSlice (streams t) (grow_subset streams act fuel anchors t) =
      anchSlice (streams seedTid) (grow_subset streams act fuel anchors seedTid)) := by
  rw [grow_subset]
  by_cases hlt : act.length < 2
  · rw [if_pos hlt]
    exact ⟨h9, h10⟩
  · rw [if_neg hlt]
    obtain ⟨k9, k10⟩ := growDir_inv streams true act keys init seedTid hseed hak fuel
      anchors h9 h10
    exact growDir_inv streams false act keys init seedTid hseed hak fuel _ k9 k10

theorem dedupChildren_sub (pfp : List (Nat × Nat × Nat) × String) :
    ∀ (l : List ChildCand) (seen : List (List (Nat × Nat × Nat) × String)),
      ∀ ch ∈ dedupChildren pfp l seen, ch ∈ l := by
  intro l
  induction l with
  | nil =>
    intro seen ch hch
    rw [dedupChildren] at hch
    cases hch
  | cons c rest ih =>
    intro seen ch hch
    rw [dedupChildren] at hch
    split at hch
    · rcases List.mem_cons.mp hch with rfl | h2
      · exact List.mem_cons_self _ _
      · exact List.mem_cons_of_mem _ (ih _ ch h2)
    · exact List.mem_cons_of_mem _ (ih _ ch hch)

theorem spawnFreeze_frame (streams : Nat → TokStream) (seedTid minChild maxChild : Nat)
    (ptok : String) (psupp : List Nat) :
    ∀ (gs : List (String × List Nat)) (st : BrSt) (spawned : Nat),
      (spawnFreeze streams seedTid minChild maxChild ptok psupp gs st spawned).lastAct
        = st.lastAct ∧
      (spawnFreeze streams seedTid minChild maxChild ptok psupp gs st spawned).lastSnap
        = st.lastSnap ∧
      (spawnFreeze streams seedTid minChild maxChild ptok psupp gs st spawned).anchors
        = st.anchors := by
  intro gs
  induction gs with
  | nil => intro st spawned; exact ⟨rfl, rfl, rfl⟩
  | cons g rest ih =>
    obtain ⟨tok, tids⟩ := g
    intro st spawned
    rw [spawnFreeze]
    by_cases htk : tok = ptok
    · rw [if_pos htk]
      exact ih st spawned
    · rw [if_neg htk]
      simp only []
      by_cases hds : (minChild ≤ tids.length && spawned < maxChild) = true
      · rw [if_pos hds, if_pos hds]
        exact ih _ (spawned + 1)
      · rw [if_neg hds, if_neg hds]
        exact ih _ spawned

theorem spans_keys (streams : Nat → TokStream) (survivors : List Nat)
    (anchors : Nat → Nat × Nat) (frozen : List (Nat × (Nat × Nat))) :
    ((survivors.map (fun tid => (tid, token_span_to_seg_span streams tid
        (anchors tid).1 (anchors tid).2)) ++
      (frozen.filter (fun p => !survivors.contains p.1)).map
        (fun p => (p.1, token_span_to_seg_span streams p.1 p.2.1 p.2.2))).map (·.1)) =
      survivors ++ (frozen.filter (fun p => !survivors.contains p.1)).map (·.1) := by
  rw [List.map_append, List.map_map, List.map_map]
  congr 1
  exact List.map_id' _

theorem branchAfter_frame (streams : Nat → TokStream) (dir : Bool)
    (seedTid minChild maxChild : Nat) (st : BrSt) :
    (stepState (branchAfter streams dir seedTid minChild maxChild st)).lastAct
      = st.lastAct ∧
    (stepState (branchAfter streams dir seedTid minChild maxChild st)).lastSnap
      = st.lastSnap := by
  rw [branchAfter]
  simp only []
  repeat' split
  all_goals
    first
      | exact ⟨rfl, rfl⟩
      | exact ⟨(spawnFreeze_frame streams seedTid minChild maxChild _ _ _ _ _).1,
          (spawnFreeze_frame streams seedTid minChild maxChild _ _ _ _ _).2.1⟩

theorem branchStep_snapshot (streams : Nat → TokStream) (dir : Bool)
    (seedTid minChild maxChild : Nat) (st0 : BrSt)
    (h2a : 2 ≤ st0.active.length) :
    (stepState (branchStep streams dir seedTid minChild maxChild st0)).lastAct
      = st0.active ∧
    (stepState (branchStep streams dir seedTid minChild maxChild st0)).lastSnap
      = st0.anchors := by
  rw [branchStep]
  have hf := branchAfter_frame streams dir seedTid minChild maxChild (branchSnap st0)
  have hsnap : (branchSnap st0).lastAct = st0.active ∧
      (branchSnap st0).lastSnap = st0.anchors := by
    rw [branchSnap, if_pos h2a]
    exact ⟨rfl, rfl⟩
  exact ⟨hf.1.trans hsnap.1, hf.2.trans hsnap.2⟩

theorem refineCore_anchorsFinal (streams : Nat → TokStream) (keys : List Nat)
    (seedTid : Nat) (init : Nat → Nat × Nat) (minChild maxChild : Nat) :
    (refineCore streams keys seedTid init minChild maxChild).anchorsFinal =
      refineAnch streams keys seedTid init minChild maxChild := by
  simp only [refineCore]

theorem refineCore_survivors (streams : Nat → TokStream) (keys : List Nat)
    (seedTid : Nat) (init : Nat → Nat × Nat) (minChild maxChild : Nat) :
    (refineCore streams keys seedTid init minChild maxChild).survivors =
      (applyFallback keys (refineEnd streams keys seedTid init minChild maxChild)).active := by
  simp only [refineCore]

theorem refineCore_frozenEq (streams : Nat → TokStream) (keys : List Nat)
    (seedTid : Nat) (init : Nat → Nat × Nat) (minChild maxChild : Nat) :
    (refineCore streams keys seedTid init minChild maxChild).frozen =
      (applyFallback keys (refineEnd streams keys seedTid init minChild maxChild)).frozen := by
  simp only [refineCore]

theorem refineCore_phrase (streams : Nat → TokStream) (keys : List Nat)
    (seedTid : Nat) (init : Nat → Nat × Nat) (minChild maxChild : Nat) :
    (refineCore streams keys seedTid init minChild maxChild).parentPhrase =
      joinSpace (anchSlice (streams seedTid)
        (refineAnch streams keys seedTid init minChild maxChild seedTid)) := by
  simp only [refineCore, anchSlice]

theorem refineCore_spans (streams : Nat → TokStream) (keys : List Nat)
    (seedTid : Nat) (init : Nat → Nat × Nat) (minChild maxChild : Nat) :
    (refineCore streams keys seedTid init minChild maxChild).parentSpans =
      finalizeSpans streams
        (applyFallback keys (refineEnd streams keys seedTid init minChild maxChild)).active
        (refineAnch streams keys seedTid init minChild maxChild)
        (applyFallback keys (refineEnd streams keys seedTid init minChild maxChild)).frozen := by
  simp only [refineCore]

set_option maxHeartbeats 1000000 in
theorem refineCore_spec (streams : Nat → TokStream) (keys : List Nat) (seedTid : Nat)
    (init : Nat → Nat × Nat) (minChild maxChild : Nat)
    (hk2 : 2 ≤ keys.length) (hnd : keys.Nodup) (hseed : seedTid ∈ keys)
    (hok : ∀ tid ∈ keys, AnchOk (streams tid) (init tid))
    (hsl : ∀ tid ∈ keys, anchSlice (streams tid) (init tid) =
      anchSlice (streams seedTid) (init seedTid)) :
    ((refineCore streams keys seedTid init minChild maxChild).survivors ⊆ keys) ∧
    (refineCore streams keys seedTid init minChild maxChild).survivors.Nodup ∧
    seedTid ∈ (refineCore streams keys seedTid init minChild maxChild).survivors ∧
    2 ≤ (refineCore streams keys seedTid init minChild maxChild).survivors.length ∧
    (∀ tid ∈ keys, AnchOk (streams tid)
        ((refineCore streams keys seedTid init minChild maxChild).anchorsFinal tid) ∧
      Grows (init tid)
        ((refineCore streams keys seedTid init minChild maxChild).anchorsFinal tid)) ∧
    (∀ tid ∈ (refineCore streams keys seedTid init minChild maxChild).survivors,
      anchSlice (streams tid)
          ((refineCore streams keys seedTid init minChild maxChild).anchorsFinal tid) =
        anchSlice (streams seedTid)
          ((refineCore streams keys seedTid init minChild maxChild).anchorsFinal seedTid)) ∧
    (∀ p ∈ (refineCore streams keys seedTid init minChild maxChild).frozen,
      p.1 ∈ keys ∧ AnchOk (streams p.1) p.2 ∧ Grows (init p.1) p.2) ∧
    (((refineCore streams keys seedTid init minChild maxChild).frozen.map (·.1)).Nodup) ∧
    (∀ tid ∈ keys, tid ∈ (refineCore streams keys seedTid init minChild maxChild).survivors ∨
      tid ∈ (refineCore streams keys seedTid init minChild maxChild).frozen.map (·.1)) ∧
    (∀ ch ∈ (refineCore streams keys seedTid init minChild maxChild).children,
      GoodChildP streams keys ch) ∧
    (refineCore streams keys seedTid init minChild maxChild).parentPhrase =
      joinSpace (anchSlice (streams seedTid)
        ((refineCore streams keys seedTid init minChild maxChild).anchorsFinal seedTid)) ∧
    (refineCore streams keys seedTid init minChild maxChild).parentSpans =
      (refineCore streams keys seedTid init minChild maxChild).survivors.map (fun tid =>
        (tid, token_span_to_seg_span streams tid
          ((refineCore streams keys seedTid init minChild maxChild).anchorsFinal tid).1
          ((refineCore streams keys seedTid init minChild maxChild).anchorsFinal tid).2)) ++
      ((refineCore streams keys seedTid init minChild maxChild).frozen.filter (fun p =>
        !(refineCore streams keys seedTid init minChild maxChild).survivors.contains p.1)).map
        (fun p => (p.1, token_span_to_seg_span streams p.1 p.2.1 p.2.2)) := by
  have hInv0 : Inv streams seedTid keys init ⟨keys, init, [], keys, init, []⟩ := by
    refine ⟨fun t ht => ht, hnd, hseed, fun t ht => ht, hnd, hseed, hk2, fun t ht => ht,
      ?_, hsl, ?_, ?_, List.nodup_nil, ?_, ?_⟩
    · intro tid htk
      exact ⟨hok tid htk, le_refl _, le_refl _⟩
    · intro tid htid
      exact ⟨hok tid htid, ⟨le_refl _, le_refl _⟩, hsl tid htid⟩
    · intro p hp
      cases hp
    · intro t ht
      exact Or.inl ht
    · intro ch hch
      cases hch
  have hL : Inv streams seedTid keys init
      (refineEnd streams keys seedTid init minChild maxChild) := by
    show Inv streams seedTid keys init
      (branchLoop streams false seedTid minChild maxChild
        ((streams seedTid).tokens.length + 1)
        (branchLoop streams true seedTid minChild maxChild
          ((streams seedTid).tokens.length + 1) ⟨keys, init, [], keys, init, []⟩))
    exact branchLoop_inv streams false seedTid minChild maxChild keys init _ _
      (branchLoop_inv streams true seedTid minChild maxChild keys init _ _ hInv0)
  obtain ⟨hInvF, h2F⟩ := applyFallback_inv streams seedTid keys init
    (refineEnd streams keys seedTid init minChild maxChild) hL
  obtain ⟨f1, f2, f3, f4, f5, f6, f7, f8, f9, f10, f11, f12, f13, f14, f15⟩ := hInvF
  obtain ⟨k9, k10⟩ := grow_subset_inv streams
    (applyFallback keys (refineEnd streams keys seedTid init minChild maxChild)).active
    keys init seedTid ((streams seedTid).tokens.length + 1)
    (applyFallback keys (refineEnd streams keys seedTid init minChild maxChild)).anchors
    f3 f1 f9 f10
  have k9' : ∀ tid ∈ keys, AnchOk (streams tid)
      (refineAnch streams keys seedTid init minChild maxChild tid) ∧
      Grows (init tid) (refineAnch streams keys seedTid init minChild maxChild tid) := k9
  have k10' : ∀ tid ∈
      (applyFallback keys (refineEnd streams keys seedTid init minChild maxChild)).active,
      anchSlice (streams tid) (refineAnch streams keys seedTid init minChild maxChild tid) =
        anchSlice (streams seedTid)
          (refineAnch streams keys seedTid init minChild maxChild seedTid) := k10
  refine ⟨f1, f2, f3, h2F, k9', ?_, f12, f13, f14, ?_, ?_, ?_⟩
  · rw [refineCore_anchorsFinal, refineCore_survivors]
    exact k10'
  · intro ch hch
    exact f15 ch (dedupChildren_sub _ _ _ ch hch)
  · rw [refineCore_anchorsFinal]
    exact refineCore_phrase streams keys seedTid init minChild maxChild
  · rw [refineCore_spans, refineCore_anchorsFinal, refineCore_survivors,
      refineCore_frozenEq, finalizeSpans]

/-! ## Token goodness and slice containment -/

theorem buildStream_tokens_good (db : DB) (tid : Nat) :
    ∀ t ∈ (buildStream db tid).tokens, goodTokB t = true := by
  intro t ht
  have ht2 : t ∈ (orderedSegs db tid).flatMap (fun s => word_tokens s.text) := ht
  obtain ⟨s, hs, hts⟩ := List.mem_flatMap.mp ht2
  exact word_tokens_good s.text t hts

theorem anchSlice_mem_tokens (st : TokStream) (a : Nat × Nat) :
    ∀ t ∈ anchSlice st a, t ∈ st.tokens := by
  intro t ht
  rw [anchSlice, sliceII] at ht
  exact List.mem_of_mem_drop (List.mem_of_mem_take ht)

theorem anchSlice_good (db : DB) (tid : Nat) (a : Nat × Nat) :
    ∀ t ∈ anchSlice (buildStream db tid) a, goodTokB t = true := by
  intro t ht
  exact buildStream_tokens_good db tid t (anchSlice_mem_tokens _ a t ht)

theorem sliceII_hasRun_of_grows [DecidableEq α] (l : List α) (a b : Nat × Nat)
    (hG : Grows a b) :
    hasRun (sliceII l b.1 b.2) (sliceII l a.1 a.2) = true := by
  obtain ⟨h1, h2⟩ := hG
  have hsm : sliceII l a.1 a.2 =
      ((sliceII l b.1 b.2).drop (a.1 - b.1)).take (a.2 + 1 - a.1) := by
    rw [sliceII, sliceII]
    rw [List.drop_take (b.2 + 1 - b.1) (a.1 - b.1) (l.drop b.1)]
    rw [List.drop_drop (a.1 - b.1) b.1 l]
    rw [List.take_take (a.2 + 1 - a.1) ((b.2 + 1 - b.1) - (a.1 - b.1))]
    have e1 : b.1 + (a.1 - b.1) = a.1 := by omega
    have e2 : min (a.2 + 1 - a.1) ((b.2 + 1 - b.1) - (a.1 - b.1)) = a.2 + 1 - a.1 := by
      apply Nat.min_eq_left
      omega
    rw [e1, e2]
  rw [hsm]
  refine (hasRun_iff _ _).mpr ⟨(sliceII l b.1 b.2).take (a.1 - b.1),
    ((sliceII l b.1 b.2).drop (a.1 - b.1)).drop (a.2 + 1 - a.1), ?_⟩
  rw [List.append_assoc, List.take_append_drop, List.take_append_drop]

theorem joinSpace_chars (ts : List String) :
    ∀ c ∈ (joinSpace ts).data, (∃ t ∈ ts, c ∈ t.data) ∨ c = ' ' := by
  induction ts with
  | nil =>
    intro c hc
    rw [joinSpace] at hc
    simp at hc
  | cons t ts ih =>
    cases ts with
    | nil =>
      intro c hc
      rw [joinSpace] at hc
      exact Or.inl ⟨t, List.mem_cons_self _ _, hc⟩
    | cons t2 ts2 =>
      intro c hc
      rw [show joinSpace (t :: t2 :: ts2) = t ++ " " ++ joinSpace (t2 :: ts2) from rfl] at hc
      rw [String.data_append, String.data_append] at hc
      rcases List.mem_append.mp hc with h1 | h2
      · rcases List.mem_append.mp h1 with h3 | h4
        · exact Or.inl ⟨t, List.mem_cons_self _ _, h3⟩
        · refine Or.inr ?_
          have hc2 : c ∈ [' '] := h4
          exact List.mem_singleton.mp hc2
      · rcases ih c h2 with ⟨u, hu, hcu⟩ | hsp
        · exact Or.inl ⟨u, List.mem_cons_of_mem _ hu, hcu⟩
        · exact Or.inr hsp

theorem joinSpace_good_chars (ts : List String) (h : ∀ t ∈ ts, goodTokB t = true) :
    ∀ c ∈ (joinSpace ts).data, isLowTokChar c = true ∨ c = ' ' := by
  intro c hc
  rcases joinSpace_chars ts c hc with ⟨t, ht, hct⟩ | hsp
  · have hg := h t ht
    rw [goodTokB] at hg
    simp only [Bool.and_eq_true, List.all_eq_true] at hg
    exact Or.inl (hg.2 c hct)
  · exact Or.inr hsp

/-! # C6 -/

/-- C6: in the seed scan a candidate window phrase is skipped exactly when
its tokenized length (lowercase words of the word regex) is strictly below
the threshold: `_good_seed` holds iff the token count is at least the
threshold, and a window failing it makes the scan move to the next start
index without any other effect — the phrase is never rewritten, only
re-derived at the next window. -/
theorem C6_seed_token_threshold :
    (∀ (phrase : String) (t : Nat),
      good_seed phrase t = true ↔ t ≤ (word_tokens phrase).length) ∧
    (∀ (db : DB) (seedTid k minTokens : Nat) (ids : List Nat) (i : Nat),
      i + k ≤ ids.length →
      good_seed (phraseBetween db seedTid (ids.getD i 0) (ids.getD (i + k - 1) 0))
        minTokens = false →
      scanFrom db seedTid k minTokens ids i = scanFrom db seedTid k minTokens ids (i + 1)) := by
  constructor
  · intro phrase t
    simp [good_seed]
  · intro db seedTid k minTokens ids i hik hbad
    unfold scanFrom
    have h1 : ids.length + 1 - i = (ids.length + 1 - (i + 1)) + 1 := by omega
    rw [h1, scanFromAux, if_pos hik, hbad]
    simp

/-- Witness for C6: the seed window "just two" has 2 = T − 1 tokens under
threshold T = 3 and is skipped (the scan from index 0 equals the scan from
index 1), while a 3-token phrase is accepted at exactly the threshold. -/
theorem C6_witness :
    good_seed "just two segments" 3 = true ∧
    good_seed (phraseBetween db7 1 1 1) 3 = false ∧
    scanFrom db7 1 1 3 (seedSegIds db7 1) 0 = scanFrom db7 1 1 3 (seedSegIds db7 1) 1 := by
  refine ⟨by decide, by decide, ?_⟩
  exact C6_seed_token_threshold.2 db7 1 1 3 (seedSegIds db7 1) 0 (by decide) (by decide)

/-! # C7 -/

/-- The accepted-window branch writes nothing when it produces no summary
(that only happens when refinement raises). -/
theorem acceptBranch_none_unchanged (db : DB) (seedTid : Nat) (ids : List Nat)
    (k i : Nat) (phrase : String) (hits : List (Nat × Nat × Nat)) :
    (acceptBranch db seedTid ids k i phrase hits).1 = none →
    (acceptBranch db seedTid ids k i phrase hits).2 = db := by
  simp only [acceptBranch]
  cases h : refine_with_branching db (collapseHits (expandLeft db seedTid ids i
      (expandRight db seedTid ids i (i + k)
        { curS := ids.getD i 0, curE := ids.getD (i + k - 1) 0, curHits := hits })).curHits)
      seedTid phrase 1 4 with
  | none => simp
  | some pr => simp

/-- Helper for C7: if the scan returns no summary, the database is returned
unchanged — no row of any table is written. -/
theorem scanFromAux_none_unchanged (db : DB) (seedTid k minTokens : Nat)
    (ids : List Nat) :
    ∀ (fuel i : Nat),
      (scanFromAux db seedTid k minTokens ids fuel i).1 = none →
      (scanFromAux db seedTid k minTokens ids fuel i).2 = db := by
  intro fuel
  induction fuel with
  | zero =>
    intro i _
    rfl
  | succ fuel ih =>
    intro i hnone
    rw [scanFromAux] at hnone ⊢
    by_cases hik : i + k ≤ ids.length
    · rw [if_pos hik] at hnone ⊢
      by_cases hg : (!good_seed (phraseBetween db seedTid (ids.getD i 0)
          (ids.getD (i + k - 1) 0)) minTokens) = true
      · rw [if_pos hg] at hnone ⊢
        exact ih (i + 1) hnone
      · rw [if_neg hg] at hnone ⊢
        by_cases hacc : (2 ≤ (hitTids (fts_hits db (phraseBetween db seedTid
            (ids.getD i 0) (ids.getD (i + k - 1) 0)))).length &&
            (hitTids (fts_hits db (phraseBetween db seedTid (ids.getD i 0)
              (ids.getD (i + k - 1) 0)))).contains seedTid) = true
        · rw [if_pos hacc] at hnone ⊢
          exact acceptBranch_none_unchanged db seedTid ids k i _ _ hnone
        · rw [if_neg hacc] at hnone ⊢
          exact ih (i + 1) hnone
    · rw [if_neg hik]

/-- C7: whenever `build_first_cu` returns nothing — the seed transcript is
shorter than the window size, or every window is skipped or fails the
two-transcripts-including-the-seed test (or refinement aborts by exception) —
the database is unchanged: no `canonical_units` or `cu_occurrences` rows are
written. -/
theorem C7_no_result_no_writes (db : DB) (seedTid k minTokens : Nat)
    (hnone : (build_first_cu db seedTid k minTokens).1 = none) :
    (build_first_cu db seedTid k minTokens).2 = db := by
  unfold build_first_cu at hnone ⊢
  by_cases hg : ((seedSegIds db seedTid).length < k || k = 0) = true
  · simp [hg]
  · simp only [hg, if_false] at hnone ⊢
    exact scanFromAux_none_unchanged db seedTid k minTokens (seedSegIds db seedTid)
      ((seedSegIds db seedTid).length + 1 - 0) 0 hnone

/-- Witness for C7: a seed transcript with two segments and window size 3
returns nothing and leaves the database unchanged. -/
theorem C7_witness :
    (build_first_cu db7 1 3 2).1 = none ∧ (build_first_cu db7 1 3 2).2 = db7 :=
  ⟨by decide, C7_no_result_no_writes db7 1 3 2 (by decide)⟩

/-! # C4 -/

/-- Counterexample to C4 as stated: in corpus `cx4` (seed window "a b",
windows of size 1 accepted with hits in transcripts 1, 2, 3) the first right
extension builds the phrase "a b c", whose Phrase Lookup result covers
transcripts 2 and 3 but NOT the seed transcript 1 — yet the extension is
accepted (`cur_e` moves to segment 2 with exactly those hits), because the
source only tests `len(tids) >= 2` during expansion and never re-checks seed
membership. -/
theorem C4_counterexample :
    phraseBetween cx4 1 1 2 = "a b c" ∧
    (hitTids (fts_hits cx4 "a b c")).contains 1 = false ∧
    (expandRight cx4 1 (seedSegIds cx4 1) 0 1 ⟨1, 1, fts_hits cx4 "a b"⟩).curE = 2 ∧
    (expandRight cx4 1 (seedSegIds cx4 1) 0 1 ⟨1, 1, fts_hits cx4 "a b"⟩).curHits =
      fts_hits cx4 "a b c" := by
  decide

/-- C4 amended: during segment-level greedy expansion (right, then left) an
extension is accepted iff the Phrase Lookup result for the extended phrase
covers at least two distinct transcripts — seed membership is not re-checked
— and each direction stops at its first rejected extension.  Formally, each
loop runs to an index bound `jf`: every candidate before it was accepted
(had ≥ 2 matching transcripts), the candidate at the bound (if any) was
rejected, and the final state carries the last accepted bound and hit set. -/
theorem C4_amended :
    (∀ (db : DB) (seedTid : Nat) (ids : List Nat) (i j : Nat) (cur : ExpSt),
      ∃ jf, j ≤ jf ∧
        (∀ m, j ≤ m → m < jf → m < ids.length ∧
          2 ≤ (hitTids (fts_hits db (phraseBetween db seedTid (ids.getD i 0)
            (ids.getD m 0)))).length) ∧
        (jf < ids.length →
          ¬ 2 ≤ (hitTids (fts_hits db (phraseBetween db seedTid (ids.getD i 0)
            (ids.getD jf 0)))).length) ∧
        expandRight db seedTid ids i j cur =
          (if j = jf then cur
           else { cur with curE := ids.getD (jf - 1) 0
                           curHits := fts_hits db (phraseBetween db seedTid
                             (ids.getD i 0) (ids.getD (jf - 1) 0)) })) ∧
    (∀ (db : DB) (seedTid : Nat) (ids : List Nat) (jp : Nat) (cur : ExpSt),
      ∃ jpf, jpf ≤ jp ∧
        (∀ m, jpf ≤ m → m < jp →
          2 ≤ (hitTids (fts_hits db (phraseBetween db seedTid (ids.getD m 0)
            cur.curE))).length) ∧
        (0 < jpf →
          ¬ 2 ≤ (hitTids (fts_hits db (phraseBetween db seedTid
            (ids.getD (jpf - 1) 0) cur.curE))).length) ∧
        expandLeft db seedTid ids jp cur =
          (if jpf = jp then cur
           else { cur with curS := ids.getD jpf 0
                           curHits := fts_hits db (phraseBetween db seedTid
                             (ids.getD jpf 0) cur.curE) })) := by
  constructor
  · intro db seedTid ids i
    have main : ∀ (fuel j : Nat) (cur : ExpSt), ids.length - j ≤ fuel →
        ∃ jf, j ≤ jf ∧
          (∀ m, j ≤ m → m < jf → m < ids.length ∧
            2 ≤ (hitTids (fts_hits db (phraseBetween db seedTid (ids.getD i 0)
              (ids.getD m 0)))).length) ∧
          (jf < ids.length →
            ¬ 2 ≤ (hitTids (fts_hits db (phraseBetween db seedTid (ids.getD i 0)
              (ids.getD jf 0)))).length) ∧
          expandRightAux db seedTid ids i fuel j cur =
            (if j = jf then cur
             else { cur with curE := ids.getD (jf - 1) 0
                             curHits := fts_hits db (phraseBetween db seedTid
                               (ids.getD i 0) (ids.getD (jf - 1) 0)) }) := by
      intro fuel
      induction fuel with
      | zero =>
        intro j cur hn
        refine ⟨j, le_refl j, ?_, ?_, ?_⟩
        · intro m hm1 hm2
          exact absurd (hm1.trans_lt hm2) (lt_irrefl j)
        · intro hjl
          exact absurd hjl (by omega)
        · rw [expandRightAux, if_pos rfl]
      | succ fuel ih =>
        intro j cur hn
        by_cases hj : j < ids.length
        · by_cases hacc : 2 ≤ (hitTids (fts_hits db (phraseBetween db seedTid
              (ids.getD i 0) (ids.getD j 0)))).length
          · obtain ⟨jf, hjf1, hjf2, hjf3, hjf4⟩ := ih (j + 1)
              { cur with curE := ids.getD j 0
                         curHits := fts_hits db (phraseBetween db seedTid
                           (ids.getD i 0) (ids.getD j 0)) } (by omega)
            refine ⟨jf, by omega, ?_, hjf3, ?_⟩
            · intro m hm1 hm2
              rcases Nat.eq_or_lt_of_le hm1 with rfl | hlt
              · exact ⟨hj, hacc⟩
              · exact hjf2 m hlt hm2
            · rw [expandRightAux, if_pos hj, if_pos hacc, hjf4]
              have hne : ¬ (j = jf) := by omega
              rw [if_neg hne]
              by_cases hj1 : j + 1 = jf
              · rw [if_pos hj1]
                have h2 : jf - 1 = j := by omega
                rw [h2]
              · rw [if_neg hj1]
          · refine ⟨j, le_refl j, ?_, fun _ => hacc, ?_⟩
            · intro m hm1 hm2
              exact absurd (hm1.trans_lt hm2) (lt_irrefl j)
            · rw [expandRightAux, if_pos hj, if_neg hacc, if_pos rfl]
        · refine ⟨j, le_refl j, ?_, ?_, ?_⟩
          · intro m hm1 hm2
            exact absurd (hm1.trans_lt hm2) (lt_irrefl j)
          · intro hjl
            exact absurd hjl hj
          · rw [expandRightAux, if_neg hj, if_pos rfl]
    intro j cur
    exact main (ids.length - j) j cur (le_refl _)
  · intro db seedTid ids jp
    induction jp with
    | zero =>
      intro cur
      refine ⟨0, le_refl 0, ?_, ?_, ?_⟩
      · intro m hm1 hm2
        exact absurd hm2 (by omega)
      · intro h0
        exact absurd h0 (lt_irrefl 0)
      · rw [expandLeft, if_pos rfl]
    | succ jp ih =>
      intro cur
      by_cases hacc : 2 ≤ (hitTids (fts_hits db (phraseBetween db seedTid
          (ids.getD jp 0) cur.curE))).length
      · obtain ⟨jpf, hjpf1, hjpf2, hjpf3, hjpf4⟩ := ih
          { cur with curS := ids.getD jp 0
                     curHits := fts_hits db (phraseBetween db seedTid
                       (ids.getD jp 0) cur.curE) }
        refine ⟨jpf, by omega, ?_, ?_, ?_⟩
        · intro m hm1 hm2
          rcases Nat.lt_or_ge m jp with hlt | hge
          · exact hjpf2 m hm1 hlt
          · have hmj : m = jp := by omega
            subst hmj
            exact hacc
        · intro h0
          exact hjpf3 h0
        · rw [expandLeft, if_pos hacc, hjpf4]
          have hne : ¬ (jpf = jp + 1) := by omega
          rw [if_neg hne]
          by_cases hje : jpf = jp
          · rw [if_pos hje]
            subst hje
            rfl
          · rw [if_neg hje]
      · refine ⟨jp + 1, le_refl _, ?_, ?_, ?_⟩
        · intro m hm1 hm2
          exact absurd (hm1.trans_lt hm2) (lt_irrefl (jp + 1))
        · intro _
          have h2 : jp + 1 - 1 = jp := by omega
          rw [h2]
          exact hacc
        · rw [expandLeft, if_neg hacc, if_pos rfl]

/-! # C8 -/

/-- A non-`none` accumulator can never fall back to `none`. -/
theorem foldl_anchorStep_some (st : TokStream) (pattern : List String)
    (sSeg eSeg : Nat) (l : List Nat) (b : Nat × Nat × Int) :
    ∃ b', l.foldl (anchorStep st pattern sSeg eSeg) (some b) = some b' := by
  induction l generalizing b with
  | nil => exact ⟨b, rfl⟩
  | cons x xs ih =>
    rw [List.foldl_cons]
    unfold anchorStep
    by_cases ht : (st.tokens.drop x).take pattern.length = pattern
    · rw [if_pos ht]
      by_cases hov : occOverlap st sSeg eSeg x pattern.length > b.2.2
      · simp only [hov, if_true]
        exact ih _
      · simp only [hov, if_false]
        exact ih _
    · rw [if_neg ht]
      exact ih b

/-- If some index of the scan range matches, the search returns a hit. -/
theorem foldl_anchorStep_hit (st : TokStream) (pattern : List String)
    (sSeg eSeg : Nat) (l : List Nat)
    (h : ∃ i ∈ l, (st.tokens.drop i).take pattern.length = pattern) :
    ∃ b', l.foldl (anchorStep st pattern sSeg eSeg) none = some b' := by
  induction l with
  | nil =>
    rcases h with ⟨i, hi, _⟩
    cases hi
  | cons x xs ih =>
    rw [List.foldl_cons]
    by_cases ht : (st.tokens.drop x).take pattern.length = pattern
    · have hx : anchorStep st pattern sSeg eSeg none x =
          some (x, x + pattern.length - 1, occOverlap st sSeg eSeg x pattern.length) := by
        unfold anchorStep
        rw [if_pos ht]
      rw [hx]
      exact foldl_anchorStep_some st pattern sSeg eSeg xs _
    · have hx : anchorStep st pattern sSeg eSeg none x = none := by
        unfold anchorStep
        rw [if_neg ht]
      rw [hx]
      rcases h with ⟨i, hi, hmatch⟩
      rcases List.mem_cons.mp hi with rfl | hixs
      · exact absurd hmatch ht
      · exact ih ⟨i, hixs, hmatch⟩

/-- If no index of the scan range matches, the search returns nothing. -/
theorem foldl_anchorStep_none (st : TokStream) (pattern : List String)
    (sSeg eSeg : Nat) (l : List Nat)
    (h : ∀ i ∈ l, (st.tokens.drop i).take pattern.length ≠ pattern) :
    l.foldl (anchorStep st pattern sSeg eSeg) none = none := by
  induction l with
  | nil => rfl
  | cons x xs ih =>
    rw [List.foldl_cons]
    have hx : anchorStep st pattern sSeg eSeg none x = none := by
      unfold anchorStep
      rw [if_neg (h x (List.mem_cons_self x xs))]
    rw [hx]
    exact ih (fun i hi => h i (List.mem_cons_of_mem x hi))

/-- `findAnchor` misses exactly when the pattern occurs nowhere. -/
theorem findAnchor_none_iff (st : TokStream) (pattern : List String)
    (sSeg eSeg : Nat) (hp : pattern ≠ []) :
    findAnchor st pattern sSeg eSeg = none ↔
      ∀ i, (st.tokens.drop i).take pattern.length ≠ pattern := by
  constructor
  · intro hnone i hmatch
    by_cases hrange : i + pattern.length ≤ st.tokens.length
    · have hi : i ∈ List.range (st.tokens.length + 1 - pattern.length) := by
        rw [List.mem_range]
        omega
      obtain ⟨b', hb'⟩ := foldl_anchorStep_hit st pattern sSeg eSeg _ ⟨i, hi, hmatch⟩
      unfold findAnchor at hnone
      rw [hb'] at hnone
      cases hnone
    · have hlen : ((st.tokens.drop i).take pattern.length).length = pattern.length := by
        rw [hmatch]
      rw [List.length_take, List.length_drop] at hlen
      have : 1 ≤ pattern.length := List.length_pos.mpr hp
      omega
  · intro h
    unfold findAnchor
    rw [foldl_anchorStep_none st pattern sSeg eSeg _ (fun i _ => h i)]
    rfl

/-- If some transcript of the span set cannot be anchored, the whole
anchoring pass reports failure. -/
theorem anchorAll_eq_none (db : DB) (pattern : List String)
    (spans : List (Nat × Nat × Nat))
    (h : ∃ sp ∈ spans, anchorOf db pattern sp = none) :
    anchorAll db pattern spans = none := by
  induction spans with
  | nil =>
    rcases h with ⟨sp, hmem, _⟩
    cases hmem
  | cons x xs ih =>
    rcases h with ⟨sp, hmem, hnone⟩
    rcases List.mem_cons.mp hmem with rfl | hxs
    · rw [anchorAll, hnone]
    · rw [anchorAll]
      cases hx : anchorOf db pattern x with
      | none => rfl
      | some a =>
        rw [ih ⟨sp, hxs, hnone⟩]
        rfl

/-- C8: `findAnchor` fails precisely when the tokenized seed pattern has no
occurrence in a transcript's token stream, and whenever the pattern is empty
or any transcript of `per_tid_spans` fails to anchor, `refine_with_branching`
returns the segment-level spans and the original seed phrase unchanged, with
no children. -/
theorem C8_refine_abort :
    (∀ (st : TokStream) (pattern : List String) (sSeg eSeg : Nat),
      pattern ≠ [] →
      (findAnchor st pattern sSeg eSeg = none ↔
        ∀ i, (st.tokens.drop i).take pattern.length ≠ pattern)) ∧
    (∀ (db : DB) (spans : List (Nat × Nat × Nat)) (seedTid : Nat)
      (seedPhrase : String) (minChild maxChild : Nat),
      (word_tokens seedPhrase = [] ∨
        ∃ sp ∈ spans, anchorOf db (word_tokens seedPhrase) sp = none) →
      refine_with_branching db spans seedTid seedPhrase minChild maxChild =
        some (spans, seedPhrase, [])) := by
  constructor
  · exact findAnchor_none_iff
  · intro db spans seedTid seedPhrase minChild maxChild habort
    by_cases hemp : (word_tokens seedPhrase).isEmpty = true
    · simp [refine_with_branching, hemp]
    · have hanch : anchorAll db (word_tokens seedPhrase) spans = none := by
        rcases habort with h0 | hex
        · exact absurd (by simp [h0]) hemp
        · exact anchorAll_eq_none db _ spans hex
      simp [refine_with_branching, hemp, hanch]

/-- Witness for C8: the phrase "zebra quantum" has no occurrence in
transcript 1 of `db7`, and refinement returns the segment-level result
untouched. -/
theorem C8_witness :
    anchorOf db7 (word_tokens "zebra quantum") (1, 1, 2) = none ∧
    refine_with_branching db7 [(1, 1, 2)] 1 "zebra quantum" 1 4 =
      some ([(1, 1, 2)], "zebra quantum", []) :=
  ⟨by decide,
   C8_refine_abort.2 db7 [(1, 1, 2)] 1 "zebra quantum" 1 4
     (Or.inr ⟨(1, 1, 2), by decide, by decide⟩)⟩

/-- Witness for C4 amended: the right-expansion characterization applied to
the concrete corpus `cx4` at the accepted seed window. -/
theorem C4_amended_witness :
    ∃ jf, 1 ≤ jf ∧
      (∀ m, 1 ≤ m → m < jf → m < (seedSegIds cx4 1).length ∧
        2 ≤ (hitTids (fts_hits cx4 (phraseBetween cx4 1 ((seedSegIds cx4 1).getD 0 0)
          ((seedSegIds cx4 1).getD m 0)))).length) ∧
      (jf < (seedSegIds cx4 1).length →
        ¬ 2 ≤ (hitTids (fts_hits cx4 (phraseBetween cx4 1 ((seedSegIds cx4 1).getD 0 0)
          ((seedSegIds cx4 1).getD jf 0)))).length) ∧
      expandRight cx4 1 (seedSegIds cx4 1) 0 1 ⟨1, 1, fts_hits cx4 "a b"⟩ =
        (if 1 = jf then (⟨1, 1, fts_hits cx4 "a b"⟩ : ExpSt)
         else { (⟨1, 1, fts_hits cx4 "a b"⟩ : ExpSt) with
                  curE := (seedSegIds cx4 1).getD (jf - 1) 0
                  curHits := fts_hits cx4 (phraseBetween cx4 1
                    ((seedSegIds cx4 1).getD 0 0) ((seedSegIds cx4 1).getD (jf - 1) 0)) }) :=
  C4_amended.1 cx4 1 (seedSegIds cx4 1) 0 1 ⟨1, 1, fts_hits cx4 "a b"⟩

/-! # C5 -/

/-- C5: in the branching refinement, (a) every loop step that starts with at
least two active transcripts saves a snapshot of the active set and its
anchors into `last_multi_active` / `last_multi_snapshot`; (b) when the loop
ends with fewer than two survivors the fallback restores that snapshot as the
surviving set with its saved anchors; (c) every transcript that is not a
survivor appears in the parent result with its frozen (last-agreed) anchor
range. -/
theorem C5_snapshot_fallback (streams : Nat → TokStream) (keys : List Nat)
    (seedTid : Nat) (init : Nat → Nat × Nat) (minChild maxChild : Nat)
    (hk2 : 2 ≤ keys.length) (hnd : keys.Nodup) (hseed : seedTid ∈ keys)
    (hok : ∀ tid ∈ keys, AnchOk (streams tid) (init tid))
    (hsl : ∀ tid ∈ keys, anchSlice (streams tid) (init tid) =
      anchSlice (streams seedTid) (init seedTid)) :
    (∀ (dir : Bool) (st0 : BrSt), 2 ≤ st0.active.length →
      (stepState (branchStep streams dir seedTid minChild maxChild st0)).lastAct
        = st0.active ∧
      (stepState (branchStep streams dir seedTid minChild maxChild st0)).lastSnap
        = st0.anchors) ∧
    (∀ st : BrSt, st.active.length < 2 →
      (applyFallback keys st).active = st.lastAct ∧
      ∀ t ∈ st.lastAct, (applyFallback keys st).anchors t = st.lastSnap t) ∧
    (∀ tid ∈ keys,
      tid ∉ (refineCore streams keys seedTid init minChild maxChild).survivors →
      ∃ v : Nat × Nat,
        (tid, v) ∈ (refineCore streams keys seedTid init minChild maxChild).frozen ∧
        (tid, token_span_to_seg_span streams tid v.1 v.2) ∈
          (refineCore streams keys seedTid init minChild maxChild).parentSpans) := by
  refine ⟨?_, ?_, ?_⟩
  · intro dir st0 h2a
    exact branchStep_snapshot streams dir seedTid minChild maxChild st0 h2a
  · intro st hlt
    rw [applyFallback, if_pos hlt]
    refine ⟨rfl, ?_⟩
    intro t ht
    show (if st.lastAct.contains t = true then st.lastSnap t else st.anchors t)
      = st.lastSnap t
    rw [if_pos ((containsN_iff _ _).mpr ht)]
  · intro tid htk hns
    obtain ⟨s1, s2, s3, s4, s5, s6, s7, s8, s9, s10, s11, s12⟩ :=
      refineCore_spec streams keys seedTid init minChild maxChild hk2 hnd hseed hok hsl
    rcases s9 tid htk with hs | hf
    · exact absurd hs hns
    · obtain ⟨p, hp, hpe⟩ := List.mem_map.mp hf
      refine ⟨p.2, ?_, ?_⟩
      · rw [← hpe]
        exact hp
      · rw [s12]
        refine List.mem_append.mpr (Or.inr (List.mem_map.mpr ⟨p, ?_, ?_⟩))
        · refine List.mem_filter.mpr ⟨hp, ?_⟩
          rw [hpe]
          simp [hns]
        · rw [hpe]

/-- Witness for C5: in the corpus `cx1`, transcript 3 is not a survivor, and
the theorem produces its frozen bounds and its parent-span entry. -/
theorem C5_witness :
    (3 : Nat) ∈ ([1, 2, 3] : List Nat) ∧
    3 ∉ (refineCore (buildStream cx1) [1, 2, 3] 1
      (fun _ => ((0 : Nat), (1 : Nat))) 1 4).survivors ∧
    ∃ v : Nat × Nat,
      (3, v) ∈ (refineCore (buildStream cx1) [1, 2, 3] 1
        (fun _ => ((0 : Nat), (1 : Nat))) 1 4).frozen ∧
      ((3 : Nat), token_span_to_seg_span (buildStream cx1) 3 v.1 v.2) ∈
        (refineCore (buildStream cx1) [1, 2, 3] 1
          (fun _ => ((0 : Nat), (1 : Nat))) 1 4).parentSpans :=
  ⟨by decide, by decide,
    (C5_snapshot_fallback (buildStream cx1) [1, 2, 3] 1 (fun _ => (0, 1)) 1 4
      (by decide) (by decide) (by decide) (by decide) (by decide)).2.2 3 (by decide)
      (by decide)⟩

/-! # C9 -/

/-- C9: refinement anchors only grow.  Every entry of the returned parent
spans — survivor or frozen outlier — is the segment range of a valid token
anchor that contains that transcript's initial anchor, and the returned
parent phrase contains the tokenized seed window as a contiguous run. -/
theorem C9_anchors_only_grow (db : DB) (keys : List Nat) (seedTid : Nat)
    (init : Nat → Nat × Nat) (minChild maxChild : Nat)
    (hk2 : 2 ≤ keys.length) (hnd : keys.Nodup) (hseed : seedTid ∈ keys)
    (hok : ∀ tid ∈ keys, AnchOk (buildStream db tid) (init tid))
    (hsl : ∀ tid ∈ keys, anchSlice (buildStream db tid) (init tid) =
      anchSlice (buildStream db seedTid) (init seedTid)) :
    (∀ sp ∈ (refineCore (buildStream db) keys seedTid init minChild maxChild).parentSpans,
      sp.1 ∈ keys ∧ ∃ a : Nat × Nat, AnchOk (buildStream db sp.1) a ∧
        Grows (init sp.1) a ∧
        sp.2 = token_span_to_seg_span (buildStream db) sp.1 a.1 a.2) ∧
    hasRun (word_tokens
        (refineCore (buildStream db) keys seedTid init minChild maxChild).parentPhrase)
      (anchSlice (buildStream db seedTid) (init seedTid)) = true := by
  obtain ⟨s1, s2, s3, s4, s5, s6, s7, s8, s9, s10, s11, s12⟩ :=
    refineCore_spec (buildStream db) keys seedTid init minChild maxChild hk2 hnd hseed hok hsl
  constructor
  · intro sp hsp
    rw [s12] at hsp
    rcases List.mem_append.mp hsp with hsv | hfz
    · obtain ⟨tid, htid, rfl⟩ := List.mem_map.mp hsv
      have htk : tid ∈ keys := s1 htid
      exact ⟨htk, (refineCore (buildStream db) keys seedTid init minChild
        maxChild).anchorsFinal tid, (s5 tid htk).1, (s5 tid htk).2, rfl⟩
    · obtain ⟨p, hpf, rfl⟩ := List.mem_map.mp hfz
      have hp2 := s7 p (List.mem_filter.mp hpf).1
      exact ⟨hp2.1, p.2, hp2.2.1, hp2.2.2, rfl⟩
  · rw [s11, word_tokens_join_of_good _ (anchSlice_good db seedTid _)]
    exact sliceII_hasRun_of_grows (buildStream db seedTid).tokens (init seedTid)
      ((refineCore (buildStream db) keys seedTid init minChild maxChild).anchorsFinal
        seedTid) (s5 seedTid hseed).2

/-- Witness for C9: on the corpus `cx1` the returned parent phrase contains
the tokenized seed window `a b` as a contiguous run. -/
theorem C9_witness :
    hasRun (word_tokens (refineCore (buildStream cx1) [1, 2, 3] 1
        (fun _ => ((0 : Nat), (1 : Nat))) 1 4).parentPhrase)
      (anchSlice (buildStream cx1 1) (0, 1)) = true :=
  (C9_anchors_only_grow cx1 [1, 2, 3] 1 (fun _ => (0, 1)) 1 4
    (by decide) (by decide) (by decide) (by decide) (by decide)).2

/-! # C10 -/

/-- C10: when anchoring succeeds, every returned phrase — the parent phrase
and each child candidate's phrase — is a single-space join of a nonempty list
of word-regex tokens (lowercase letters, digits, apostrophes), so its
characters are only such token characters and single separating spaces, and
re-tokenizing the phrase returns exactly that token list. -/
theorem C10_phrases_tokenized (db : DB) (keys : List Nat) (seedTid : Nat)
    (init : Nat → Nat × Nat) (minChild maxChild : Nat)
    (hk2 : 2 ≤ keys.length) (hnd : keys.Nodup) (hseed : seedTid ∈ keys)
    (hok : ∀ tid ∈ keys, AnchOk (buildStream db tid) (init tid))
    (hsl : ∀ tid ∈ keys, anchSlice (buildStream db tid) (init tid) =
      anchSlice (buildStream db seedTid) (init seedTid)) :
    (∃ toks : List String, toks ≠ [] ∧ (∀ t ∈ toks, goodTokB t = true) ∧
      (refineCore (buildStream db) keys seedTid init minChild maxChild).parentPhrase =
        joinSpace toks ∧
      word_tokens (refineCore (buildStream db) keys seedTid init minChild
        maxChild).parentPhrase = toks ∧
      ∀ c ∈ ((refineCore (buildStream db) keys seedTid init minChild
          maxChild).parentPhrase).data,
        isLowTokChar c = true ∨ c = ' ') ∧
    (∀ ch ∈ (refineCore (buildStream db) keys seedTid init minChild maxChild).children,
      ∃ toks : List String, toks ≠ [] ∧ (∀ t ∈ toks, goodTokB t = true) ∧
        ch.phrase = joinSpace toks ∧ word_tokens ch.phrase = toks ∧
        ∀ c ∈ ch.phrase.data, isLowTokChar c = true ∨ c = ' ') := by
  obtain ⟨s1, s2, s3, s4, s5, s6, s7, s8, s9, s10, s11, s12⟩ :=
    refineCore_spec (buildStream db) keys seedTid init minChild maxChild hk2 hnd hseed hok hsl
  constructor
  · refine ⟨anchSlice (buildStream db seedTid)
      ((refineCore (buildStream db) keys seedTid init minChild maxChild).anchorsFinal
        seedTid),
      anchSlice_ne_nil _ _ (s5 seedTid hseed).1, anchSlice_good db seedTid _, s11, ?_, ?_⟩
    · rw [s11]
      exact word_tokens_join_of_good _ (anchSlice_good db seedTid _)
    · rw [s11]
      exact joinSpace_good_chars _ (anchSlice_good db seedTid _)
  · intro ch hch
    obtain ⟨toks, hne, hphr, hrep, hsp⟩ := s10 ch hch
    have hgood : ∀ t ∈ toks, goodTokB t = true := by
      obtain ⟨rtid, hrtk, b, hbok, hbeq⟩ := hrep
      intro t ht
      rw [← hbeq] at ht
      exact anchSlice_good db rtid b t ht
    refine ⟨toks, hne, hgood, hphr, ?_, ?_⟩
    · rw [hphr]
      exact word_tokens_join_of_good toks hgood
    · rw [hphr]
      exact joinSpace_good_chars toks hgood

/-- Witness for C10: the parent phrase built on `cx1` is a join of good
tokens, re-tokenizes to itself and uses only token characters and spaces. -/
theorem C10_witness :
    ∃ toks : List String, toks ≠ [] ∧ (∀ t ∈ toks, goodTokB t = true) ∧
      (refineCore (buildStream cx1) [1, 2, 3] 1
        (fun _ => ((0 : Nat), (1 : Nat))) 1 4).parentPhrase = joinSpace toks ∧
      word_tokens (refineCore (buildStream cx1) [1, 2, 3] 1
        (fun _ => ((0 : Nat), (1 : Nat))) 1 4).parentPhrase = toks ∧
      ∀ c ∈ ((refineCore (buildStream cx1) [1, 2, 3] 1
          (fun _ => ((0 : Nat), (1 : Nat))) 1 4).parentPhrase).data,
        isLowTokChar c = true ∨ c = ' ' :=
  (C10_phrases_tokenized cx1 [1, 2, 3] 1 (fun _ => (0, 1)) 1 4
    (by decide) (by decide) (by decide) (by decide) (by decide)).1

/-! # C1 -/

/-- C1 counterexample: after `build_first_cu` on the corpus `cx1`, some
persisted canonical unit has an occurrence row whose segment-range word
tokens do NOT contain the unit's tokenized `rep_text` as a contiguous run —
the frozen outlier of transcript 3 carries `a b x` while the parent's
`rep_text` is `a b c`. -/
theorem C1_counterexample :
    ∃ cu ∈ (build_first_cu cx1 1 1 2).2.canonicalUnits,
      ∃ occ ∈ (build_first_cu cx1 1 1 2).2.cuOccurrences,
        occ.cuId = cu.id ∧
        hasRun (occTokens (build_first_cu cx1 1 1 2).2 occ.transcriptId
            occ.segStartId occ.segEndId)
          (word_tokens cu.repText) = false := by
  decide

/-- C1 (amended): containment holds for the parent's surviving occurrences
and for every child occurrence; a frozen-outlier occurrence of the parent is
only guaranteed to contain the tokenized seed window (its anchors at freeze
time), not the parent's final `rep_text`. -/
theorem C1_amended (db : DB) (keys : List Nat) (seedTid : Nat)
    (init : Nat → Nat × Nat) (minChild maxChild : Nat)
    (hal : ∀ tid ∈ keys, List.Pairwise (· < ·) ((orderedSegs db tid).map (·.id)))
    (hk2 : 2 ≤ keys.length) (hnd : keys.Nodup) (hseed : seedTid ∈ keys)
    (hok : ∀ tid ∈ keys, AnchOk (buildStream db tid) (init tid))
    (hsl : ∀ tid ∈ keys, anchSlice (buildStream db tid) (init tid) =
      anchSlice (buildStream db seedTid) (init seedTid)) :
    (∀ sp ∈ (refineCore (buildStream db) keys seedTid init minChild maxChild).parentSpans,
      (sp.1 ∈ (refineCore (buildStream db) keys seedTid init minChild maxChild).survivors →
        hasRun (occTokens db sp.1 sp.2.1 sp.2.2)
          (word_tokens (refineCore (buildStream db) keys seedTid init minChild
            maxChild).parentPhrase) = true) ∧
      hasRun (occTokens db sp.1 sp.2.1 sp.2.2)
        (anchSlice (buildStream db seedTid) (init seedTid)) = true) ∧
    (∀ ch ∈ (refineCore (buildStream db) keys seedTid init minChild maxChild).children,
      ∀ sp ∈ ch.spans,
        hasRun (occTokens db sp.1 sp.2.1 sp.2.2) (word_tokens ch.phrase) = true) := by
  obtain ⟨s1, s2, s3, s4, s5, s6, s7, s8, s9, s10, s11, s12⟩ :=
    refineCore_spec (buildStream db) keys seedTid init minChild maxChild hk2 hnd hseed hok hsl
  have hocc : ∀ tid ∈ keys, ∀ a : Nat × Nat, AnchOk (buildStream db tid) a →
      hasRun (occTokens db tid (anchSpan (buildStream db tid) a).1
        (anchSpan (buildStream db tid) a).2) (anchSlice (buildStream db tid) a) = true := by
    intro tid htk a hok2
    exact anchor_occ_contains db tid (hal tid htk) a.1 a.2 hok2.1 hok2.2
  constructor
  · intro sp hsp
    rw [s12] at hsp
    rcases List.mem_append.mp hsp with hsv | hfz
    · obtain ⟨tid, htid, rfl⟩ := List.mem_map.mp hsv
      have htk : tid ∈ keys := s1 htid
      constructor
      · intro _
        have hwt : word_tokens (refineCore (buildStream db) keys seedTid init minChild
            maxChild).parentPhrase = anchSlice (buildStream db seedTid)
              ((refineCore (buildStream db) keys seedTid init minChild
                maxChild).anchorsFinal seedTid) := by
          rw [s11]
          exact word_tokens_join_of_good _ (anchSlice_good db seedTid _)
        rw [hwt, ← s6 tid htid]
        exact hocc tid htk _ (s5 tid htk).1
      · have h1 := hocc tid htk ((refineCore (buildStream db) keys seedTid init minChild
          maxChild).anchorsFinal tid) (s5 tid htk).1
        have h2 : hasRun (anchSlice (buildStream db tid)
            ((refineCore (buildStream db) keys seedTid init minChild
              maxChild).anchorsFinal tid))
            (anchSlice (buildStream db tid) (init tid)) = true :=
          sliceII_hasRun_of_grows (buildStream db tid).tokens (init tid) _ (s5 tid htk).2
        have h3 := hasRun_trans h1 h2
        rw [hsl tid htk] at h3
        exact h3
    · obtain ⟨p, hpf, rfl⟩ := List.mem_map.mp hfz
      have hp := s7 p (List.mem_filter.mp hpf).1
      constructor
      · intro hmem
        exfalso
        have hflt := (List.mem_filter.mp hpf).2
        simp at hflt
        exact hflt hmem
      · have h1 := hocc p.1 hp.1 p.2 hp.2.1
        have h2 : hasRun (anchSlice (buildStream db p.1) p.2)
            (anchSlice (buildStream db p.1) (init p.1)) = true :=
          sliceII_hasRun_of_grows (buildStream db p.1).tokens (init p.1) p.2 hp.2.2
        have h3 := hasRun_trans h1 h2
        rw [hsl p.1 hp.1] at h3
        exact h3
  · intro ch hch sp hsp
    obtain ⟨toks, hne, hphr, hrep, hspgood⟩ := s10 ch hch
    obtain ⟨hk, a, haok, haeq, hspan⟩ := hspgood sp hsp
    have hwt : word_tokens ch.phrase = toks := by
      rw [hphr]
      refine word_tokens_join_of_good toks ?_
      obtain ⟨rtid, hrtk, b, hbok, hbeq⟩ := hrep
      intro t ht
      rw [← hbeq] at ht
      exact anchSlice_good db rtid b t ht
    rw [hwt, ← haeq, hspan]
    exact hocc sp.1 hk a haok

/-- Witness for C1 (amended): the frozen-outlier span of transcript 3 in
`cx1`'s refinement result still contains the tokenized seed window `a b`. -/
theorem C1_amended_witness :
    ((3, 4, 4) : Nat × Nat × Nat) ∈
      (refineCore (buildStream cx1) [1, 2, 3] 1
        (fun _ => ((0 : Nat), (1 : Nat))) 1 4).parentSpans ∧
    hasRun (occTokens cx1 3 4 4) (anchSlice (buildStream cx1 1) (0, 1)) = true :=
  ⟨by decide,
    ((C1_amended cx1 [1, 2, 3] 1 (fun _ => (0, 1)) 1 4 (by decide) (by decide)
      (by decide) (by decide) (by decide) (by decide)).1 (3, 4, 4) (by decide)).2⟩

/-! # C2 -/

/-- C2 counterexample: after `build_first_cu` on the corpus `cx1`, some
persisted canonical unit (the child `a b`, spawned with `min_child_size = 1`)
has fewer than two occurrence rows. -/
theorem C2_counterexample :
    ∃ cu ∈ (build_first_cu cx1 1 1 2).2.canonicalUnits,
      ((build_first_cu cx1 1 1 2).2.cuOccurrences.filter
        (fun o => o.cuId = cu.id)).length < 2 := by
  decide

/-- C2 (amended): the PARENT unit always has at least two occurrence rows in
pairwise distinct transcripts; child units are only guaranteed
`min_child_size` occurrences, and `build_first_cu` passes `min_child_size = 1`,
so a child may be persisted with a single occurrence. -/
theorem C2_amended (streams : Nat → TokStream) (keys : List Nat) (seedTid : Nat)
    (init : Nat → Nat × Nat) (minChild maxChild : Nat)
    (hk2 : 2 ≤ keys.length) (hnd : keys.Nodup) (hseed : seedTid ∈ keys)
    (hok : ∀ tid ∈ keys, AnchOk (streams tid) (init tid))
    (hsl : ∀ tid ∈ keys, anchSlice (streams tid) (init tid) =
      anchSlice (streams seedTid) (init seedTid)) :
    2 ≤ (refineCore streams keys seedTid init minChild maxChild).parentSpans.length ∧
    ((refineCore streams keys seedTid init minChild maxChild).parentSpans.map
      (·.1)).Nodup := by
  obtain ⟨s1, s2, s3, s4, s5, s6, s7, s8, s9, s10, s11, s12⟩ :=
    refineCore_spec streams keys seedTid init minChild maxChild hk2 hnd hseed hok hsl
  have hless : (refineCore streams keys seedTid init minChild maxChild).parentSpans.map
      (·.1) =
      (refineCore streams keys seedTid init minChild maxChild).survivors ++
      ((refineCore streams keys seedTid init minChild maxChild).frozen.filter (fun p =>
        !(refineCore streams keys seedTid init minChild maxChild).survivors.contains
          p.1)).map (·.1) := by
    rw [s12]
    exact spans_keys streams
      (refineCore streams keys seedTid init minChild maxChild).survivors
      (refineCore streams keys seedTid init minChild maxChild).anchorsFinal
      (refineCore streams keys seedTid init minChild maxChild).frozen
  constructor
  · rw [s12, List.length_append, List.length_map]
    exact le_trans s4 (Nat.le_add_right _ _)
  · rw [hless]
    refine List.Nodup.append s2 ?_ ?_
    · exact List.Nodup.sublist (List.Sublist.map _ (List.filter_sublist _)) s8
    · intro a ha hb
      obtain ⟨p, hpf, hpe⟩ := List.mem_map.mp hb
      have hflt := (List.mem_filter.mp hpf).2
      simp at hflt
      rw [hpe] at hflt
      exact hflt ha

/-- Witness for C2 (amended): on `cx1` the parent result has three spans in
three distinct transcripts. -/
theorem C2_amended_witness :
    2 ≤ (refineCore (buildStream cx1) [1, 2, 3] 1
      (fun _ => ((0 : Nat), (1 : Nat))) 1 4).parentSpans.length ∧
    ((refineCore (buildStream cx1) [1, 2, 3] 1
      (fun _ => ((0 : Nat), (1 : Nat))) 1 4).parentSpans.map (·.1)).Nodup :=
  C2_amended (buildStream cx1) [1, 2, 3] 1 (fun _ => (0, 1)) 1 4
    (by decide) (by decide) (by decide) (by decide) (by decide)

end Clipmine
